import Mathlib

/-!
# Verification of the City Navigation graph core

A shallow embedding of the graph storage engine and algorithmic layer of the
City Navigation system (graph.c / algorithms.c): the dynamic city array with
adjacency lists, the indexed binary min-heap, Dijkstra's algorithm, A* with
the truncated Euclidean heuristic, and the BFS/DFS traversals.

Modelling conventions:
* C `int` values are modelled as unbounded `Int` (no claim under scrutiny
  depends on wrap-around behaviour).
* The singly-linked adjacency lists and the heap's node array are modelled as
  `List`s holding exactly the live elements.
* The heap's position side-table (`int *pos`, 1000 slots in the C code) is
  modelled as a total function `Int → Int`; the bounds question for the
  1000-slot allocation is modelled separately (`posReads` / `posWrites`).
* Loops are modelled by structural recursion on an explicit fuel argument;
  every top-level entry point passes a fuel that provably dominates the number
  of iterations the C loop performs.
* Functions that print and mutate state return the data they print; functions
  returning `NULL` on failure return `Option`.
* The algorithms receive the graph and give it back in their result so that
  read-only behaviour (the frame property) is expressible.
-/

namespace CityNav

/-- `#define INF 999999` from graph.h. -/
def INF : Int := 999999

/-- `#define MAX_CITY_NAME 50` from graph.h. -/
def MAX_CITY_NAME : Nat := 50

/-- `struct Edge`: directed edge owned by its source city's adjacency list. -/
structure Edge where
  destCityID : Int
  distance : Int
deriving DecidableEq, Repr

/-- `struct City`. -/
structure City where
  cityID : Int
  cityName : String
  x : Int
  y : Int
  adjList : List Edge
deriving DecidableEq, Repr

/-- `struct Graph`: dynamic array of cities plus current capacity. -/
structure Graph where
  cities : List City
  capacity : Nat
deriving DecidableEq, Repr

/-- `g->numCities`. -/
def numCities (g : Graph) : Nat := g.cities.length

/-- Default city used to read `g->cities[i]` at an index; all reads in the
algorithms are performed at valid indices, where the default is irrelevant. -/
def dCity : City := ⟨-1, "", 0, 0, []⟩

/-- The city stored at array slot `i`. -/
def nthCity (g : Graph) (i : Nat) : City := g.cities.getD i dCity

/-- `findCityIndex`: linear search for a city id, `-1` when absent. -/
def findCityIndex (g : Graph) (cityID : Int) : Int :=
  match g.cities.findIdx? (fun c => c.cityID == cityID) with
  | some i => (i : Int)
  | none => -1

/-- `addCity`: fails (status 0) on duplicate id; doubles the capacity when the
array is full; appends the city with an empty adjacency list, truncating the
name to `MAX_CITY_NAME - 1` characters (`strncpy`); returns status 1. -/
def addCity (g : Graph) (cityID : Int) (cityName : String) (x y : Int) :
    Int × Graph :=
  if findCityIndex g cityID ≠ -1 then (0, g)
  else
    let cap := if numCities g ≥ g.capacity then g.capacity * 2 else g.capacity
    let newCity : City := ⟨cityID, cityName.take (MAX_CITY_NAME - 1), x, y, []⟩
    (1, ⟨g.cities ++ [newCity], cap⟩)

/-- The edge-removal scan inside `deleteCity`: drop every edge whose target is
`cityID` (the C loop unlinks each matching node of the singly-linked list). -/
def removeEdgesTo (l : List Edge) (cityID : Int) : List Edge :=
  l.filter (fun e => e.destCityID ≠ cityID)

/-- `deleteCity`: fails (status 0) when the id is absent; otherwise frees the
city's own list, removes every edge targeting the city from all *other*
cities, and closes the gap by shifting the subsequent cities left. -/
def deleteCity (g : Graph) (cityID : Int) : Int × Graph :=
  let index := findCityIndex g cityID
  if index = -1 then (0, g)
  else
    let pruned := g.cities.mapIdx (fun i c =>
      if (i : Int) = index then c
      else { c with adjList := removeEdgesTo c.adjList cityID })
    (1, ⟨pruned.eraseIdx index.toNat, g.capacity⟩)

/-- The duplicate-road scan of `addRoad`: update the first edge with the given
target in place, or report that no such edge exists. -/
def updateRoad (l : List Edge) (toCityID newDistance : Int) :
    Option (List Edge) :=
  match l with
  | [] => none
  | e :: rest =>
    if e.destCityID = toCityID then
      some ({ e with distance := newDistance } :: rest)
    else
      match updateRoad rest toCityID newDistance with
      | some rest2 => some (e :: rest2)
      | none => none

/-- Replace the adjacency list of the city stored at slot `i`. -/
def setCityAdj (g : Graph) (i : Nat) (adj : List Edge) : Graph :=
  ⟨g.cities.set i { nthCity g i with adjList := adj }, g.capacity⟩

/-- `addRoad`: fails (status 0) when an endpoint is absent or the distance is
non-positive; updates the existing edge's weight when the road already exists;
otherwise prepends a fresh edge to the source city's adjacency list. -/
def addRoad (g : Graph) (fromCityID toCityID distance : Int) : Int × Graph :=
  let fromIndex := findCityIndex g fromCityID
  let toIndex := findCityIndex g toCityID
  if fromIndex = -1 ∨ toIndex = -1 then (0, g)
  else if distance ≤ 0 then (0, g)
  else
    match updateRoad (nthCity g fromIndex.toNat).adjList toCityID distance with
    | some adj2 => (1, setCityAdj g fromIndex.toNat adj2)
    | none =>
      (1, setCityAdj g fromIndex.toNat
        (⟨toCityID, distance⟩ :: (nthCity g fromIndex.toNat).adjList))

/-! ## The indexed binary min-heap -/

/-- `struct HeapNode`. -/
structure HeapNode where
  cityID : Int
  distance : Int
  fScore : Int
deriving DecidableEq, Repr

/-- `struct MinHeap`.  `nodes` holds exactly the `size` live heap slots; the
position table is a total map (the C allocation backing it has 1000 slots,
which is treated by the bounds analysis below). -/
structure MinHeap where
  nodes : List HeapNode
  capacity : Nat
  pos : Int → Int

/-- Heap slot read `h->nodes[i]` (all reads in the operations occur at live
indices). -/
def nthNode (ns : List HeapNode) (i : Nat) : HeapNode := ns.getD i ⟨-1, 0, 0⟩

/-- A single store `h->pos[c] = v` to the position table. -/
def posUpdate (p : Int → Int) (c v : Int) : Int → Int :=
  fun j => if j = c then v else p j

/-- `createMinHeap`: empty heap, every position-table entry initialised
to `-1`. -/
def createMinHeap (capacity : Nat) : MinHeap := ⟨[], capacity, fun _ => -1⟩

/-- `isHeapEmpty`. -/
def isHeapEmpty (h : MinHeap) : Bool := h.nodes.isEmpty

/-- `minHeapify`: sift-down at `idx`, picking the smaller child (left on a
tie), updating both repositioned ids' table entries before the swap.  `fuel`
dominates the recursion depth; every caller passes enough fuel. -/
def minHeapify : Nat → MinHeap → Nat → MinHeap
  | 0, h, _ => h
  | fuel+1, h, idx =>
    let sz := h.nodes.length
    let left := 2*idx+1
    let right := 2*idx+2
    let s1 := if left < sz ∧ (nthNode h.nodes left).fScore < (nthNode h.nodes idx).fScore
      then left else idx
    let smallest := if right < sz ∧ (nthNode h.nodes right).fScore < (nthNode h.nodes s1).fScore
      then right else s1
    if smallest ≠ idx then
      let p2 := posUpdate (posUpdate h.pos (nthNode h.nodes smallest).cityID (idx : Int))
        (nthNode h.nodes idx).cityID (smallest : Int)
      let ns2 := (h.nodes.set smallest (nthNode h.nodes idx)).set idx (nthNode h.nodes smallest)
      minHeapify fuel ⟨ns2, h.capacity, p2⟩ smallest
    else h

/-- `extractMin`: sentinel node on an empty heap; otherwise remove the root,
move the last node to slot 0 (the root's table entry is cleared *before* the
last node's entry is set to 0), shrink, and sift down. -/
def extractMin (h : MinHeap) : HeapNode × MinHeap :=
  if h.nodes.isEmpty then (⟨-1, INF, INF⟩, h)
  else
    let root := nthNode h.nodes 0
    let lastNode := nthNode h.nodes (h.nodes.length - 1)
    let ns2 := (h.nodes.set 0 lastNode).dropLast
    let p2 := posUpdate (posUpdate h.pos root.cityID (-1)) lastNode.cityID 0
    (root, minHeapify (ns2.length + 1) ⟨ns2, h.capacity, p2⟩ 0)

/-- The bubble-up loop shared verbatim by `insertHeap` and `decreaseKey`:
swap with the parent while the parent's fScore is larger, updating both
repositioned ids' table entries before each swap.  A fuel of `i` suffices. -/
def bubbleUp : Nat → List HeapNode → (Int → Int) → Nat →
    List HeapNode × (Int → Int)
  | 0, ns, p, _ => (ns, p)
  | fuel+1, ns, p, i =>
    if 0 < i ∧ (nthNode ns i).fScore < (nthNode ns ((i-1)/2)).fScore then
      let par := (i-1)/2
      let p2 := posUpdate (posUpdate p (nthNode ns i).cityID (par : Int))
        (nthNode ns par).cityID (i : Int)
      let ns2 := (ns.set i (nthNode ns par)).set par (nthNode ns i)
      bubbleUp fuel ns2 p2 par
    else (ns, p)

/-- `decreaseKey`: no-op when the position entry is `-1`; otherwise store the
new scores into the slot named by the position table and bubble up.  (When
the table is stale and names a slot at or past the live size, the C code
writes a dead array slot that is never read back before being overwritten;
the model drops that store.) -/
def decreaseKey (h : MinHeap) (cityID newDist newFScore : Int) : MinHeap :=
  let i := h.pos cityID
  if i = -1 then h
  else
    let iN := i.toNat
    let ns1 :=
      if iN < h.nodes.length then
        h.nodes.set iN
          { nthNode h.nodes iN with distance := newDist, fScore := newFScore }
      else h.nodes
    let r := bubbleUp iN ns1 h.pos iN
    ⟨r.1, h.capacity, r.2⟩

/-- `insertHeap`: silent no-op at capacity; otherwise append the node, record
its slot in the position table, and bubble up. -/
def insertHeap (h : MinHeap) (cityID distance fScore : Int) : MinHeap :=
  if h.nodes.length ≥ h.capacity then h
  else
    let i := h.nodes.length
    let ns1 := h.nodes ++ [⟨cityID, distance, fScore⟩]
    let p1 := posUpdate h.pos cityID (i : Int)
    let r := bubbleUp i ns1 p1 i
    ⟨r.1, h.capacity, r.2⟩

/-! ### Position-table access modelling

`createMinHeap` allocates the position table with `malloc(1000 * sizeof(int))`
— 1000 slots regardless of the heap capacity — and every heap operation
subscripts it directly with a raw city identifier (`h->pos[cityID]`,
`h->pos[h->nodes[i].cityID]`, …).  The functions below record, for each
operation, the exact sequence of subscripts the C code evaluates against that
allocation. -/

/-- The number of slots malloc'ed for `h->pos` in `createMinHeap`. -/
def posTableSize : Nat := 1000

/-- The position-table subscripts evaluated by the bubble-up loop. -/
def bubbleUpPosAccesses : Nat → List HeapNode → Nat → List Int
  | 0, _, _ => []
  | fuel+1, ns, i =>
    if 0 < i ∧ (nthNode ns i).fScore < (nthNode ns ((i-1)/2)).fScore then
      let par := (i-1)/2
      let ns2 := (ns.set i (nthNode ns par)).set par (nthNode ns i)
      (nthNode ns i).cityID :: (nthNode ns par).cityID ::
        bubbleUpPosAccesses fuel ns2 par
    else []

/-- The position-table subscripts evaluated by `minHeapify`. -/
def minHeapifyPosAccesses : Nat → MinHeap → Nat → List Int
  | 0, _, _ => []
  | fuel+1, h, idx =>
    let sz := h.nodes.length
    let left := 2*idx+1
    let right := 2*idx+2
    let s1 := if left < sz ∧ (nthNode h.nodes left).fScore < (nthNode h.nodes idx).fScore
      then left else idx
    let smallest := if right < sz ∧ (nthNode h.nodes right).fScore < (nthNode h.nodes s1).fScore
      then right else s1
    if smallest ≠ idx then
      let p2 := posUpdate (posUpdate h.pos (nthNode h.nodes smallest).cityID (idx : Int))
        (nthNode h.nodes idx).cityID (smallest : Int)
      let ns2 := (h.nodes.set smallest (nthNode h.nodes idx)).set idx (nthNode h.nodes smallest)
      (nthNode h.nodes smallest).cityID :: (nthNode h.nodes idx).cityID ::
        minHeapifyPosAccesses fuel ⟨ns2, h.capacity, p2⟩ smallest
    else []

/-- The position-table subscripts evaluated by `insertHeap`: the unconditional
`h->pos[cityID] = i` store, then the bubble-up loop's stores. -/
def insertHeapPosAccesses (h : MinHeap) (cityID distance fScore : Int) :
    List Int :=
  if h.nodes.length ≥ h.capacity then []
  else
    cityID :: bubbleUpPosAccesses h.nodes.length
      (h.nodes ++ [⟨cityID, distance, fScore⟩]) h.nodes.length

/-- The position-table subscripts evaluated by `decreaseKey`: the
unconditional `h->pos[cityID]` read, then (when resident) the bubble-up
loop's stores. -/
def decreaseKeyPosAccesses (h : MinHeap) (cityID newDist newFScore : Int) :
    List Int :=
  cityID ::
    (if h.pos cityID = -1 then []
     else
      let iN := (h.pos cityID).toNat
      let ns1 :=
        if iN < h.nodes.length then
          h.nodes.set iN
            { nthNode h.nodes iN with distance := newDist, fScore := newFScore }
        else h.nodes
      bubbleUpPosAccesses iN ns1 iN)

/-- The position-table subscripts evaluated by `extractMin`: the stores for
the removed root and relocated last node, then `minHeapify`'s stores. -/
def extractMinPosAccesses (h : MinHeap) : List Int :=
  if h.nodes.isEmpty then []
  else
    let root := nthNode h.nodes 0
    let lastNode := nthNode h.nodes (h.nodes.length - 1)
    let ns2 := (h.nodes.set 0 lastNode).dropLast
    let p2 := posUpdate (posUpdate h.pos root.cityID (-1)) lastNode.cityID 0
    root.cityID :: lastNode.cityID ::
      minHeapifyPosAccesses (ns2.length + 1) ⟨ns2, h.capacity, p2⟩ 0

/-! ## Path results -/

/-- `struct PathResult`: `path` holds the `pathLength` stored ids. -/
structure PathResult where
  path : List Int
  totalDistance : Int
  pathCapacity : Nat
deriving DecidableEq, Repr

/-- `pr->pathLength`. -/
def pathLength (pr : PathResult) : Nat := pr.path.length

/-- `createPathResult`. -/
def createPathResult (capacity : Nat) : PathResult := ⟨[], 0, capacity⟩

/-- `addToPath`: append one id, doubling the capacity on overflow. -/
def addToPath (pr : PathResult) (cityID : Int) : PathResult :=
  let cap := if pr.path.length ≥ pr.pathCapacity then pr.pathCapacity * 2
    else pr.pathCapacity
  ⟨pr.path ++ [cityID], pr.totalDistance, cap⟩

/-- `reversePath`. -/
def reversePath (pr : PathResult) : PathResult :=
  ⟨pr.path.reverse, pr.totalDistance, pr.pathCapacity⟩

/-! ## Dijkstra -/

/-- The relaxation scan over one adjacency list inside Dijkstra's main loop:
`if (dist[u] != INF && dist[u] + w < dist[v])` update `dist`, `parent`, and
decrease the heap key. -/
def relaxEdges (g : Graph) (u : Int) :
    List Edge → (Nat → Int) → (Nat → Int) → MinHeap →
    (Nat → Int) × (Nat → Int) × MinHeap
  | [], dist, parent, h => (dist, parent, h)
  | e :: rest, dist, parent, h =>
    let v := findCityIndex g e.destCityID
    if dist u.toNat ≠ INF ∧ dist u.toNat + e.distance < dist v.toNat then
      let newD := dist u.toNat + e.distance
      let dist2 := fun j => if j = v.toNat then newD else dist j
      let parent2 := fun j => if j = v.toNat then u else parent j
      let h2 := decreaseKey h e.destCityID (dist2 v.toNat) (dist2 v.toNat)
      relaxEdges g u rest dist2 parent2 h2
    else relaxEdges g u rest dist parent h

/-- Dijkstra's main loop: extract the minimum, stop when the destination is
extracted, otherwise relax the extracted city's outgoing edges.  One unit of
fuel is spent per extraction, so `numCities + 1` fuel always suffices. -/
def dijkstraLoop (destIndex : Int) :
    Nat → Graph → (Nat → Int) → (Nat → Int) → MinHeap →
    Graph × (Nat → Int) × (Nat → Int)
  | 0, g, dist, parent, _ => (g, dist, parent)
  | fuel+1, g, dist, parent, h =>
    if isHeapEmpty h then (g, dist, parent)
    else
      let r := extractMin h
      let u := findCityIndex g r.1.cityID
      if u = destIndex then (g, dist, parent)
      else
        let s := relaxEdges g u (nthCity g u.toNat).adjList dist parent r.2
        dijkstraLoop destIndex fuel g s.1 s.2.1 s.2.2

/-- The parent-link walk that accumulates the path destination-first. -/
def buildPath (g : Graph) (parent : Nat → Int) :
    Nat → Int → PathResult → PathResult
  | 0, _, pr => pr
  | fuel+1, current, pr =>
    if current = -1 then pr
    else buildPath g parent fuel (parent current.toNat)
      (addToPath pr (nthCity g current.toNat).cityID)

/-- The eager initial build of Dijkstra's heap: insert every city keyed by its
initial tentative distance. -/
def insertAll (g : Graph) (dist : Nat → Int) (h0 : MinHeap) : MinHeap :=
  (List.range (numCities g)).foldl
    (fun h i => insertHeap h (nthCity g i).cityID (dist i) (dist i)) h0

/-- `dijkstra`: `none` when an endpoint is missing, otherwise the path result;
the graph is handed back unchanged (read-only). -/
def dijkstra (g : Graph) (sourceCityID destCityID : Int) :
    Option PathResult × Graph :=
  let srcIndex := findCityIndex g sourceCityID
  let destIndex := findCityIndex g destCityID
  if srcIndex = -1 ∨ destIndex = -1 then (none, g)
  else
    let n := numCities g
    let dist0 : Nat → Int := fun i => if i = srcIndex.toNat then 0 else INF
    let parent0 : Nat → Int := fun _ => -1
    let h1 := insertAll g dist0 (createMinHeap n)
    let r := dijkstraLoop destIndex (n + 1) g dist0 parent0 h1
    let g2 := r.1
    let dist := r.2.1
    let parent := r.2.2
    if dist destIndex.toNat = INF then (some (createPathResult n), g2)
    else
      let result1 : PathResult := ⟨[], dist destIndex.toNat, n⟩
      (some (reversePath (buildPath g2 parent (n + 1) destIndex result1)), g2)

/-! ## A* -/

/-- `heuristic`: truncated Euclidean distance between two cities' coordinates
(`(int)sqrt(dx*dx + dy*dy)` becomes `Nat.sqrt`). -/
def heuristic (g : Graph) (cityIndex1 cityIndex2 : Nat) : Int :=
  let dx := (nthCity g cityIndex1).x - (nthCity g cityIndex2).x
  let dy := (nthCity g cityIndex1).y - (nthCity g cityIndex2).y
  Int.ofNat (Nat.sqrt (dx * dx + dy * dy).toNat)

/-- The relaxation scan of A*: on success update `gScore`, `fScore`, `parent`,
then insert the neighbour if it is not heap-resident and decrease its key
otherwise. -/
def astarRelax (g : Graph) (destIndex : Int) (u : Int) :
    List Edge → (Nat → Int) → (Nat → Int) → (Nat → Int) → MinHeap →
    (Nat → Int) × (Nat → Int) × (Nat → Int) × MinHeap
  | [], gScore, fScore, parent, h => (gScore, fScore, parent, h)
  | e :: rest, gScore, fScore, parent, h =>
    let v := findCityIndex g e.destCityID
    let tentative := gScore u.toNat + e.distance
    if tentative < gScore v.toNat then
      let gScore2 := fun j => if j = v.toNat then tentative else gScore j
      let fScore2 := fun j =>
        if j = v.toNat then tentative + heuristic g v.toNat destIndex.toNat
        else fScore j
      let parent2 := fun j => if j = v.toNat then u else parent j
      let h2 :=
        if h.pos e.destCityID = -1 then
          insertHeap h e.destCityID (gScore2 v.toNat) (fScore2 v.toNat)
        else
          decreaseKey h e.destCityID (gScore2 v.toNat) (fScore2 v.toNat)
      astarRelax g destIndex u rest gScore2 fScore2 parent2 h2
    else astarRelax g destIndex u rest gScore fScore parent h

/-- A*'s main loop, analogous to Dijkstra's but with lazy insertion. -/
def astarLoop (destIndex : Int) :
    Nat → Graph → (Nat → Int) → (Nat → Int) → (Nat → Int) → MinHeap →
    Graph × (Nat → Int) × (Nat → Int)
  | 0, g, gScore, _, parent, _ => (g, gScore, parent)
  | fuel+1, g, gScore, fScore, parent, h =>
    if isHeapEmpty h then (g, gScore, parent)
    else
      let r := extractMin h
      let u := findCityIndex g r.1.cityID
      if u = destIndex then (g, gScore, parent)
      else
        let s := astarRelax g destIndex u (nthCity g u.toNat).adjList
          gScore fScore parent r.2
        astarLoop destIndex fuel g s.1 s.2.1 s.2.2.1 s.2.2.2

/-- Fuel passed to `astarLoop`: one unit per extraction.  Every insertion of a
city strictly decreases its gScore, whose value lies in `[0, INF)` once set,
so the extraction count never exceeds `numCities * (INF + 1) + 1`. -/
def astarFuel (g : Graph) : Nat := numCities g * 1000000 + numCities g + 2

/-- `astar`: `none` when an endpoint is missing; otherwise run the loop from a
heap holding only the source and rebuild the path from the parent links. -/
def astar (g : Graph) (sourceCityID destCityID : Int) :
    Option PathResult × Graph :=
  let srcIndex := findCityIndex g sourceCityID
  let destIndex := findCityIndex g destCityID
  if srcIndex = -1 ∨ destIndex = -1 then (none, g)
  else
    let n := numCities g
    let gScore0 : Nat → Int := fun i => if i = srcIndex.toNat then 0 else INF
    let fScore0 : Nat → Int := fun i =>
      if i = srcIndex.toNat then heuristic g srcIndex.toNat destIndex.toNat
      else INF
    let parent0 : Nat → Int := fun _ => -1
    let h1 := insertHeap (createMinHeap n) (nthCity g srcIndex.toNat).cityID
      (gScore0 srcIndex.toNat) (fScore0 srcIndex.toNat)
    let r := astarLoop destIndex (astarFuel g) g gScore0 fScore0 parent0 h1
    let g2 := r.1
    let gScore := r.2.1
    let parent := r.2.2
    if gScore destIndex.toNat = INF then (some (createPathResult n), g2)
    else
      let result1 : PathResult := ⟨[], gScore destIndex.toNat, n⟩
      (some (reversePath (buildPath g2 parent (n + 1) destIndex result1)), g2)

/-! ## BFS and DFS -/

/-- The neighbour scan of one BFS dequeue: mark and enqueue each existing,
unvisited target in adjacency-list order. -/
def bfsVisit (g : Graph) :
    List Edge → (Nat → Bool) → List Nat → (Nat → Bool) × List Nat
  | [], visited, rear => (visited, rear)
  | e :: rest, visited, rear =>
    let destIndex := findCityIndex g e.destCityID
    if destIndex ≠ -1 ∧ visited destIndex.toNat = false then
      bfsVisit g rest (fun j => if j = destIndex.toNat then true else visited j)
        (rear ++ [destIndex.toNat])
    else bfsVisit g rest visited rear

/-- BFS's FIFO loop; the accumulated `order` is the printed visit order. -/
def bfsLoop :
    Nat → Graph → List Nat → (Nat → Bool) → List Nat → Graph × List Nat
  | 0, g, _, _, order => (g, order)
  | fuel+1, g, queue, visited, order =>
    match queue with
    | [] => (g, order)
    | current :: queueRest =>
      let r := bfsVisit g (nthCity g current).adjList visited []
      bfsLoop fuel g (queueRest ++ r.2) r.1 (order ++ [current])

/-- `BFS`: `none` when the start city is missing; otherwise the visit order
(as array slots), with the graph handed back unchanged. -/
def BFS (g : Graph) (startCityID : Int) : Option (List Nat) × Graph :=
  let startIndex := findCityIndex g startCityID
  if startIndex = -1 then (none, g)
  else
    let visited0 : Nat → Bool := fun j => j = startIndex.toNat
    let r := bfsLoop (numCities g + 1) g [startIndex.toNat] visited0 []
    (some r.2, r.1)

/-- `DFSUtil`: recursive pre-order exploration.  The fuel bounds the recursion
depth; at most `numCities` nested calls can occur since every call marks a
previously unvisited city. -/
def DFSUtil : Nat → Graph → Nat → (Nat → Bool) → Graph × (Nat → Bool) × List Nat
  | 0, g, _, visited => (g, visited, [])
  | fuel+1, g, cityIndex, visited =>
    let visited1 : Nat → Bool := fun j => if j = cityIndex then true else visited j
    let step := fun (st : Graph × (Nat → Bool) × List Nat) (e : Edge) =>
      let destIndex := findCityIndex st.1 e.destCityID
      if destIndex ≠ -1 ∧ st.2.1 destIndex.toNat = false then
        let r := DFSUtil fuel st.1 destIndex.toNat st.2.1
        (r.1, r.2.1, st.2.2 ++ r.2.2)
      else st
    let r := (nthCity g cityIndex).adjList.foldl step (g, visited1, [])
    (r.1, r.2.1, cityIndex :: r.2.2)

/-- `DFS`: `none` when the start city is missing; otherwise the pre-order
visit order, with the graph handed back unchanged. -/
def DFS (g : Graph) (startCityID : Int) : Option (List Nat) × Graph :=
  let startIndex := findCityIndex g startCityID
  if startIndex = -1 then (none, g)
  else
    let r := DFSUtil (numCities g + 1) g startIndex.toNat (fun _ => false)
    (some r.2.2, r.1)

/-! ## Specification-side notions -/

/-- Directed reachability with a path of total weight `w` between two array
slots, following edges of the adjacency lists; the empty path gives
`Reaches g i i 0`. -/
inductive Reaches (g : Graph) : Nat → Nat → Int → Prop
  | refl (i : Nat) : Reaches g i i 0
  | step {i j k : Nat} {w : Int} (e : Edge) (hij : Reaches g i j w)
      (he : e ∈ (nthCity g j).adjList) (hk : k < numCities g)
      (htgt : (nthCity g k).cityID = e.destCityID) :
      Reaches g i k (w + e.distance)

/-! ### Heap invariant notions -/

/-- The binary-heap ordering: every non-root slot's parent carries a
smaller-or-equal fScore. -/
def heapOrdered (ns : List HeapNode) : Prop :=
  ∀ i, 0 < i → i < ns.length →
    (nthNode ns ((i-1)/2)).fScore ≤ (nthNode ns i).fScore

/-- The city ids currently resident in the heap array. -/
def residentIds (ns : List HeapNode) : List Int := ns.map HeapNode.cityID

/-- The position table names the correct slot for every resident node. -/
def posAccurate (h : MinHeap) : Prop :=
  ∀ k, k < h.nodes.length → h.pos (nthNode h.nodes k).cityID = (k : Int)

/-- The structural invariant of the indexed heap: ordering, position-table
accuracy, distinct resident ids. -/
def HeapInv (h : MinHeap) : Prop :=
  heapOrdered h.nodes ∧ posAccurate h ∧ (residentIds h.nodes).Nodup

/-- The heap, ordered except possibly between slot `i` and its parent: all
other parent links are ordered, and `i`'s children (if any) dominate `i`'s
parent.  This is the sift-up loop invariant. -/
def upHeapExcept (ns : List HeapNode) (i : Nat) : Prop :=
  (∀ j, 0 < j → j < ns.length → j ≠ i →
    (nthNode ns ((j-1)/2)).fScore ≤ (nthNode ns j).fScore) ∧
  (0 < i → ∀ j, j < ns.length → (j-1)/2 = i →
    (nthNode ns ((i-1)/2)).fScore ≤ (nthNode ns j).fScore)

/-- The heap, ordered except possibly between slot `idx` and its children:
all parent links not leaving `idx` are ordered, and `idx`'s children
dominate `idx`'s parent.  This is the sift-down (minHeapify) invariant. -/
def downHeapExcept (ns : List HeapNode) (idx : Nat) : Prop :=
  (∀ j, 0 < j → j < ns.length → (j-1)/2 ≠ idx →
    (nthNode ns ((j-1)/2)).fScore ≤ (nthNode ns j).fScore) ∧
  (0 < idx → ∀ j, j < ns.length → (j-1)/2 = idx →
    (nthNode ns ((idx-1)/2)).fScore ≤ (nthNode ns j).fScore)

/-- Soundness of a tentative-distance table: entries never exceed the INF
sentinel, and every finite entry for a valid slot is the weight of an actual
directed path from `src`. -/
def DistSound (g : Graph) (src : Nat) (dist : Nat → Int) : Prop :=
  (∀ v, dist v ≤ INF) ∧
  (∀ v, v < numCities g → dist v ≠ INF → Reaches g src v (dist v))

/-- `w` is the minimum weight of a directed path from `src` to `v`. -/
def IsMinReach (g : Graph) (src v : Nat) (w : Int) : Prop :=
  Reaches g src v w ∧ ∀ w2, Reaches g src v w2 → w ≤ w2

/-- The loop invariant of Dijkstra's algorithm over the embedded state.
`F` is the set of finalized (extracted) slots. -/
structure DijkstraInv (g : Graph) (src : Nat) (F : Nat → Prop)
    (dist : Nat → Int) (h : MinHeap) : Prop where
  sound : DistSound g src dist
  srcZero : dist src = 0
  hinv : HeapInv h
  resid : ∀ v, v < numCities g →
    (¬ F v ↔ (nthCity g v).cityID ∈ residentIds h.nodes)
  nodes : ∀ nd ∈ h.nodes, ∃ v, v < numCities g ∧ ¬ F v ∧
    (nthCity g v).cityID = nd.cityID ∧ nd.distance = dist v ∧
    nd.fScore = dist v
  Fsub : ∀ v, F v → v < numCities g
  final : ∀ u, F u → ∀ w, Reaches g src u w → dist u ≤ w
  relaxed : ∀ u, F u → dist u ≠ INF → ∀ e ∈ (nthCity g u).adjList,
    dist (findCityIndex g e.destCityID).toNat ≤ dist u + e.distance
  fresh : ∀ c, c ∉ residentIds h.nodes → h.pos c = -1 ∨ h.nodes = []

/-- The data-model invariants of §3 of the specification: unique city ids,
no dangling edge targets, strictly positive edge weights. -/
def WellFormed (g : Graph) : Prop :=
  (g.cities.map City.cityID).Nodup ∧
  (∀ c ∈ g.cities, ∀ e ∈ c.adjList, findCityIndex g e.destCityID ≠ -1) ∧
  (∀ c ∈ g.cities, ∀ e ∈ c.adjList, 0 < e.distance)

instance (g : Graph) : Decidable (WellFormed g) := by
  unfold WellFormed
  infer_instance

/-- Every edge's weight dominates the straight-line distance between its
endpoint cities, stated in squared integer form — the §4.7 admissibility
premise of the A*–Dijkstra equivalence claim. -/
def EdgeGeo (g : Graph) : Prop :=
  ∀ i, i < numCities g → ∀ e ∈ (nthCity g i).adjList, ∀ k, k < numCities g →
    (nthCity g k).cityID = e.destCityID →
    ((nthCity g i).x - (nthCity g k).x) * ((nthCity g i).x - (nthCity g k).x) +
      ((nthCity g i).y - (nthCity g k).y) *
        ((nthCity g i).y - (nthCity g k).y)
      ≤ e.distance * e.distance

instance (g : Graph) : Decidable (EdgeGeo g) := by
  unfold EdgeGeo
  infer_instance

/-! ## Concrete graphs used by witnesses and counterexamples -/

/-- The §8 example scenario, built through the API: cities `A(0,0)`, `B(0,3)`,
`C(4,0)`, `D(4,3)` with ids 1–4 added in that order; roads A→B(3), A→C(4),
B→D(4), C→D(3) added in that order. -/
def exampleGraph : Graph :=
  (addRoad (addRoad (addRoad (addRoad
    (addCity (addCity (addCity (addCity ⟨[], 10⟩
      1 "A" 0 0).2 2 "B" 0 3).2 3 "C" 4 0).2 4 "D" 4 3).2
    1 2 3).2 1 3 4).2 2 4 4).2 3 4 3).2

/-- Two cities joined by a single road whose weight equals the INF
sentinel, built through the API (`addRoad` accepts any positive weight). -/
def heavyEdgeGraph : Graph :=
  (addRoad (addCity (addCity ⟨[], 4⟩ 1 "A" 0 0).2 2 "B" 0 0).2 1 2 999999).2

/-- Two cities and no roads at all. -/
def isolatedPairGraph : Graph :=
  (addCity (addCity ⟨[], 4⟩ 1 "A" 0 0).2 2 "B" 5 5).2

/-! ## Theorems -/

/-! ### Basic facts about city lookup -/

theorem findCityIndex_eq_neg_one_iff {g : Graph} {c : Int} :
    findCityIndex g c = -1 ↔ ∀ city ∈ g.cities, city.cityID ≠ c := by
  unfold findCityIndex
  rcases hf : g.cities.findIdx? (fun city => city.cityID == c) with _ | i <;>
    rw [hf]
  · rw [List.findIdx?_eq_none_iff] at hf
    simp only [beq_eq_false_iff_ne] at hf
    simpa using hf
  · constructor
    · intro h
      exact absurd h (by simp)
    · intro h
      rw [List.findIdx?_eq_some_iff_getElem] at hf
      obtain ⟨hi, hp, _⟩ := hf
      exact absurd (beq_iff_eq.mp hp) (h _ (g.cities.getElem_mem hi))

theorem findCityIndex_nonneg {g : Graph} {c : Int}
    (h : findCityIndex g c ≠ -1) : 0 ≤ findCityIndex g c := by
  unfold findCityIndex at *
  rcases hf : g.cities.findIdx? (fun city => city.cityID == c) with _ | i <;>
    rw [hf] at h ⊢
  · simp at h
  · exact Int.ofNat_nonneg i

theorem findCityIndex_found {g : Graph} {c : Int}
    (h : findCityIndex g c ≠ -1) :
    (findCityIndex g c).toNat < numCities g ∧
      (nthCity g (findCityIndex g c).toNat).cityID = c := by
  unfold findCityIndex at *
  rcases hf : g.cities.findIdx? (fun city => city.cityID == c) with _ | i <;>
    rw [hf] at h ⊢
  · simp at h
  · rw [List.findIdx?_eq_some_iff_getElem] at hf
    obtain ⟨hi, hp, _⟩ := hf
    refine ⟨by simpa [numCities] using hi, ?_⟩
    rw [nthCity, List.getD_eq_getElem?_getD]
    simp only [Int.toNat_ofNat]
    rw [List.getElem?_eq_getElem hi]
    exact beq_iff_eq.mp hp

theorem findCityIndex_of_mem {g : Graph} {city : City}
    (hm : city ∈ g.cities) : findCityIndex g city.cityID ≠ -1 := by
  intro h
  exact findCityIndex_eq_neg_one_iff.mp h city hm rfl

/-- Under unique ids, looking up the id stored at a valid slot returns that
slot. -/
theorem findCityIndex_nthCity {g : Graph}
    (hnd : (g.cities.map City.cityID).Nodup) {i : Nat} (hi : i < numCities g) :
    findCityIndex g (nthCity g i).cityID = (i : Int) := by
  have hi' : i < g.cities.length := hi
  have hmem : nthCity g i = g.cities[i] := by
    rw [nthCity, List.getD_eq_getElem?_getD, List.getElem?_eq_getElem hi']
    rfl
  unfold findCityIndex
  rcases hf : g.cities.findIdx? (fun city => city.cityID == (nthCity g i).cityID)
    with _ | j <;> rw [hf]
  · rw [List.findIdx?_eq_none_iff] at hf
    have := hf _ (g.cities.getElem_mem hi')
    rw [← hmem] at this
    simp at this
  · rw [List.findIdx?_eq_some_iff_getElem] at hf
    obtain ⟨hj, hp, hlt⟩ := hf
    have hid : g.cities[j].cityID = g.cities[i].cityID := by
      have := beq_iff_eq.mp hp
      rw [this, hmem]
    have hij : j = i := by
      have hjm : j < (g.cities.map City.cityID).length := by simpa using hj
      have him : i < (g.cities.map City.cityID).length := by
        simpa using hi'
      have : (g.cities.map City.cityID)[j] =
          (g.cities.map City.cityID)[i] := by
        simpa using hid
      exact (List.Nodup.getElem_inj_iff hnd).mp this
    simp [hij]

/-! ### C8: addCity -/

/-- **C8** (amended).  `addCity` fails with status 0 and leaves the graph
unchanged when the id is already present; otherwise it appends the city as a
new entry with an empty adjacency list (name truncated to 49 characters),
doubles the backing capacity exactly when the array was full, assigns the new
city the next slot index, keeps the count within capacity — and returns the
status flag 1, not the slot index. -/
theorem addCity_spec (g : Graph) (cityID : Int) (name : String) (x y : Int)
    (hcap : numCities g ≤ g.capacity) (hpos : 0 < g.capacity) :
    (findCityIndex g cityID ≠ -1 → addCity g cityID name x y = (0, g)) ∧
    (findCityIndex g cityID = -1 →
      (addCity g cityID name x y).1 = 1 ∧
      (addCity g cityID name x y).2.cities =
        g.cities ++ [⟨cityID, name.take (MAX_CITY_NAME - 1), x, y, []⟩] ∧
      (addCity g cityID name x y).2.capacity =
        (if numCities g ≥ g.capacity then g.capacity * 2 else g.capacity) ∧
      findCityIndex (addCity g cityID name x y).2 cityID = (numCities g : Int) ∧
      numCities (addCity g cityID name x y).2 ≤
        (addCity g cityID name x y).2.capacity) := by
  constructor
  · intro h
    rw [addCity, if_pos h]
  · intro h
    rw [addCity, if_neg (by simp [h])]
    refine ⟨rfl, rfl, rfl, ?_, ?_⟩
    · unfold findCityIndex at h ⊢
      rcases hf : g.cities.findIdx? (fun c => c.cityID == cityID) with _ | i
      · rw [List.findIdx?_append, hf]
        simp [List.findIdx?_cons, numCities]
      · rw [hf] at h
        exact absurd h (by simp)
    · simp only [numCities, List.length_append, List.length_singleton]
      rcases Nat.lt_or_ge (numCities g) g.capacity with hlt | hge
      · have hlt2 : g.cities.length < g.capacity := hlt
        rw [if_neg (by omega)]
        omega
      · have hge2 : g.capacity ≤ g.cities.length := hge
        have hcap2 : g.cities.length ≤ g.capacity := hcap
        rw [if_pos (by exact hge)]
        omega

/-- **C8** witness: concrete instance of `addCity_spec` on an empty graph of
capacity 4. -/
theorem addCity_spec_witness :
    numCities ⟨[], 4⟩ ≤ 4 ∧ 0 < 4 ∧ findCityIndex ⟨[], 4⟩ 7 = -1 ∧
    (addCity ⟨[], 4⟩ 7 "X" 0 0).1 = 1 :=
  ⟨by decide, by decide, by decide,
    ((addCity_spec ⟨[], 4⟩ 7 "X" 0 0 (by decide) (by decide)).2 (by decide)).1⟩

/-! ### C6: deleteCity -/

theorem nthCity_eq_getElem {g : Graph} {i : Nat} (h : i < g.cities.length) :
    nthCity g i = g.cities[i] := by
  rw [nthCity, List.getD_eq_getElem?_getD, List.getElem?_eq_getElem h]
  rfl

/-- **C6**.  When the target id exists and ids are unique, `deleteCity`
succeeds, no remaining adjacency list contains an edge targeting the deleted
id, the deleted id is no longer found, and the remaining cities keep their
previous relative order (their id sequence is the old sequence with the one
deleted slot removed). -/
theorem deleteCity_cascade (g : Graph) (x : Int)
    (hnd : (g.cities.map City.cityID).Nodup)
    (hx : findCityIndex g x ≠ -1) :
    (deleteCity g x).1 = 1 ∧
    (∀ c ∈ (deleteCity g x).2.cities, ∀ e ∈ c.adjList, e.destCityID ≠ x) ∧
    findCityIndex (deleteCity g x).2 x = -1 ∧
    (deleteCity g x).2.cities.map City.cityID =
      (g.cities.map City.cityID).eraseIdx (findCityIndex g x).toNat := by
  obtain ⟨hlt, hid⟩ := findCityIndex_found hx
  have hnn := findCityIndex_nonneg hx
  set idx := (findCityIndex g x).toNat with hidx
  have hint : findCityIndex g x = (idx : Int) := by omega
  have hlt' : idx < g.cities.length := hlt
  set f : Nat → City → City := fun i c =>
    if (i : Int) = findCityIndex g x then c
    else { c with adjList := removeEdgesTo c.adjList x } with hf
  set pruned := g.cities.mapIdx f with hpr
  have hres : deleteCity g x = (1, ⟨pruned.eraseIdx idx, g.capacity⟩) := by
    rw [deleteCity, if_neg hx]
  have hplen : pruned.length = g.cities.length := List.length_mapIdx
  have hgetp : ∀ i (h : i < pruned.length) (h2 : i < g.cities.length),
      pruned[i] = f i (g.cities[i]) := by
    intro i h h2
    simp only [hpr, List.getElem_mapIdx]
  have hpid : ∀ i (h : i < pruned.length),
      pruned[i].cityID = g.cities[i].cityID := by
    intro i h
    rw [hgetp i h (by omega)]
    by_cases hc : (i : Int) = findCityIndex g x <;> simp [hf, hc]
  have hxat : g.cities[idx].cityID = x := by
    rw [← nthCity_eq_getElem hlt']
    exact hid
  have key : ∀ i (h : i < pruned.length), i ≠ idx →
      (∀ e ∈ pruned[i].adjList, e.destCityID ≠ x) ∧ pruned[i].cityID ≠ x := by
    intro i h hne
    have hci : ¬ ((i : Int) = findCityIndex g x) := by
      rw [hint]
      omega
    constructor
    · intro e he
      rw [hgetp i h (by omega)] at he
      simp only [hf, hci, if_false] at he
      rw [removeEdgesTo] at he
      have := List.of_mem_filter he
      simpa using this
    · rw [hpid i h]
      intro hcon
      have h2 : i < g.cities.length := by omega
      have him : i < (g.cities.map City.cityID).length := by simpa using h2
      have hidxm : idx < (g.cities.map City.cityID).length := by
        simpa using hlt'
      have : (g.cities.map City.cityID)[i] =
          (g.cities.map City.cityID)[idx] := by
        simp only [List.getElem_map]
        rw [hcon, hxat]
      exact hne ((List.Nodup.getElem_inj_iff hnd).mp this)
  have hmem : ∀ c ∈ pruned.eraseIdx idx,
      (∀ e ∈ c.adjList, e.destCityID ≠ x) ∧ c.cityID ≠ x := by
    intro c hc
    rw [List.eraseIdx_eq_take_drop_succ] at hc
    rcases List.mem_append.mp hc with hin | hin
    · obtain ⟨i, hm, hpe⟩ := List.mem_take_iff_getElem.mp hin
      have hi1 : i < idx := by
        have := lt_min_iff.mp hm
        exact this.1
      have hi2 : i < pruned.length := by
        have := lt_min_iff.mp hm
        exact this.2
      rw [← hpe]
      exact key i hi2 (by omega)
    · obtain ⟨j, hj, hpe⟩ := List.mem_iff_getElem.mp hin
      rw [List.getElem_drop] at hpe
      have hjl : idx + 1 + j < pruned.length := by
        have := hj
        rw [List.length_drop] at this
        omega
      rw [← hpe]
      exact key (idx + 1 + j) hjl (by omega)
  refine ⟨by rw [hres], ?_, ?_, ?_⟩
  · intro c hc e he
    rw [hres] at hc
    exact (hmem c hc).1 e he
  · rw [hres]
    exact findCityIndex_eq_neg_one_iff.mpr (fun c hc => (hmem c hc).2)
  · rw [hres]
    have hmapid : pruned.map City.cityID = g.cities.map City.cityID := by
      refine List.ext_getElem (by simpa using hplen) ?_
      intro i h1 h2
      simp only [List.getElem_map]
      exact hpid i (by simpa using h1)
    calc (pruned.eraseIdx idx).map City.cityID
        = (pruned.map City.cityID).eraseIdx idx := by
          rw [List.eraseIdx_eq_take_drop_succ, List.eraseIdx_eq_take_drop_succ,
            List.map_append, List.map_take, List.map_drop]
      _ = (g.cities.map City.cityID).eraseIdx idx := by rw [hmapid]

/-! ### C10: position-table indexing by raw identifier -/

theorem nthNode_mem {ns : List HeapNode} {i : Nat} (h : i < ns.length) :
    nthNode ns i ∈ ns := by
  rw [nthNode, List.getD_eq_getElem?_getD, List.getElem?_eq_getElem h]
  exact List.getElem_mem h

theorem swap_mem_subset {ns : List HeapNode} {i j : Nat} {x : HeapNode}
    (hi : i < ns.length) (hj : j < ns.length)
    (hx : x ∈ (ns.set i (nthNode ns j)).set j (nthNode ns i)) : x ∈ ns := by
  rcases List.mem_or_eq_of_mem_set hx with hx2 | rfl
  · rcases List.mem_or_eq_of_mem_set hx2 with hx3 | rfl
    · exact hx3
    · exact nthNode_mem hj
  · exact nthNode_mem hi

theorem bubbleUpPosAccesses_subset {fuel : Nat} :
    ∀ {ns : List HeapNode} {i : Nat}, i < ns.length →
    ∀ x ∈ bubbleUpPosAccesses fuel ns i, ∃ nd ∈ ns, x = nd.cityID := by
  induction fuel with
  | zero =>
    intro ns i _ x hx
    simp [bubbleUpPosAccesses] at hx
  | succ fuel ih =>
    intro ns i hi x hx
    rw [bubbleUpPosAccesses] at hx
    by_cases hg : 0 < i ∧ (nthNode ns i).fScore < (nthNode ns ((i-1)/2)).fScore
    · rw [if_pos hg] at hx
      have hpar : (i-1)/2 < ns.length := by omega
      rcases List.mem_cons.mp hx with rfl | hx2
      · exact ⟨nthNode ns i, nthNode_mem hi, rfl⟩
      rcases List.mem_cons.mp hx2 with rfl | hx3
      · exact ⟨nthNode ns ((i-1)/2), nthNode_mem hpar, rfl⟩
      · have hlen : ((ns.set i (nthNode ns ((i-1)/2))).set ((i-1)/2)
            (nthNode ns i)).length = ns.length := by simp
        obtain ⟨nd, hnd, hxe⟩ := ih (by omega) x hx3
        exact ⟨nd, swap_mem_subset hi hpar hnd, hxe⟩
    · rw [if_neg hg] at hx
      simp at hx

theorem minHeapifyPosAccesses_subset {fuel : Nat} :
    ∀ {h : MinHeap} {idx : Nat},
    ∀ x ∈ minHeapifyPosAccesses fuel h idx, ∃ nd ∈ h.nodes, x = nd.cityID := by
  induction fuel with
  | zero =>
    intro h idx x hx
    simp [minHeapifyPosAccesses] at hx
  | succ fuel ih =>
    intro h idx x hx
    rw [minHeapifyPosAccesses] at hx
    simp only [] at hx
    by_cases hg :
        (if 2*idx+2 < h.nodes.length ∧
            (nthNode h.nodes (2*idx+2)).fScore <
              (nthNode h.nodes (if 2*idx+1 < h.nodes.length ∧
                (nthNode h.nodes (2*idx+1)).fScore < (nthNode h.nodes idx).fScore
                then 2*idx+1 else idx)).fScore
          then 2*idx+2
          else if 2*idx+1 < h.nodes.length ∧
            (nthNode h.nodes (2*idx+1)).fScore < (nthNode h.nodes idx).fScore
            then 2*idx+1 else idx) ≠ idx
    · rw [if_pos hg] at hx
      set s1 := if 2*idx+1 < h.nodes.length ∧
        (nthNode h.nodes (2*idx+1)).fScore < (nthNode h.nodes idx).fScore
        then 2*idx+1 else idx with hs1
      set smallest := if 2*idx+2 < h.nodes.length ∧
        (nthNode h.nodes (2*idx+2)).fScore < (nthNode h.nodes s1).fScore
        then 2*idx+2 else s1 with hsm
      have hbounds : smallest < h.nodes.length ∧ idx < h.nodes.length := by
        rw [hsm] at hg ⊢
        by_cases h2 : 2*idx+2 < h.nodes.length ∧
            (nthNode h.nodes (2*idx+2)).fScore < (nthNode h.nodes s1).fScore
        · rw [if_pos h2] at hg ⊢
          exact ⟨h2.1, by have := h2.1; omega⟩
        · rw [if_neg h2] at hg ⊢
          rw [hs1] at hg ⊢
          by_cases h1 : 2*idx+1 < h.nodes.length ∧
              (nthNode h.nodes (2*idx+1)).fScore < (nthNode h.nodes idx).fScore
          · rw [if_pos h1] at hg ⊢
            exact ⟨h1.1, by have := h1.1; omega⟩
          · rw [if_neg h1] at hg ⊢
            exact absurd rfl hg
      rcases List.mem_cons.mp hx with rfl | hx2
      · exact ⟨_, nthNode_mem hbounds.1, rfl⟩
      rcases List.mem_cons.mp hx2 with rfl | hx3
      · exact ⟨_, nthNode_mem hbounds.2, rfl⟩
      · obtain ⟨nd, hnd, hxe⟩ := ih x hx3
        exact ⟨nd, swap_mem_subset hbounds.1 hbounds.2 hnd, hxe⟩
    · rw [if_neg hg] at hx
      simp at hx

/-- **C10**.  All heap operations subscript the 1000-slot position allocation
directly with raw city identifiers: with every resident id and the argument
id inside `[0, 1000)` every subscript stays in bounds, while an argument id
outside that range is itself evaluated as a subscript by `decreaseKey`
(always) and by `insertHeap` (whenever the heap is below capacity), falling
outside the allocated array. -/
theorem heap_pos_table_raw_indexing (h : MinHeap) (c d f : Int)
    (hres : ∀ nd ∈ h.nodes, 0 ≤ nd.cityID ∧ nd.cityID < posTableSize)
    (hpos : 0 ≤ h.pos c → (h.pos c).toNat < h.nodes.length) :
    (0 ≤ c ∧ (c : Int) < posTableSize →
      (∀ i ∈ insertHeapPosAccesses h c d f, 0 ≤ i ∧ i < posTableSize) ∧
      (∀ i ∈ decreaseKeyPosAccesses h c d f, 0 ≤ i ∧ i < posTableSize) ∧
      (∀ i ∈ extractMinPosAccesses h, 0 ≤ i ∧ i < posTableSize)) ∧
    (¬(0 ≤ c ∧ (c : Int) < posTableSize) →
      c ∈ decreaseKeyPosAccesses h c d f ∧
      (h.nodes.length < h.capacity → c ∈ insertHeapPosAccesses h c d f)) := by
  constructor
  · intro hc
    refine ⟨?_, ?_, ?_⟩
    · intro i hi
      rw [insertHeapPosAccesses] at hi
      by_cases hcap : h.nodes.length ≥ h.capacity
      · rw [if_pos hcap] at hi
        simp at hi
      · rw [if_neg hcap] at hi
        rcases List.mem_cons.mp hi with rfl | hi2
        · exact hc
        · obtain ⟨nd, hnd, rfl⟩ := bubbleUpPosAccesses_subset (by simp) i hi2
          rcases List.mem_append.mp hnd with hnd2 | hnd2
          · exact hres nd hnd2
          · have : nd = ⟨c, d, f⟩ := by simpa using hnd2
            rw [this]
            exact hc
    · intro i hi
      rw [decreaseKeyPosAccesses] at hi
      rcases List.mem_cons.mp hi with rfl | hi2
      · exact hc
      · by_cases hmiss : h.pos c = -1
        · rw [if_pos hmiss] at hi2
          simp at hi2
        · rw [if_neg hmiss] at hi2
          dsimp only [] at hi2
          by_cases hlt : (h.pos c).toNat < h.nodes.length
          · rw [if_pos hlt] at hi2
            obtain ⟨nd, hnd, rfl⟩ :=
              bubbleUpPosAccesses_subset (by simpa using hlt) i hi2
            rcases List.mem_or_eq_of_mem_set hnd with hnd2 | rfl
            · exact hres nd hnd2
            · simpa using hres _ (nthNode_mem hlt)
          · rw [if_neg hlt] at hi2
            have h0 : (h.pos c).toNat = 0 := by
              by_cases hp0 : 0 ≤ h.pos c
              · exact absurd (hpos hp0) hlt
              · omega
            rw [h0] at hi2
            simp [bubbleUpPosAccesses] at hi2
    · intro i hi
      rw [extractMinPosAccesses] at hi
      by_cases hemp : h.nodes.isEmpty
      · rw [if_pos hemp] at hi
        simp at hi
      · rw [if_neg hemp] at hi
        dsimp only [] at hi
        have hlen : 0 < h.nodes.length := by
          rw [List.isEmpty_iff] at hemp
          exact List.length_pos.mpr hemp
        rcases List.mem_cons.mp hi with rfl | hi2
        · exact hres _ (nthNode_mem hlen)
        rcases List.mem_cons.mp hi2 with rfl | hi3
        · exact hres _ (nthNode_mem (by omega))
        · obtain ⟨nd, hnd, rfl⟩ := minHeapifyPosAccesses_subset i hi3
          have : nd ∈ (h.nodes.set 0 (nthNode h.nodes (h.nodes.length - 1))) :=
            List.dropLast_subset _ hnd
          rcases List.mem_or_eq_of_mem_set this with hnd2 | rfl
          · exact hres nd hnd2
          · exact hres _ (nthNode_mem (by omega))
  · intro hc
    constructor
    · rw [decreaseKeyPosAccesses]
      exact List.mem_cons_self _ _
    · intro hcap
      rw [insertHeapPosAccesses, if_neg (by omega)]
      exact List.mem_cons_self _ _

/-- **C10** witness: a fresh two-slot heap; inserting id 5 keeps every
subscript inside the 1000-slot table, while a decreaseKey for id 1000 indexes
the table out of bounds. -/
theorem heap_pos_table_raw_indexing_witness :
    (∀ nd ∈ (createMinHeap 2).nodes, 0 ≤ nd.cityID ∧ nd.cityID < posTableSize) ∧
    (0 ≤ (createMinHeap 2).pos 5 → ((createMinHeap 2).pos 5).toNat <
      (createMinHeap 2).nodes.length) ∧
    (∀ i ∈ insertHeapPosAccesses (createMinHeap 2) 5 0 0,
      0 ≤ i ∧ i < posTableSize) ∧
    ((1000 : Int) ∈ decreaseKeyPosAccesses (createMinHeap 2) 1000 0 0) :=
  ⟨by decide, by decide,
    ((heap_pos_table_raw_indexing (createMinHeap 2) 5 0 0 (by decide)
      (by decide)).1 (by decide)).1,
    ((heap_pos_table_raw_indexing (createMinHeap 2) 1000 0 0 (by decide)
      (by decide)).2 (by decide)).1⟩

/-! ### Reachability basics -/

theorem nthCity_mem {g : Graph} {i : Nat} (h : i < numCities g) :
    nthCity g i ∈ g.cities := by
  rw [nthCity_eq_getElem h]
  exact List.getElem_mem h

theorem nthCity_default {g : Graph} {i : Nat} (h : ¬ i < numCities g) :
    nthCity g i = dCity := by
  rw [nthCity, List.getD_eq_getElem?_getD,
    List.getElem?_eq_none (Nat.le_of_not_lt h)]
  rfl

theorem reaches_nonneg {g : Graph} {i j : Nat} {w : Int}
    (hpos : ∀ c ∈ g.cities, ∀ e ∈ c.adjList, 0 < e.distance)
    (h : Reaches g i j w) : 0 ≤ w := by
  induction h with
  | refl => exact le_refl 0
  | step e hij he hk htgt ih =>
    rename_i j' k' w'
    by_cases hj : j' < numCities g
    · have := hpos _ (nthCity_mem hj) e he
      omega
    · rw [nthCity_default hj] at he
      exact absurd he (by simp [dCity])

/-- Looking up any id yields a slot index below `numCities` after `toNat`
(the not-found sentinel `-1` truncates to slot 0). -/
theorem findCityIndex_toNat_lt {g : Graph} {c : Int} (hn : 0 < numCities g) :
    (findCityIndex g c).toNat < numCities g := by
  by_cases h : findCityIndex g c = -1
  · rw [h]
    exact hn
  · exact (findCityIndex_found h).1

/-! ### Soundness of relaxation (used by C5 and C1) -/

theorem relaxEdges_dist_sound (g : Graph) (hwf : WellFormed g) (src : Nat)
    (u : Int) (hu : u.toNat < numCities g) :
    ∀ (l : List Edge) (dist parent : Nat → Int) (h : MinHeap),
    (∀ e ∈ l, e ∈ (nthCity g u.toNat).adjList) →
    DistSound g src dist →
    DistSound g src (relaxEdges g u l dist parent h).1 := by
  intro l
  induction l with
  | nil =>
    intro dist parent h _ hs
    exact hs
  | cons e rest ih =>
    intro dist parent h hsub hs
    rw [relaxEdges]
    by_cases hg : dist u.toNat ≠ INF ∧
        dist u.toNat + e.distance < dist (findCityIndex g e.destCityID).toNat
    · rw [if_pos hg]
      have he : e ∈ (nthCity g u.toNat).adjList := hsub e (by simp)
      have hv : findCityIndex g e.destCityID ≠ -1 :=
        hwf.2.1 _ (nthCity_mem hu) e he
      obtain ⟨hvlt, hvid⟩ := findCityIndex_found hv
      refine ih _ _ _ (fun e2 he2 => hsub e2 (by simp [he2])) ⟨?_, ?_⟩
      · intro x
        by_cases hx : x = (findCityIndex g e.destCityID).toNat
        · simp only [hx, if_pos rfl]
          have := hs.1 (findCityIndex g e.destCityID).toNat
          omega
        · simp only [if_neg hx]
          exact hs.1 x
      · intro x hxlt hxf
        by_cases hx : x = (findCityIndex g e.destCityID).toNat
        · subst hx
          simp only [if_pos rfl] at hxf ⊢
          exact Reaches.step e (hs.2 u.toNat hu hg.1) he hxlt hvid
        · simp only [if_neg hx] at hxf ⊢
          exact hs.2 x hxlt hxf
    · rw [if_neg hg]
      exact ih _ _ _ (fun e2 he2 => hsub e2 (by simp [he2])) hs

theorem dijkstraLoop_dist_sound (g : Graph) (hwf : WellFormed g) (src : Nat)
    (destIndex : Int) (hn : 0 < numCities g) :
    ∀ (fuel : Nat) (dist parent : Nat → Int) (h : MinHeap),
    DistSound g src dist →
    DistSound g src (dijkstraLoop destIndex fuel g dist parent h).2.1 := by
  intro fuel
  induction fuel with
  | zero =>
    intro dist parent h hs
    exact hs
  | succ fuel ih =>
    intro dist parent h hs
    simp only [dijkstraLoop]
    by_cases hemp : isHeapEmpty h
    · rw [if_pos hemp]
      exact hs
    · rw [if_neg hemp]
      split
      · exact hs
      · exact ih _ _ _
          (relaxEdges_dist_sound g hwf src _ (findCityIndex_toNat_lt hn) _ _ _ _
            (fun e2 he2 => he2) hs)

theorem astarRelax_gScore_sound (g : Graph) (hwf : WellFormed g) (src : Nat)
    (destIndex : Int) (u : Int) (hu : u.toNat < numCities g) :
    ∀ (l : List Edge) (gS fS parent : Nat → Int) (h : MinHeap),
    (∀ e ∈ l, e ∈ (nthCity g u.toNat).adjList) →
    DistSound g src gS →
    DistSound g src (astarRelax g destIndex u l gS fS parent h).1 := by
  intro l
  induction l with
  | nil =>
    intro gS fS parent h _ hs
    exact hs
  | cons e rest ih =>
    intro gS fS parent h hsub hs
    rw [astarRelax]
    by_cases hg : gS u.toNat + e.distance <
        gS (findCityIndex g e.destCityID).toNat
    · rw [if_pos hg]
      have he : e ∈ (nthCity g u.toNat).adjList := hsub e (by simp)
      have hv : findCityIndex g e.destCityID ≠ -1 :=
        hwf.2.1 _ (nthCity_mem hu) e he
      obtain ⟨hvlt, hvid⟩ := findCityIndex_found hv
      have hepos : 0 < e.distance := hwf.2.2 _ (nthCity_mem hu) e he
      have huf : gS u.toNat ≠ INF := by
        intro hcon
        have h1 := hs.1 (findCityIndex g e.destCityID).toNat
        rw [hcon] at hg
        omega
      refine ih _ _ _ _ (fun e2 he2 => hsub e2 (by simp [he2])) ⟨?_, ?_⟩
      · intro x
        by_cases hx : x = (findCityIndex g e.destCityID).toNat
        · simp only [hx, if_pos rfl]
          have := hs.1 (findCityIndex g e.destCityID).toNat
          omega
        · simp only [if_neg hx]
          exact hs.1 x
      · intro x hxlt hxf
        by_cases hx : x = (findCityIndex g e.destCityID).toNat
        · subst hx
          simp only [if_pos rfl] at hxf ⊢
          exact Reaches.step e (hs.2 u.toNat hu huf) he hxlt hvid
        · simp only [if_neg hx] at hxf ⊢
          exact hs.2 x hxlt hxf
    · rw [if_neg hg]
      exact ih _ _ _ _ (fun e2 he2 => hsub e2 (by simp [he2])) hs

theorem astarLoop_gScore_sound (g : Graph) (hwf : WellFormed g) (src : Nat)
    (destIndex : Int) (hn : 0 < numCities g) :
    ∀ (fuel : Nat) (gS fS parent : Nat → Int) (h : MinHeap),
    DistSound g src gS →
    DistSound g src (astarLoop destIndex fuel g gS fS parent h).2.1 := by
  intro fuel
  induction fuel with
  | zero =>
    intro gS fS parent h hs
    exact hs
  | succ fuel ih =>
    intro gS fS parent h hs
    simp only [astarLoop]
    by_cases hemp : isHeapEmpty h
    · rw [if_pos hemp]
      exact hs
    · rw [if_neg hemp]
      split
      · exact hs
      · exact ih _ _ _ _
          (astarRelax_gScore_sound g hwf src _ _ (findCityIndex_toNat_lt hn)
            _ _ _ _ _ (fun e2 he2 => he2) hs)

/-! ### C5: unreachable destinations yield the empty path result -/

theorem dist0_sound (g : Graph) (srcIndex : Int) :
    DistSound g srcIndex.toNat
      (fun i => if i = srcIndex.toNat then 0 else INF) := by
  constructor
  · intro v
    by_cases hx : v = srcIndex.toNat <;> simp [hx, INF]
  · intro v hvlt hvf
    by_cases hx : v = srcIndex.toNat
    · subst hx
      simp only [if_pos rfl]
      exact Reaches.refl _
    · simp [if_neg hx] at hvf

/-- **C5**.  On a well-formed graph whose endpoints both exist but where no
directed path joins them, both `dijkstra` and `astar` return a well-formed,
non-null path result with `pathLength = 0` and `totalDistance = 0`. -/
theorem unreachable_empty_result (g : Graph) (s d : Int) (hwf : WellFormed g)
    (hs : findCityIndex g s ≠ -1) (hd : findCityIndex g d ≠ -1)
    (hnp : ∀ w, ¬ Reaches g (findCityIndex g s).toNat
      (findCityIndex g d).toNat w) :
    ∃ pr1 pr2 : PathResult,
      (dijkstra g s d).1 = some pr1 ∧ (astar g s d).1 = some pr2 ∧
      pathLength pr1 = 0 ∧ pr1.totalDistance = 0 ∧
      pathLength pr2 = 0 ∧ pr2.totalDistance = 0 := by
  have hn : 0 < numCities g := by
    have := (findCityIndex_found hs).1
    omega
  have hdlt : (findCityIndex g d).toNat < numCities g := (findCityIndex_found hd).1
  refine ⟨createPathResult (numCities g), createPathResult (numCities g),
    ?_, ?_, rfl, rfl, rfl, rfl⟩
  · simp only [dijkstra]
    rw [if_neg (by simp [hs, hd])]
    split
    · rfl
    · next hcon =>
        exact absurd ((dijkstraLoop_dist_sound g hwf (findCityIndex g s).toNat
          (findCityIndex g d) hn (numCities g + 1) _ _ _
          (dist0_sound g (findCityIndex g s))).2 _ hdlt hcon) (hnp _)
  · simp only [astar]
    rw [if_neg (by simp [hs, hd])]
    simp only [eq_self_iff_true, if_true]
    split_ifs with hcon
    · rfl
    · exact absurd ((astarLoop_gScore_sound g hwf (findCityIndex g s).toNat
        (findCityIndex g d) hn (astarFuel g) _ _ _ _
        (dist0_sound g (findCityIndex g s))).2 _ hdlt hcon) (hnp _)

/-- **C5** witness: two isolated cities. -/
theorem unreachable_empty_result_witness :
    WellFormed isolatedPairGraph ∧
    findCityIndex isolatedPairGraph 1 ≠ -1 ∧
    findCityIndex isolatedPairGraph 2 ≠ -1 ∧
    (∃ pr1 pr2 : PathResult,
      (dijkstra isolatedPairGraph 1 2).1 = some pr1 ∧
      (astar isolatedPairGraph 1 2).1 = some pr2 ∧
      pathLength pr1 = 0 ∧ pr1.totalDistance = 0 ∧
      pathLength pr2 = 0 ∧ pr2.totalDistance = 0) :=
  ⟨by decide, by decide, by decide,
    unreachable_empty_result isolatedPairGraph 1 2 (by decide) (by decide)
      (by decide)
      (by
        intro w hw
        cases hw with
        | step e hij he hk htgt =>
          rename_i j' w'
          have h0 : (nthCity isolatedPairGraph 0).adjList = [] := by decide
          have h1 : (nthCity isolatedPairGraph 1).adjList = [] := by decide
          rcases Nat.lt_or_ge j' 2 with hj | hj
          · interval_cases j'
            · rw [h0] at he
              exact absurd he (by simp)
            · rw [h1] at he
              exact absurd he (by simp)
          · have hn2 : numCities isolatedPairGraph = 2 := by decide
            rw [nthCity_default (by omega)] at he
            exact absurd he (by simp [dCity]))⟩

/-! ### C1 (counterexample): the INF sentinel truncates reachability -/

/-- **C1** (counterexample).  On a two-city graph whose only road has the
strictly positive weight `999999` (the INF sentinel), a directed path from
the source to the destination exists — of weight 999999 — yet `dijkstra`
returns the empty path result with total distance 0, because the relaxation
`dist[u] + w < dist[v]` can never beat the INF initialisation.  This refutes
both halves of the claim: the total distance is not the minimum path weight,
and the result is empty although a path exists. -/
theorem dijkstra_inf_weight_counterexample :
    (∃ w, Reaches heavyEdgeGraph 0 1 w) ∧
    (dijkstra heavyEdgeGraph 1 2).1 = some ⟨[], 0, 2⟩ := by
  constructor
  · refine ⟨0 + 999999, Reaches.step ⟨2, 999999⟩ (Reaches.refl 0) ?_ ?_ ?_⟩
    · decide
    · decide
    · decide
  · decide

/-! ### C9: the algorithms leave the graph unchanged -/

theorem ite_pair_snd {α : Type} (c : Prop) [inst : Decidable c] (x y : α)
    (p : Graph) : (if c then (x, p) else (y, p)).2 = p := by
  split <;> rfl

theorem foldl_fst_const {β γ : Type} (f : (Graph × β) → γ → (Graph × β))
    (hf : ∀ st e, (f st e).1 = st.1) :
    ∀ (l : List γ) (st : Graph × β), (l.foldl f st).1 = st.1 := by
  intro l
  induction l with
  | nil =>
    intro st
    rfl
  | cons e rest ih =>
    intro st
    rw [List.foldl_cons, ih, hf]

theorem bfsLoop_graph : ∀ (fuel : Nat) (g : Graph) (q : List Nat)
    (v : Nat → Bool) (o : List Nat), (bfsLoop fuel g q v o).1 = g := by
  intro fuel
  induction fuel with
  | zero =>
    intro g q v o
    rfl
  | succ fuel ih =>
    intro g q v o
    cases q with
    | nil => rw [bfsLoop]
    | cons cur rest =>
      rw [bfsLoop]
      exact ih g _ _ _

theorem DFSUtil_graph : ∀ (fuel : Nat) (g : Graph) (i : Nat) (v : Nat → Bool),
    (DFSUtil fuel g i v).1 = g := by
  intro fuel
  induction fuel with
  | zero =>
    intro g i v
    rfl
  | succ fuel ih =>
    intro g i v
    simp only [DFSUtil]
    exact foldl_fst_const _
      (by
        intro st e
        split
        · exact ih st.1 _ _
        · rfl) _ _

theorem dijkstraLoop_graph (destIndex : Int) :
    ∀ (fuel : Nat) (g : Graph) (dist parent : Nat → Int) (h : MinHeap),
    (dijkstraLoop destIndex fuel g dist parent h).1 = g := by
  intro fuel
  induction fuel with
  | zero =>
    intro g dist parent h
    rfl
  | succ fuel ih =>
    intro g dist parent h
    simp only [dijkstraLoop]
    by_cases hemp : isHeapEmpty h
    · rw [if_pos hemp]
    · rw [if_neg hemp]
      split
      · rfl
      · exact ih g _ _ _

theorem astarLoop_graph (destIndex : Int) :
    ∀ (fuel : Nat) (g : Graph) (gS fS parent : Nat → Int) (h : MinHeap),
    (astarLoop destIndex fuel g gS fS parent h).1 = g := by
  intro fuel
  induction fuel with
  | zero =>
    intro g gS fS parent h
    rfl
  | succ fuel ih =>
    intro g gS fS parent h
    simp only [astarLoop]
    by_cases hemp : isHeapEmpty h
    · rw [if_pos hemp]
    · rw [if_neg hemp]
      split
      · rfl
      · exact ih g _ _ _ _

/-- **C9**.  Each query algorithm hands the graph back exactly as it received
it: BFS, DFS, Dijkstra and A* never mutate the city array or any adjacency
list. -/
theorem algorithms_preserve_graph (g : Graph) (s d : Int) :
    (BFS g s).2 = g ∧ (DFS g s).2 = g ∧
    (dijkstra g s d).2 = g ∧ (astar g s d).2 = g := by
  refine ⟨?_, ?_, ?_, ?_⟩
  · rw [BFS]
    by_cases hs : findCityIndex g s = -1
    · rw [if_pos hs]
    · rw [if_neg hs]
      exact bfsLoop_graph _ _ _ _ _
  · rw [DFS]
    by_cases hs : findCityIndex g s = -1
    · rw [if_pos hs]
    · rw [if_neg hs]
      exact DFSUtil_graph _ _ _ _
  · simp only [dijkstra]
    by_cases hs : findCityIndex g s = -1 ∨ findCityIndex g d = -1
    · rw [if_pos hs]
    · rw [if_neg hs]
      rw [ite_pair_snd]
      exact dijkstraLoop_graph _ _ _ _ _ _
  · simp only [astar]
    by_cases hs : findCityIndex g s = -1 ∨ findCityIndex g d = -1
    · rw [if_pos hs]
    · rw [if_neg hs]
      rw [ite_pair_snd]
      exact astarLoop_graph _ _ _ _ _ _ _

/-! ### C7: addRoad duplicate update -/

theorem updateRoad_eq_none_iff {l : List Edge} {b w : Int} :
    updateRoad l b w = none ↔ ∀ e ∈ l, e.destCityID ≠ b := by
  induction l with
  | nil => simp [updateRoad]
  | cons e rest ih =>
    rw [updateRoad]
    by_cases hc : e.destCityID = b
    · rw [if_pos hc]
      constructor
      · intro h
        exact absurd h (by simp)
      · intro h
        exact absurd hc (h e (by simp))
    · rw [if_neg hc]
      rcases hu : updateRoad rest b w with _ | l2
      · constructor
        · intro _ e2 he2
          rcases List.mem_cons.mp he2 with rfl | hm
          · exact hc
          · exact ih.mp hu e2 hm
        · intro _
          rfl
      · constructor
        · intro h
          exact absurd h (by simp)
        · intro h
          exact absurd
            (ih.mpr (fun e2 he2 => h e2 (List.mem_cons_of_mem _ he2)))
            (by simp [hu])

/-- A successful in-place update leaves exactly one edge to `b`, carrying the
new weight, provided the list had at most one such edge before. -/
theorem updateRoad_some_filter {l : List Edge} {b w : Int} {l2 : List Edge}
    (h : updateRoad l b w = some l2)
    (hone : (l.filter (fun e => e.destCityID = b)).length ≤ 1) :
    l2.filter (fun e => e.destCityID = b) = [⟨b, w⟩] := by
  induction l generalizing l2 with
  | nil => simp [updateRoad] at h
  | cons e rest ih =>
    rw [updateRoad] at h
    by_cases hc : e.destCityID = b
    · rw [if_pos hc] at h
      have hl2 : l2 = { e with distance := w } :: rest := by
        cases h
        rfl
      rw [hl2]
      have hrest : rest.filter (fun e => e.destCityID = b) = [] := by
        rw [List.filter_cons_of_pos (by simp [hc])] at hone
        rcases hfr : rest.filter (fun e => e.destCityID = b) with _ | ⟨a, t⟩
        · exact hfr
        · rw [hfr] at hone
          simp at hone
      rw [List.filter_cons_of_pos (by simp [hc]), hrest]
      have : ({ e with distance := w } : Edge) = ⟨b, w⟩ := by
        cases e
        simp_all
      rw [this]
    · rw [if_neg hc] at h
      rcases hu : updateRoad rest b w with _ | lr
      · rw [hu] at h
        simp at h
      · rw [hu] at h
        have hl2 : l2 = e :: lr := by
          cases h
          rfl
        rw [List.filter_cons_of_neg (by simp [hc])] at hone
        rw [hl2, List.filter_cons_of_neg (by simp [hc])]
        exact ih hu hone

theorem setCityAdj_map_id {g : Graph} {i : Nat} {adj : List Edge}
    (h : i < g.cities.length) :
    (setCityAdj g i adj).cities.map City.cityID = g.cities.map City.cityID := by
  rw [setCityAdj]
  simp only [List.map_set]
  refine List.ext_getElem (by simp) ?_
  intro j h1 h2
  rw [List.getElem_set]
  by_cases hij : i = j
  · subst hij
    rw [if_pos rfl, nthCity_eq_getElem h]
    simp
  · rw [if_neg hij]

theorem findCityIndex_setCityAdj {g : Graph} {i : Nat} {adj : List Edge}
    (h : i < g.cities.length) (c : Int) :
    findCityIndex (setCityAdj g i adj) c = findCityIndex g c := by
  have hmap := @setCityAdj_map_id g i adj h
  unfold findCityIndex
  have aux : ∀ (l1 l2 : List City) (start : Nat),
      l1.map City.cityID = l2.map City.cityID →
      l1.findIdx? (fun city => city.cityID == c) start =
        l2.findIdx? (fun city => city.cityID == c) start := by
    intro l1
    induction l1 with
    | nil =>
      intro l2 start h12
      have : l2 = [] := by
        cases l2 with
        | nil => rfl
        | cons a t => simp at h12
      rw [this]
    | cons a t ih =>
      intro l2 start h12
      cases l2 with
      | nil => simp at h12
      | cons a2 t2 =>
        simp only [List.map_cons, List.cons.injEq] at h12
        rw [List.findIdx?_cons, List.findIdx?_cons, h12.1, ih t2 (start+1) h12.2]
  rw [aux _ _ 0 hmap]

theorem nthCity_setCityAdj_self {g : Graph} {i : Nat} {adj : List Edge}
    (h : i < g.cities.length) :
    nthCity (setCityAdj g i adj) i = { nthCity g i with adjList := adj } := by
  simp only [setCityAdj, nthCity, List.getD_eq_getElem?_getD]
  rw [List.getElem?_eq_getElem (by simpa using h),
    List.getElem?_eq_getElem h]
  simp [List.getElem_set]

theorem nthCity_setCityAdj_other {g : Graph} {i j : Nat} {adj : List Edge}
    (hij : i ≠ j) :
    nthCity (setCityAdj g i adj) j = nthCity g j := by
  simp only [setCityAdj, nthCity, List.getD_eq_getElem?_getD]
  by_cases hj : j < g.cities.length
  · rw [List.getElem?_eq_getElem (by simpa using hj),
      List.getElem?_eq_getElem hj]
    simp [List.getElem_set, hij]
  · rw [List.getElem?_eq_none (by simpa using Nat.le_of_not_lt hj),
      List.getElem?_eq_none (by simpa using Nat.le_of_not_lt hj)]

/-- **C7**.  With both endpoints present, positive weights, and at most one
pre-existing a→b edge (the no-parallel-edges data-model invariant), calling
`addRoad(a,b,w1)` and then `addRoad(a,b,w2)` succeeds both times and leaves
exactly one edge from `a` to `b` in the graph — it sits in `a`'s adjacency
list with weight `w2`, and every other city's entry is untouched. -/
theorem addRoad_duplicate_update (g : Graph) (a b w1 w2 : Int)
    (ha : findCityIndex g a ≠ -1) (hb : findCityIndex g b ≠ -1)
    (hw1 : 0 < w1) (hw2 : 0 < w2)
    (hone : ((nthCity g (findCityIndex g a).toNat).adjList.filter
      (fun e => e.destCityID = b)).length ≤ 1) :
    (addRoad g a b w1).1 = 1 ∧
    (addRoad (addRoad g a b w1).2 a b w2).1 = 1 ∧
    ((nthCity (addRoad (addRoad g a b w1).2 a b w2).2
        (findCityIndex g a).toNat).adjList.filter
      (fun e => e.destCityID = b)) = [⟨b, w2⟩] ∧
    (∀ j, j ≠ (findCityIndex g a).toNat →
      nthCity (addRoad (addRoad g a b w1).2 a b w2).2 j = nthCity g j) := by
  obtain ⟨haLt, haId⟩ := findCityIndex_found ha
  have haLt' : (findCityIndex g a).toNat < g.cities.length := haLt
  set ia := (findCityIndex g a).toNat with hia
  set A0 := (nthCity g ia).adjList with hA0
  -- the adjacency list of `a` after the first call, and the graph g1
  have step1 : ∃ A1 : List Edge,
      (addRoad g a b w1).1 = 1 ∧
      (addRoad g a b w1).2 = setCityAdj g ia A1 ∧
      A1.filter (fun e => e.destCityID = b) = [⟨b, w1⟩] := by
    rw [addRoad]
    rw [if_neg (by simp [ha, hb]), if_neg (by omega)]
    rcases hu : updateRoad (nthCity g ia).adjList b w1 with _ | l1
    · refine ⟨⟨b, w1⟩ :: A0, rfl, rfl, ?_⟩
      rw [List.filter_cons_of_pos (by simp)]
      have : A0.filter (fun e => e.destCityID = b) = [] := by
        rw [List.filter_eq_nil_iff]
        intro e he
        simp only [decide_eq_true_eq]
        exact updateRoad_eq_none_iff.mp hu e he
      rw [this]
    · exact ⟨l1, rfl, rfl, updateRoad_some_filter hu hone⟩
  obtain ⟨A1, hs1, hg1, hf1⟩ := step1
  set g1 := (addRoad g a b w1).2 with hg1d
  have hfind1 : ∀ c, findCityIndex g1 c = findCityIndex g c := by
    intro c
    rw [hg1]
    exact findCityIndex_setCityAdj haLt' c
  have hlen1 : g1.cities.length = g.cities.length := by
    rw [hg1, setCityAdj]
    simp
  have hadj1 : (nthCity g1 ia).adjList = A1 := by
    rw [hg1, nthCity_setCityAdj_self haLt']
  -- second call
  have hmem1 : (⟨b, w1⟩ : Edge) ∈ A1 := by
    have : (⟨b, w1⟩ : Edge) ∈ A1.filter (fun e => e.destCityID = b) := by
      rw [hf1]
      simp
    exact (List.mem_filter.mp this).1
  have step2 : ∃ A2 : List Edge,
      (addRoad g1 a b w2).1 = 1 ∧
      (addRoad g1 a b w2).2 = setCityAdj g1 ia A2 ∧
      A2.filter (fun e => e.destCityID = b) = [⟨b, w2⟩] := by
    rw [addRoad]
    rw [hfind1 a, hfind1 b]
    rw [if_neg (by simp [ha, hb]), if_neg (by omega)]
    rcases hu : updateRoad (nthCity g1 ia).adjList b w2 with _ | l2
    · rw [hadj1] at hu
      exact absurd (updateRoad_eq_none_iff.mp hu _ hmem1) (by simp)
    · refine ⟨l2, rfl, rfl, ?_⟩
      rw [hadj1] at hu
      refine updateRoad_some_filter hu ?_
      rw [hf1]
      simp
  obtain ⟨A2, hs2, hg2, hf2⟩ := step2
  have hia1 : ia < g1.cities.length := by omega
  refine ⟨hs1, hs2, ?_, ?_⟩
  · rw [hg2, nthCity_setCityAdj_self hia1]
    exact hf2
  · intro j hj
    rw [hg2, nthCity_setCityAdj_other (by omega), hg1,
      nthCity_setCityAdj_other (by omega)]

/-- **C7** witness: updating the A→B road of the §8 example graph from
weight 3 to weight 9. -/
theorem addRoad_duplicate_update_witness :
    findCityIndex exampleGraph 1 ≠ -1 ∧ findCityIndex exampleGraph 2 ≠ -1 ∧
    (0:Int) < 3 ∧ (0:Int) < 9 ∧
    ((nthCity (addRoad (addRoad exampleGraph 1 2 3).2 1 2 9).2
        (findCityIndex exampleGraph 1).toNat).adjList.filter
      (fun e => e.destCityID = 2)) = [⟨2, 9⟩] :=
  ⟨by decide, by decide, by decide, by decide,
    (addRoad_duplicate_update exampleGraph 1 2 3 9 (by decide) (by decide)
      (by decide) (by decide) (by decide)).2.2.1⟩

/-- **C6** witness: deleting city B (id 2) from the §8 example graph. -/
theorem deleteCity_cascade_witness :
    (exampleGraph.cities.map City.cityID).Nodup ∧
    findCityIndex exampleGraph 2 ≠ -1 ∧
    ((deleteCity exampleGraph 2).1 = 1 ∧
      findCityIndex (deleteCity exampleGraph 2).2 2 = -1) :=
  ⟨by decide, by decide,
    ⟨(deleteCity_cascade exampleGraph 2 (by decide) (by decide)).1,
     (deleteCity_cascade exampleGraph 2 (by decide) (by decide)).2.2.1⟩⟩

/-- **C2** (code bug).  After `insertHeap(h, 5, 10, 10); extractMin(h)` on a
fresh one-slot heap, the heap is empty — city 5 is no longer resident — yet
its position-table entry is `0`, not the `-1` sentinel the invariant demands:
`extractMin` stores `pos[root] = -1` *before* `pos[last] = 0`, and when the
heap held a single node those are the same city, so the sentinel is
clobbered. -/
theorem extractMin_singleton_stale_pos :
    ((extractMin (insertHeap (createMinHeap 1) 5 10 10)).2).nodes = [] ∧
    ((extractMin (insertHeap (createMinHeap 1) 5 10 10)).2).pos 5 = 0 := by
  constructor <;> rfl

/-- **C4** (counterexample).  On the §8 example graph, `dijkstra(A, D)` does
*not* return the path `[A, C, D]` (ids `[1, 3, 4]`): city B (distance 3) is
extracted before C (distance 4), so B's relaxation reaches D with total 7
first and C's later tie at 7 does not displace it. -/
theorem dijkstra_example_path_not_ACD :
    ¬ ((dijkstra exampleGraph 1 4).1.map PathResult.path = some [1, 3, 4] ∧
       (dijkstra exampleGraph 1 4).1.map PathResult.totalDistance = some 7) := by
  decide

/-- **C4** (amended).  On the §8 example graph, `dijkstra(A, D)` returns the
path `[A, B, D]` (ids `[1, 2, 4]`) with total distance 7. -/
theorem dijkstra_example_path_ABD :
    (dijkstra exampleGraph 1 4).1 = some ⟨[1, 2, 4], 7, 4⟩ := by
  decide

/-- **C8** (counterexample).  Adding a city to an empty graph succeeds, places
the city at slot 0, and returns the status flag 1 — not the assigned slot
index 0. -/
theorem addCity_returns_flag_counterexample :
    (addCity ⟨[], 4⟩ 7 "X" 0 0).1 = 1 ∧
    findCityIndex (addCity ⟨[], 4⟩ 7 "X" 0 0).2 7 = 0 ∧
    (addCity ⟨[], 4⟩ 7 "X" 0 0).1 ≠
      findCityIndex (addCity ⟨[], 4⟩ 7 "X" 0 0).2 7 := by
  decide

/-! ### Heap verification: slot reads and swaps -/

theorem nthNode_eq_getElem {ns : List HeapNode} {i : Nat} (h : i < ns.length) :
    nthNode ns i = ns[i] := by
  rw [nthNode, List.getD_eq_getElem?_getD, List.getElem?_eq_getElem h]
  rfl

theorem nthNode_set_self {ns : List HeapNode} {i : Nat} {a : HeapNode}
    (h : i < ns.length) : nthNode (ns.set i a) i = a := by
  rw [nthNode, List.getD_eq_getElem?_getD, List.getElem?_set]
  simp [h]

theorem nthNode_set_other {ns : List HeapNode} {i j : Nat} {a : HeapNode}
    (h : i ≠ j) : nthNode (ns.set i a) j = nthNode ns j := by
  rw [nthNode, nthNode, List.getD_eq_getElem?_getD, List.getD_eq_getElem?_getD,
    List.getElem?_set_ne h]

theorem nthNode_append_new {ns : List HeapNode} {a : HeapNode} :
    nthNode (ns ++ [a]) ns.length = a := by
  rw [nthNode, List.getD_eq_getElem?_getD]
  rw [List.getElem?_eq_getElem (by simp)]
  simp

theorem nthNode_append_old {ns : List HeapNode} {a : HeapNode} {i : Nat}
    (h : i < ns.length) : nthNode (ns ++ [a]) i = nthNode ns i := by
  rw [nthNode, nthNode, List.getD_eq_getElem?_getD, List.getD_eq_getElem?_getD,
    List.getElem?_append, if_pos h]

theorem cons_set_perm :
    ∀ {t : List HeapNode} {k : Nat} {a : HeapNode}, k < t.length →
    List.Perm (nthNode t k :: t.set k a) (a :: t) := by
  intro t
  induction t with
  | nil =>
    intro k a hk
    simp at hk
  | cons y r ih =>
    intro k a hk
    cases k with
    | zero =>
      have h0 : nthNode (y :: r) 0 = y := rfl
      rw [h0, List.set_cons_zero]
      exact List.Perm.swap a y r
    | succ k =>
      have hs : nthNode (y :: r) (k+1) = nthNode r k := rfl
      rw [hs, List.set_cons_succ]
      exact List.Perm.trans (List.Perm.swap y (nthNode r k) (r.set k a))
        (List.Perm.trans (List.Perm.cons y (ih (by simpa using hk)))
          (List.Perm.swap a y r))

theorem swap_perm_lt :
    ∀ {ns : List HeapNode} {i j : Nat}, i < j → j < ns.length →
    List.Perm ((ns.set i (nthNode ns j)).set j (nthNode ns i)) ns := by
  intro ns
  induction ns with
  | nil =>
    intro i j _ hj
    simp at hj
  | cons x t ih =>
    intro i j hij hj
    cases i with
    | zero =>
      cases j with
      | zero => omega
      | succ j =>
        have h1 : nthNode (x :: t) (j+1) = nthNode t j := rfl
        have h0 : nthNode (x :: t) 0 = x := rfl
        rw [h1, h0, List.set_cons_zero, List.set_cons_succ]
        exact cons_set_perm (by simpa using hj)
    | succ i =>
      cases j with
      | zero => omega
      | succ j =>
        have h1 : nthNode (x :: t) (j+1) = nthNode t j := rfl
        have h2 : nthNode (x :: t) (i+1) = nthNode t i := rfl
        rw [h1, h2, List.set_cons_succ, List.set_cons_succ]
        exact (ih (by omega) (by simpa using hj)).cons x

/-- Swapping two distinct valid slots permutes the node array. -/
theorem swap_perm {ns : List HeapNode} {i j : Nat} (hij : i ≠ j)
    (hi : i < ns.length) (hj : j < ns.length) :
    List.Perm ((ns.set i (nthNode ns j)).set j (nthNode ns i)) ns := by
  rcases Nat.lt_or_ge i j with h | h
  · exact swap_perm_lt h hj
  · have h2 : j < i := by omega
    rw [List.set_comm _ _ _ (by omega)]
    exact swap_perm_lt h2 hi

theorem swap_nth_fst {ns : List HeapNode} {i j : Nat} (hij : i ≠ j)
    (hi : i < ns.length) :
    nthNode ((ns.set i (nthNode ns j)).set j (nthNode ns i)) i
      = nthNode ns j := by
  rw [nthNode_set_other (fun h => hij h.symm), nthNode_set_self hi]

theorem swap_nth_snd {ns : List HeapNode} {i j : Nat}
    (hj : j < ns.length) :
    nthNode ((ns.set i (nthNode ns j)).set j (nthNode ns i)) j
      = nthNode ns i := by
  rw [nthNode_set_self (by simpa using hj)]

theorem swap_nth_other {ns : List HeapNode} {i j k : Nat}
    (hik : i ≠ k) (hjk : j ≠ k) :
    nthNode ((ns.set i (nthNode ns j)).set j (nthNode ns i)) k
      = nthNode ns k := by
  rw [nthNode_set_other hjk, nthNode_set_other hik]

theorem nthNode_mem_of_lt {ns : List HeapNode} {i : Nat} (h : i < ns.length) :
    nthNode ns i ∈ ns := nthNode_mem h

theorem resident_distinct {ns : List HeapNode}
    (hnd : (residentIds ns).Nodup) {k l : Nat}
    (hk : k < ns.length) (hl : l < ns.length) (hkl : k ≠ l) :
    (nthNode ns k).cityID ≠ (nthNode ns l).cityID := by
  intro hcon
  apply hkl
  have hk' : k < (residentIds ns).length := by
    simpa [residentIds] using hk
  have hl' : l < (residentIds ns).length := by
    simpa [residentIds] using hl
  have : (residentIds ns)[k] = (residentIds ns)[l] := by
    simp only [residentIds, List.getElem_map]
    rw [← nthNode_eq_getElem hk, ← nthNode_eq_getElem hl]
    exact hcon
  exact (List.Nodup.getElem_inj_iff hnd).mp this

/-! ### bubbleUp: permutation, position table, ordering -/

theorem bubbleUp_perm :
    ∀ (fuel : Nat) (ns : List HeapNode) (p : Int → Int) (i : Nat),
    i < ns.length → List.Perm (bubbleUp fuel ns p i).1 ns := by
  intro fuel
  induction fuel with
  | zero =>
    intro ns p i _
    exact List.Perm.refl _
  | succ fuel ih =>
    intro ns p i hi
    rw [bubbleUp]
    by_cases hg : 0 < i ∧
        (nthNode ns i).fScore < (nthNode ns ((i-1)/2)).fScore
    · rw [if_pos hg]
      have hpar : (i-1)/2 < ns.length := by omega
      have hne : i ≠ (i-1)/2 := by omega
      have hp := swap_perm hne hi hpar
      exact List.Perm.trans
        (ih _ _ _ (by rw [hp.length_eq]; omega)) hp
    · rw [if_neg hg]

theorem bubbleUp_pos_untouched :
    ∀ (fuel : Nat) (ns : List HeapNode) (p : Int → Int) (i : Nat) (c : Int),
    i < ns.length → (∀ nd ∈ ns, nd.cityID ≠ c) →
    (bubbleUp fuel ns p i).2 c = p c := by
  intro fuel
  induction fuel with
  | zero =>
    intro ns p i c _ _
    rfl
  | succ fuel ih =>
    intro ns p i c hi hall
    rw [bubbleUp]
    by_cases hg : 0 < i ∧
        (nthNode ns i).fScore < (nthNode ns ((i-1)/2)).fScore
    · rw [if_pos hg]
      have hpar : (i-1)/2 < ns.length := by omega
      have hne : i ≠ (i-1)/2 := by omega
      have hperm := swap_perm hne hi hpar
      have hall2 : ∀ nd ∈ (ns.set i (nthNode ns ((i-1)/2))).set ((i-1)/2)
          (nthNode ns i), nd.cityID ≠ c :=
        fun nd hnd => hall nd (hperm.mem_iff.mp hnd)
      rw [ih _ _ _ _ (by rw [hperm.length_eq]; omega) hall2]
      have h1 : (nthNode ns i).cityID ≠ c := hall _ (nthNode_mem_of_lt hi)
      have h2 : (nthNode ns ((i-1)/2)).cityID ≠ c :=
        hall _ (nthNode_mem_of_lt hpar)
      simp only [posUpdate]
      rw [if_neg (fun h => h2 h.symm), if_neg (fun h => h1 h.symm)]
    · rw [if_neg hg]

theorem bubbleUp_accurate :
    ∀ (fuel : Nat) (ns : List HeapNode) (p : Int → Int) (i : Nat),
    i < ns.length → (residentIds ns).Nodup →
    (∀ k, k < ns.length → p (nthNode ns k).cityID = (k : Int)) →
    ∀ k, k < (bubbleUp fuel ns p i).1.length →
      (bubbleUp fuel ns p i).2 ((nthNode (bubbleUp fuel ns p i).1 k).cityID)
        = (k : Int) := by
  intro fuel
  induction fuel with
  | zero =>
    intro ns p i _ _ hacc k hk
    exact hacc k hk
  | succ fuel ih =>
    intro ns p i hi hnd hacc k hk
    rw [bubbleUp] at hk ⊢
    by_cases hg : 0 < i ∧
        (nthNode ns i).fScore < (nthNode ns ((i-1)/2)).fScore
    · rw [if_pos hg] at hk ⊢
      have hpar : (i-1)/2 < ns.length := by omega
      have hne : i ≠ (i-1)/2 := by omega
      have hperm := swap_perm hne hi hpar
      have hlen : ((ns.set i (nthNode ns ((i-1)/2))).set ((i-1)/2)
          (nthNode ns i)).length = ns.length := hperm.length_eq
      have hnd2 : (residentIds ((ns.set i (nthNode ns ((i-1)/2))).set ((i-1)/2)
          (nthNode ns i))).Nodup := by
        rw [residentIds]
        exact (hperm.map HeapNode.cityID).nodup_iff.mpr hnd
      have hidne : (nthNode ns i).cityID ≠ (nthNode ns ((i-1)/2)).cityID :=
        resident_distinct hnd hi hpar hne
      refine ih _ _ _ (by omega) hnd2 ?_ k hk
      intro m hm
      rw [hlen] at hm
      by_cases hmi : m = i
      · subst hmi
        rw [swap_nth_fst hne hi]
        simp [posUpdate]
      · by_cases hmp : m = (i-1)/2
        · subst hmp
          rw [swap_nth_snd (by omega)]
          simp only [posUpdate]
          rw [if_neg hidne]
          simp
        · rw [swap_nth_other (fun h => hmi h.symm) (fun h => hmp h.symm)]
          have hdi : (nthNode ns m).cityID ≠ (nthNode ns i).cityID :=
            resident_distinct hnd hm hi hmi
          have hdp : (nthNode ns m).cityID ≠ (nthNode ns ((i-1)/2)).cityID :=
            resident_distinct hnd hm hpar hmp
          simp only [posUpdate]
          rw [if_neg hdp, if_neg hdi]
          exact hacc m hm
    · rw [if_neg hg] at hk ⊢
      exact hacc k hk

theorem bubbleUp_ordered :
    ∀ (fuel : Nat) (ns : List HeapNode) (p : Int → Int) (i : Nat),
    i ≤ fuel → i < ns.length → upHeapExcept ns i →
    heapOrdered (bubbleUp fuel ns p i).1 := by
  intro fuel
  induction fuel with
  | zero =>
    intro ns p i hfuel hi hex
    have hi0 : i = 0 := by omega
    subst hi0
    intro j hj1 hj2
    exact hex.1 j hj1 hj2 (by omega)
  | succ fuel ih =>
    intro ns p i hfuel hi hex
    rw [bubbleUp]
    by_cases hg : 0 < i ∧
        (nthNode ns i).fScore < (nthNode ns ((i-1)/2)).fScore
    · rw [if_pos hg]
      have hpar : (i-1)/2 < ns.length := by omega
      have hne : i ≠ (i-1)/2 := by omega
      have hperm := swap_perm hne hi hpar
      refine ih _ _ _ (by omega) (by rw [hperm.length_eq]; omega) ?_
      constructor
      · -- all parent links except at (i-1)/2 hold after the swap
        intro j hj1 hj2 hjne
        rw [hperm.length_eq] at hj2
        by_cases hji : j = i
        · subst hji
          rw [show (j-1)/2 = (j-1)/2 from rfl, swap_nth_snd hpar,
            swap_nth_fst hne hi]
          exact le_of_lt hg.2
        · have hnsj : nthNode ((ns.set i (nthNode ns ((i-1)/2))).set ((i-1)/2)
              (nthNode ns i)) j = nthNode ns j :=
            swap_nth_other (fun h => hji h.symm) (fun h => hjne h.symm)
          rw [hnsj]
          by_cases hc1 : (j-1)/2 = i
          · -- j is a child of i: grandparent bound applies
            rw [hc1, swap_nth_fst hne hi]
            exact hex.2 hg.1 j hj2 hc1
          · by_cases hc2 : (j-1)/2 = (i-1)/2
            · -- j is a child of (i-1)/2 other than i
              rw [hc2, swap_nth_snd hpar]
              refine le_trans (le_of_lt hg.2) ?_
              rw [← hc2]
              exact hex.1 j hj1 hj2 hji
            · rw [swap_nth_other (fun h => hc1 h.symm) (fun h => hc2 h.symm)]
              exact hex.1 j hj1 hj2 hji
      · -- children of (i-1)/2 dominate its parent after the swap
        intro hpos j hj hjpar
        rw [hperm.length_eq] at hj
        have hgp : ((i-1)/2-1)/2 ≠ i := by omega
        have hgp2 : ((i-1)/2-1)/2 ≠ (i-1)/2 := by omega
        rw [swap_nth_other (fun h => hgp h.symm) (fun h => hgp2 h.symm)]
        by_cases hji : j = i
        · rw [hji, swap_nth_fst hne hi]
          exact hex.1 ((i-1)/2) hpos hpar hne.symm
        · have hjp : j ≠ (i-1)/2 := by omega
          rw [swap_nth_other (fun h => hji h.symm) (fun h => hjp h.symm)]
          have hj1 : 0 < j := by omega
          refine le_trans (hex.1 ((i-1)/2) hpos hpar hne.symm) ?_
          rw [← hjpar]
          exact hex.1 j hj1 hj (by omega)
    · rw [if_neg hg]
      intro j hj1 hj2
      by_cases hji : j = i
      · subst hji
        push_neg at hg
        exact hg hj1
      · exact hex.1 j hj1 hj2 hji

/-! ### minHeapify: permutation, position table, ordering -/

theorem smallest_facts {ns : List HeapNode} {idx s1 smallest : Nat}
    (hs1 : s1 = if 2*idx+1 < ns.length ∧
      (nthNode ns (2*idx+1)).fScore < (nthNode ns idx).fScore
      then 2*idx+1 else idx)
    (hsm : smallest = if 2*idx+2 < ns.length ∧
      (nthNode ns (2*idx+2)).fScore < (nthNode ns s1).fScore
      then 2*idx+2 else s1)
    (hne : smallest ≠ idx) :
    smallest < ns.length ∧ idx < ns.length ∧
    (nthNode ns smallest).fScore < (nthNode ns idx).fScore ∧
    (2*idx+1 < ns.length →
      (nthNode ns smallest).fScore ≤ (nthNode ns (2*idx+1)).fScore) ∧
    (2*idx+2 < ns.length →
      (nthNode ns smallest).fScore ≤ (nthNode ns (2*idx+2)).fScore) ∧
    (smallest = 2*idx+1 ∨ smallest = 2*idx+2) := by
  by_cases h1 : 2*idx+1 < ns.length ∧
      (nthNode ns (2*idx+1)).fScore < (nthNode ns idx).fScore
  · rw [if_pos h1] at hs1
    by_cases h2 : 2*idx+2 < ns.length ∧
        (nthNode ns (2*idx+2)).fScore < (nthNode ns s1).fScore
    · rw [if_pos h2] at hsm
      subst hsm
      rw [hs1] at h2
      exact ⟨h2.1, by omega, lt_trans h2.2 h1.2, fun _ => le_of_lt h2.2,
        fun _ => le_refl _, Or.inr rfl⟩
    · rw [if_neg h2] at hsm
      rw [hs1] at hsm
      subst hsm
      rw [hs1] at h2
      refine ⟨h1.1, by omega, h1.2, fun _ => le_refl _, ?_, Or.inl rfl⟩
      intro hr
      by_contra hcon
      exact h2 ⟨hr, by omega⟩
  · rw [if_neg h1] at hs1
    by_cases h2 : 2*idx+2 < ns.length ∧
        (nthNode ns (2*idx+2)).fScore < (nthNode ns s1).fScore
    · rw [if_pos h2] at hsm
      subst hsm
      rw [hs1] at h2
      push_neg at h1
      refine ⟨h2.1, by omega, h2.2, ?_, fun _ => le_refl _, Or.inr rfl⟩
      intro hl
      exact le_trans (le_of_lt h2.2) (h1 hl)
    · rw [if_neg h2] at hsm
      rw [hs1] at hsm
      exact absurd hsm hne

theorem minHeapify_perm :
    ∀ (fuel : Nat) (h : MinHeap) (idx : Nat),
    List.Perm (minHeapify fuel h idx).nodes h.nodes := by
  intro fuel
  induction fuel with
  | zero =>
    intro h idx
    exact List.Perm.refl _
  | succ fuel ih =>
    intro h idx
    rw [minHeapify]
    set s1 := if 2*idx+1 < h.nodes.length ∧
      (nthNode h.nodes (2*idx+1)).fScore < (nthNode h.nodes idx).fScore
      then 2*idx+1 else idx with hs1
    set smallest := if 2*idx+2 < h.nodes.length ∧
      (nthNode h.nodes (2*idx+2)).fScore < (nthNode h.nodes s1).fScore
      then 2*idx+2 else s1 with hsm
    by_cases hne : smallest ≠ idx
    · rw [if_pos hne]
      obtain ⟨hsl, hil, _, _, _, _⟩ := smallest_facts hs1 hsm hne
      exact List.Perm.trans (ih _ _) (swap_perm hne hsl hil)
    · rw [if_neg hne]

theorem minHeapify_pos_untouched :
    ∀ (fuel : Nat) (h : MinHeap) (idx : Nat) (c : Int),
    (∀ nd ∈ h.nodes, nd.cityID ≠ c) →
    (minHeapify fuel h idx).pos c = h.pos c := by
  intro fuel
  induction fuel with
  | zero =>
    intro h idx c _
    rfl
  | succ fuel ih =>
    intro h idx c hall
    rw [minHeapify]
    set s1 := if 2*idx+1 < h.nodes.length ∧
      (nthNode h.nodes (2*idx+1)).fScore < (nthNode h.nodes idx).fScore
      then 2*idx+1 else idx with hs1
    set smallest := if 2*idx+2 < h.nodes.length ∧
      (nthNode h.nodes (2*idx+2)).fScore < (nthNode h.nodes s1).fScore
      then 2*idx+2 else s1 with hsm
    by_cases hne : smallest ≠ idx
    · rw [if_pos hne]
      obtain ⟨hsl, hil, _, _, _, _⟩ := smallest_facts hs1 hsm hne
      have hperm := swap_perm hne hsl hil
      rw [ih _ _ _ (fun nd hnd => hall nd (hperm.mem_iff.mp hnd))]
      have hS : (nthNode h.nodes smallest).cityID ≠ c :=
        hall _ (nthNode_mem_of_lt hsl)
      have hI : (nthNode h.nodes idx).cityID ≠ c :=
        hall _ (nthNode_mem_of_lt hil)
      simp only [posUpdate]
      rw [if_neg (fun hcon => hI hcon.symm), if_neg (fun hcon => hS hcon.symm)]
    · rw [if_neg hne]

theorem minHeapify_accurate :
    ∀ (fuel : Nat) (h : MinHeap) (idx : Nat),
    (residentIds h.nodes).Nodup → posAccurate h →
    posAccurate (minHeapify fuel h idx) := by
  intro fuel
  induction fuel with
  | zero =>
    intro h idx _ hacc
    exact hacc
  | succ fuel ih =>
    intro h idx hnd hacc
    rw [minHeapify]
    set s1 := if 2*idx+1 < h.nodes.length ∧
      (nthNode h.nodes (2*idx+1)).fScore < (nthNode h.nodes idx).fScore
      then 2*idx+1 else idx with hs1
    set smallest := if 2*idx+2 < h.nodes.length ∧
      (nthNode h.nodes (2*idx+2)).fScore < (nthNode h.nodes s1).fScore
      then 2*idx+2 else s1 with hsm
    by_cases hne : smallest ≠ idx
    · rw [if_pos hne]
      obtain ⟨hsl, hil, _, _, _, _⟩ := smallest_facts hs1 hsm hne
      have hperm := swap_perm hne hsl hil
      have hdist : (nthNode h.nodes smallest).cityID ≠
          (nthNode h.nodes idx).cityID := resident_distinct hnd hsl hil hne
      refine ih _ _ ?_ ?_
      · rw [residentIds]
        exact (hperm.map HeapNode.cityID).nodup_iff.mpr hnd
      · intro k hk
        have hk2 : k < h.nodes.length := by
          rw [← hperm.length_eq]
          exact hk
        by_cases hki : k = idx
        · subst hki
          rw [swap_nth_snd hil]
          simp only [posUpdate]
          rw [if_neg hdist]
          simp
        · by_cases hks : k = smallest
          · subst hks
            rw [swap_nth_fst hne hsl]
            simp [posUpdate]
          · rw [swap_nth_other (fun hcon => hks hcon.symm)
              (fun hcon => hki hcon.symm)]
            have hd1 : (nthNode h.nodes k).cityID ≠
                (nthNode h.nodes idx).cityID :=
              resident_distinct hnd hk2 hil hki
            have hd2 : (nthNode h.nodes k).cityID ≠
                (nthNode h.nodes smallest).cityID :=
              resident_distinct hnd hk2 hsl hks
            simp only [posUpdate]
            rw [if_neg hd1, if_neg hd2]
            exact hacc k hk2
    · rw [if_neg hne]
      exact hacc

theorem minHeapify_ordered :
    ∀ (fuel : Nat) (h : MinHeap) (idx : Nat),
    h.nodes.length - idx ≤ fuel → downHeapExcept h.nodes idx →
    heapOrdered (minHeapify fuel h idx).nodes := by
  intro fuel
  induction fuel with
  | zero =>
    intro h idx hfuel hex
    intro j hj1 hj2
    have hj2b : j < h.nodes.length := hj2
    refine hex.1 j hj1 hj2b ?_
    omega
  | succ fuel ih =>
    intro h idx hfuel hex
    rw [minHeapify]
    set s1 := if 2*idx+1 < h.nodes.length ∧
      (nthNode h.nodes (2*idx+1)).fScore < (nthNode h.nodes idx).fScore
      then 2*idx+1 else idx with hs1
    set smallest := if 2*idx+2 < h.nodes.length ∧
      (nthNode h.nodes (2*idx+2)).fScore < (nthNode h.nodes s1).fScore
      then 2*idx+2 else s1 with hsm
    by_cases hne : smallest ≠ idx
    · rw [if_pos hne]
      obtain ⟨hsl, hil, hlt, hbl, hbr, hchild⟩ := smallest_facts hs1 hsm hne
      have hperm := swap_perm hne hsl hil
      have hidxlt : idx < smallest := by omega
      refine ih _ smallest (by simp [hperm.length_eq]; omega) ⟨?_, ?_⟩
      · -- every parent link except those leaving `smallest` holds after swap
        intro j hj1 hj2
        rw [hperm.length_eq] at hj2
        intro hjp
        by_cases hjidx : j = idx
        · -- idx's new value (the old smallest) still dominates its parent?
          -- here j = idx is a CHILD position: its parent must dominate it.
          subst hjidx
          have hjpos : 0 < j := hj1
          have hpidx1 : (j-1)/2 ≠ smallest := by omega
          have hpidx2 : (j-1)/2 ≠ j := by omega
          rw [swap_nth_other (fun hcon => hpidx1 hcon.symm)
            (fun hcon => hpidx2 hcon.symm), swap_nth_snd hil]
          exact hex.2 hjpos smallest hsl (by omega)
        · by_cases hjs : j = smallest
          · subst hjs
            have hpj : (smallest-1)/2 = idx := by omega
            rw [hpj, swap_nth_snd hil, swap_nth_fst hne hsl]
            exact le_of_lt hlt
          · have hj' : nthNode ((h.nodes.set smallest (nthNode h.nodes idx)).set
                idx (nthNode h.nodes smallest)) j = nthNode h.nodes j :=
              swap_nth_other (fun hcon => hjs hcon.symm)
                (fun hcon => hjidx hcon.symm)
            rw [hj']
            by_cases hpj : (j-1)/2 = idx
            · -- j is the other child of idx
              rw [hpj, swap_nth_snd hil]
              rcases (by omega : j = 2*idx+1 ∨ j = 2*idx+2) with hj2c | hj2c
              · rw [hj2c]
                exact hbl (by omega)
              · rw [hj2c]
                exact hbr (by omega)
            · rw [swap_nth_other (fun hcon => hjp hcon.symm)
                (fun hcon => hpj hcon.symm)]
              exact hex.1 j hj1 hj2 hpj
      · -- children of `smallest` dominate its parent (= idx) after the swap
        intro hspos j hj hjp
        rw [hperm.length_eq] at hj
        have hps : (smallest-1)/2 = idx := by omega
        rw [hps, swap_nth_snd hil]
        have hjne1 : j ≠ idx := by omega
        have hjne2 : j ≠ smallest := by omega
        rw [swap_nth_other (fun hcon => hjne2 hcon.symm)
          (fun hcon => hjne1 hcon.symm)]
        have hj1 : 0 < j := by omega
        have : (j-1)/2 ≠ idx := by omega
        have := hex.1 j hj1 hj (by omega)
        rw [hjp] at this
        exact this
    · rw [if_neg hne]
      push_neg at hne
      intro j hj1 hj2
      by_cases hpj : (j-1)/2 = idx
      · -- j is a child of idx, and idx beat both children in the selection
        rw [hpj]
        by_cases h2 : 2*idx+2 < h.nodes.length ∧
            (nthNode h.nodes (2*idx+2)).fScore < (nthNode h.nodes s1).fScore
        · rw [if_pos h2] at hsm
          omega
        · rw [if_neg h2] at hsm
          by_cases h1 : 2*idx+1 < h.nodes.length ∧
              (nthNode h.nodes (2*idx+1)).fScore < (nthNode h.nodes idx).fScore
          · rw [if_pos h1] at hs1
            omega
          · rw [if_neg h1] at hs1
            push_neg at h1 h2
            rcases (by omega : j = 2*idx+1 ∨ j = 2*idx+2) with hj2c | hj2c
            · subst hj2c
              exact h1 (by omega)
            · subst hj2c
              have := h2 (by omega)
              rw [hs1] at this
              exact this
      · exact hex.1 j hj1 hj2 hpj

/-- In an ordered heap the root is minimal. -/
theorem heapOrdered_root_min {ns : List HeapNode} (ho : heapOrdered ns) :
    ∀ i, i < ns.length → (nthNode ns 0).fScore ≤ (nthNode ns i).fScore := by
  intro i
  induction i using Nat.strong_induction_on with
  | _ i ih =>
    intro hi
    rcases Nat.eq_zero_or_pos i with rfl | hpos
    · exact le_refl _
    · exact le_trans (ih ((i-1)/2) (by omega) (by omega)) (ho i hpos hi)

/-! ### Heap operations: interface specifications -/

theorem set_self_eq {α : Type} {l : List α} {k : Nat} (hk : k < l.length) :
    l.set k l[k] = l := by
  apply List.ext_getElem (by simp)
  intro i h1 h2
  rw [List.getElem_set]
  split
  · rename_i heq
    subst heq
    rfl
  · rfl

theorem nthNode_dropLast {ns : List HeapNode} {i : Nat}
    (h : i < ns.length - 1) :
    nthNode ns.dropLast i = nthNode ns i := by
  have h1 : i < ns.dropLast.length := by
    rw [List.length_dropLast]
    exact h
  rw [nthNode_eq_getElem h1, nthNode_eq_getElem (by omega)]
  exact List.getElem_dropLast ns i h1

theorem bubbleUp_nil (fuel : Nat) (p : Int → Int) (i : Nat) :
    bubbleUp fuel [] p i = ([], p) := by
  cases fuel with
  | zero => rfl
  | succ fuel =>
    have hg : ¬ (0 < i ∧ (nthNode ([] : List HeapNode) i).fScore <
        (nthNode ([] : List HeapNode) ((i-1)/2)).fScore) := by
      simp [nthNode]
    rw [bubbleUp, if_neg hg]

theorem minHeapify_capacity :
    ∀ (fuel : Nat) (h : MinHeap) (idx : Nat),
    (minHeapify fuel h idx).capacity = h.capacity := by
  intro fuel
  induction fuel with
  | zero =>
    intro h idx
    rfl
  | succ fuel ih =>
    intro h idx
    rw [minHeapify]
    set s1 := if 2*idx+1 < h.nodes.length ∧
      (nthNode h.nodes (2*idx+1)).fScore < (nthNode h.nodes idx).fScore
      then 2*idx+1 else idx with hs1
    set smallest := if 2*idx+2 < h.nodes.length ∧
      (nthNode h.nodes (2*idx+2)).fScore < (nthNode h.nodes s1).fScore
      then 2*idx+2 else s1 with hsm
    by_cases hne : smallest ≠ idx
    · rw [if_pos hne]
      exact ih _ _
    · rw [if_neg hne]

/-- Removing the root and moving the last node into its slot permutes the
node array down to the extracted root. -/
theorem shrink_perm : ∀ {ns : List HeapNode}, ns ≠ [] →
    List.Perm ns
      (nthNode ns 0 :: (ns.set 0 (nthNode ns (ns.length - 1))).dropLast) := by
  intro ns hne
  cases ns with
  | nil => exact absurd rfl hne
  | cons n0 t =>
    rcases List.eq_nil_or_concat t with rfl | ⟨t0, a, ht⟩
    · simp [nthNode]
    · rw [List.concat_eq_append] at ht
      subst ht
      have h0 : nthNode (n0 :: (t0 ++ [a])) 0 = n0 := rfl
      have hlen : (n0 :: (t0 ++ [a])).length - 1 = t0.length + 1 := by simp
      have hlast : nthNode (n0 :: (t0 ++ [a])) (t0.length + 1) = a := by
        rw [nthNode_eq_getElem (by simp)]
        simp
      rw [h0, hlen, hlast, List.set_cons_zero]
      have hdl : (a :: (t0 ++ [a])).dropLast = a :: t0 := by
        rw [show a :: (t0 ++ [a]) = (a :: t0) ++ [a] from by simp,
          List.dropLast_concat]
      rw [hdl]
      exact (List.perm_append_singleton a t0).cons n0

/-- `insertHeap` below capacity on a fresh id: the new node joins the
residents, the heap invariant is preserved, and no other id's position
entry moves. -/
theorem insertHeap_spec (h : MinHeap) (c d f : Int)
    (hinv : HeapInv h) (hcap : h.nodes.length < h.capacity)
    (hnr : c ∉ residentIds h.nodes) :
    List.Perm (insertHeap h c d f).nodes ((⟨c, d, f⟩ : HeapNode) :: h.nodes) ∧
    HeapInv (insertHeap h c d f) ∧
    (insertHeap h c d f).capacity = h.capacity ∧
    ∀ x, x ≠ c → x ∉ residentIds h.nodes →
      (insertHeap h c d f).pos x = h.pos x := by
  obtain ⟨ho, hacc, hnd⟩ := hinv
  have hguard : ¬ h.nodes.length ≥ h.capacity := by omega
  have hIH : insertHeap h c d f =
      ⟨(bubbleUp h.nodes.length (h.nodes ++ [⟨c, d, f⟩])
          (posUpdate h.pos c (h.nodes.length : Int)) h.nodes.length).1,
        h.capacity,
        (bubbleUp h.nodes.length (h.nodes ++ [⟨c, d, f⟩])
          (posUpdate h.pos c (h.nodes.length : Int)) h.nodes.length).2⟩ := by
    simp only [insertHeap]
    rw [if_neg hguard]
  set i := h.nodes.length with hi
  set ns1 := h.nodes ++ [(⟨c, d, f⟩ : HeapNode)] with hns1
  set p1 := posUpdate h.pos c (i : Int) with hp1
  have hilen : i < ns1.length := by
    rw [hns1, List.length_append, List.length_singleton]
    omega
  have hperm1 : List.Perm (bubbleUp i ns1 p1 i).1 ns1 :=
    bubbleUp_perm i ns1 p1 i hilen
  have hpermc : List.Perm ns1 ((⟨c, d, f⟩ : HeapNode) :: h.nodes) :=
    List.perm_append_singleton _ _
  have hnd1 : (residentIds ns1).Nodup := by
    have h2 : (((⟨c, d, f⟩ : HeapNode) :: h.nodes).map HeapNode.cityID).Nodup := by
      rw [List.map_cons]
      exact List.nodup_cons.mpr ⟨hnr, hnd⟩
    exact ((hpermc.map HeapNode.cityID).nodup_iff).mpr h2
  have hacc1 : ∀ k, k < ns1.length → p1 (nthNode ns1 k).cityID = (k : Int) := by
    intro k hk
    have hk2 : k < i + 1 := by
      rw [hns1, List.length_append, List.length_singleton] at hk
      omega
    by_cases hki : k = i
    · subst hki
      rw [hns1, hi, nthNode_append_new]
      rw [hp1]
      simp [posUpdate, hi]
    · have hklt : k < h.nodes.length := by omega
      rw [hns1, nthNode_append_old hklt]
      have hne2 : (nthNode h.nodes k).cityID ≠ c := by
        intro hcon
        apply hnr
        rw [← hcon]
        exact List.mem_map_of_mem HeapNode.cityID (nthNode_mem_of_lt hklt)
      rw [hp1]
      simp only [posUpdate]
      rw [if_neg hne2]
      exact hacc k hklt
  have hup : upHeapExcept ns1 i := by
    constructor
    · intro j hj1 hj2 hjne
      have hjlen : j < h.nodes.length := by
        rw [hns1, List.length_append] at hj2
        simp at hj2
        omega
      have hplen : (j-1)/2 < h.nodes.length := by omega
      rw [hns1, nthNode_append_old hjlen, nthNode_append_old hplen]
      exact ho j hj1 hjlen
    · intro hipos j hj hjp
      exfalso
      rw [hns1, List.length_append] at hj
      simp at hj
      omega
  have hord : heapOrdered (bubbleUp i ns1 p1 i).1 :=
    bubbleUp_ordered i ns1 p1 i (le_refl i) hilen hup
  have hacc2 := bubbleUp_accurate i ns1 p1 i hilen hnd1 hacc1
  have hpu : ∀ x, x ≠ c → x ∉ residentIds h.nodes →
      (bubbleUp i ns1 p1 i).2 x = h.pos x := by
    intro x hxc hxr
    have hall : ∀ nd ∈ ns1, nd.cityID ≠ x := by
      intro nd hmem
      rw [hns1] at hmem
      rcases List.mem_append.mp hmem with hm | hm
      · intro hcon
        apply hxr
        rw [← hcon]
        exact List.mem_map_of_mem HeapNode.cityID hm
      · rw [List.mem_singleton.mp hm]
        intro hcon
        exact hxc hcon.symm
    rw [bubbleUp_pos_untouched i ns1 p1 i x hilen hall, hp1]
    simp only [posUpdate]
    rw [if_neg hxc]
  rw [hIH]
  refine ⟨hperm1.trans hpermc, ⟨hord, hacc2, ?_⟩, rfl, hpu⟩
  exact ((hperm1.map HeapNode.cityID).nodup_iff).mpr hnd1

/-- `decreaseKey` on a resident id with a not-larger fScore: the slot's node
is replaced in place (up to permutation), the heap invariant is preserved,
and non-resident position entries do not move. -/
theorem decreaseKey_spec (h : MinHeap) (c dv fv : Int) (k : Nat)
    (hinv : HeapInv h) (hk : k < h.nodes.length)
    (hc : (nthNode h.nodes k).cityID = c)
    (hle : fv ≤ (nthNode h.nodes k).fScore) :
    List.Perm (decreaseKey h c dv fv).nodes
      (h.nodes.set k { nthNode h.nodes k with distance := dv, fScore := fv }) ∧
    HeapInv (decreaseKey h c dv fv) ∧
    (decreaseKey h c dv fv).capacity = h.capacity ∧
    ∀ x, x ∉ residentIds h.nodes → (decreaseKey h c dv fv).pos x = h.pos x := by
  obtain ⟨ho, hacc, hnodup⟩ := hinv
  have hpos : h.pos c = (k : Int) := by
    rw [← hc]
    exact hacc k hk
  have hne1 : ¬ (h.pos c = -1) := by
    rw [hpos]
    omega
  have htoNat : (h.pos c).toNat = k := by
    rw [hpos]
    simp
  have hDK : decreaseKey h c dv fv =
      ⟨(bubbleUp k (h.nodes.set k
            { nthNode h.nodes k with distance := dv, fScore := fv }) h.pos k).1,
        h.capacity,
        (bubbleUp k (h.nodes.set k
            { nthNode h.nodes k with distance := dv, fScore := fv }) h.pos k).2⟩ := by
    simp only [decreaseKey]
    rw [if_neg hne1, htoNat, if_pos hk]
  set newNode : HeapNode :=
    { nthNode h.nodes k with distance := dv, fScore := fv } with hnew
  set ns1 := h.nodes.set k newNode with hns1
  have hlen1 : ns1.length = h.nodes.length := by
    rw [hns1, List.length_set]
  have hklen1 : k < ns1.length := by
    rw [hlen1]
    exact hk
  have hperm1 : List.Perm (bubbleUp k ns1 h.pos k).1 ns1 :=
    bubbleUp_perm k ns1 h.pos k hklen1
  have hids : ns1.map HeapNode.cityID = h.nodes.map HeapNode.cityID := by
    rw [hns1, List.map_set]
    have hk2 : k < (h.nodes.map HeapNode.cityID).length := by
      rw [List.length_map]
      exact hk
    have hval : newNode.cityID = (h.nodes.map HeapNode.cityID)[k] := by
      rw [List.getElem_map, ← nthNode_eq_getElem hk]
    rw [hval, set_self_eq hk2]
  have hnd1 : (residentIds ns1).Nodup := by
    show (ns1.map HeapNode.cityID).Nodup
    rw [hids]
    exact hnodup
  have hacc1 : ∀ m, m < ns1.length → h.pos (nthNode ns1 m).cityID = (m : Int) := by
    intro m hm
    rw [hlen1] at hm
    by_cases hmk : m = k
    · rw [hmk, hns1, nthNode_set_self hk]
      have hcid : newNode.cityID = (nthNode h.nodes k).cityID := rfl
      rw [hcid, hc, hpos]
    · rw [hns1, nthNode_set_other (fun hcon => hmk hcon.symm)]
      exact hacc m hm
  have hup : upHeapExcept ns1 k := by
    constructor
    · intro j hj1 hj2 hjk
      rw [hlen1] at hj2
      rw [hns1, nthNode_set_other (fun hcon => hjk hcon.symm)]
      by_cases hpj : (j-1)/2 = k
      · rw [hpj, nthNode_set_self hk]
        have hfs : newNode.fScore = fv := rfl
        rw [hfs]
        refine le_trans hle ?_
        rw [← hpj]
        exact ho j hj1 hj2
      · rw [nthNode_set_other (fun hcon => hpj hcon.symm)]
        exact ho j hj1 hj2
    · intro hkpos j hj hjp
      rw [hlen1] at hj
      have hgp1 : k ≠ (k-1)/2 := by omega
      have hgp2 : k ≠ j := by omega
      rw [hns1, nthNode_set_other hgp1, nthNode_set_other hgp2]
      have h2 := ho j (by omega) hj
      rw [hjp] at h2
      exact le_trans (ho k hkpos hk) h2
  have hordered : heapOrdered (bubbleUp k ns1 h.pos k).1 :=
    bubbleUp_ordered k ns1 h.pos k (le_refl k) hklen1 hup
  have hacc2 := bubbleUp_accurate k ns1 h.pos k hklen1 hnd1 hacc1
  have hpu : ∀ x, x ∉ residentIds h.nodes →
      (bubbleUp k ns1 h.pos k).2 x = h.pos x := by
    intro x hx
    have hall : ∀ m ∈ ns1, m.cityID ≠ x := by
      intro m hmem hcon
      apply hx
      rw [← hcon]
      show m.cityID ∈ h.nodes.map HeapNode.cityID
      rw [← hids]
      exact List.mem_map_of_mem HeapNode.cityID hmem
    exact bubbleUp_pos_untouched k ns1 h.pos k x hklen1 hall
  rw [hDK]
  refine ⟨hperm1, ⟨hordered, hacc2, ?_⟩, rfl, hpu⟩
  exact ((hperm1.map HeapNode.cityID).nodup_iff).mpr hnd1

/-- `decreaseKey` is a no-op when the position table holds the `-1`
sentinel for the id. -/
theorem decreaseKey_miss (h : MinHeap) (c dv fv : Int) (hmiss : h.pos c = -1) :
    decreaseKey h c dv fv = h := by
  simp only [decreaseKey]
  rw [if_pos hmiss]

/-- `extractMin` on a nonempty heap: the root is returned and is minimal,
the remaining nodes are the rest of the heap with the invariant restored,
and every id non-resident afterwards has a cleared position entry unless
the heap just became empty. -/
theorem extractMin_spec (h : MinHeap) (hne : h.nodes ≠ []) (hinv : HeapInv h) :
    (extractMin h).1 = nthNode h.nodes 0 ∧
    (∀ m ∈ h.nodes, (extractMin h).1.fScore ≤ m.fScore) ∧
    List.Perm h.nodes ((extractMin h).1 :: (extractMin h).2.nodes) ∧
    HeapInv (extractMin h).2 ∧
    (extractMin h).2.capacity = h.capacity ∧
    ((∀ c, c ∉ residentIds h.nodes → h.pos c = -1 ∨ h.nodes = []) →
      ∀ c, c ∉ residentIds (extractMin h).2.nodes →
      (extractMin h).2.pos c = -1 ∨ (extractMin h).2.nodes = []) ∧
    (∀ c, c ∉ residentIds (extractMin h).2.nodes →
      c ≠ (extractMin h).1.cityID → (extractMin h).2.pos c = h.pos c) := by
  obtain ⟨ho, hacc, hnd⟩ := hinv
  have hL : 0 < h.nodes.length := List.length_pos.mpr hne
  have hempf : ¬ (h.nodes.isEmpty = true) := by
    rw [List.isEmpty_iff]
    exact hne
  have hEM : extractMin h = (nthNode h.nodes 0,
      minHeapify
        (((h.nodes.set 0 (nthNode h.nodes (h.nodes.length - 1))).dropLast).length + 1)
        ⟨(h.nodes.set 0 (nthNode h.nodes (h.nodes.length - 1))).dropLast,
          h.capacity,
          posUpdate (posUpdate h.pos (nthNode h.nodes 0).cityID (-1))
            (nthNode h.nodes (h.nodes.length - 1)).cityID 0⟩ 0) := by
    simp only [extractMin]
    rw [if_neg hempf]
  set root := nthNode h.nodes 0 with hroot
  set lastN := nthNode h.nodes (h.nodes.length - 1) with hlastN
  set ns2 := (h.nodes.set 0 lastN).dropLast with hns2
  set p2 := posUpdate (posUpdate h.pos root.cityID (-1)) lastN.cityID 0 with hp2
  set hm := minHeapify (ns2.length + 1) ⟨ns2, h.capacity, p2⟩ 0 with hhm
  have hlen2 : ns2.length = h.nodes.length - 1 := by
    rw [hns2, List.length_dropLast, List.length_set]
  have hsh : List.Perm h.nodes (root :: ns2) := shrink_perm hne
  have hns2j : ∀ j, 0 < j → j < ns2.length →
      nthNode ns2 j = nthNode h.nodes j := by
    intro j hj1 hj2
    rw [hns2, nthNode_dropLast (by rw [List.length_set]; omega)]
    exact nthNode_set_other (by omega)
  have hns20 : 0 < ns2.length → nthNode ns2 0 = lastN := by
    intro h0
    rw [hns2, nthNode_dropLast (by rw [List.length_set]; omega),
      nthNode_set_self hL]
  have hdown : downHeapExcept ns2 0 := by
    constructor
    · intro j hj1 hj2 hjp
      have hp1 : 0 < (j-1)/2 := by omega
      rw [hns2j j hj1 hj2, hns2j ((j-1)/2) hp1 (by omega)]
      exact ho j hj1 (by omega)
    · intro hcon
      exact absurd hcon (lt_irrefl 0)
  have hacc2 : ∀ k, k < ns2.length → p2 (nthNode ns2 k).cityID = (k : Int) := by
    intro k hk
    by_cases hk0 : k = 0
    · rw [hk0, hns20 (by omega), hp2]
      simp [posUpdate]
    · have hkpos : 0 < k := by omega
      rw [hns2j k hkpos hk]
      have hklen : k < h.nodes.length := by omega
      have hd1 : (nthNode h.nodes k).cityID ≠ lastN.cityID := by
        rw [hlastN]
        exact resident_distinct hnd hklen (by omega) (by omega)
      have hd2 : (nthNode h.nodes k).cityID ≠ root.cityID := by
        rw [hroot]
        exact resident_distinct hnd hklen hL (by omega)
      rw [hp2]
      simp only [posUpdate]
      rw [if_neg hd1, if_neg hd2]
      exact hacc k hklen
  have hndc : ((root :: ns2).map HeapNode.cityID).Nodup :=
    (hsh.map HeapNode.cityID).nodup hnd
  rw [List.map_cons] at hndc
  have hnd2 : (residentIds ns2).Nodup := (List.nodup_cons.mp hndc).2
  have hrootni : root.cityID ∉ residentIds ns2 := (List.nodup_cons.mp hndc).1
  have hmperm : List.Perm hm.nodes ns2 :=
    minHeapify_perm (ns2.length + 1) ⟨ns2, h.capacity, p2⟩ 0
  have hmord : heapOrdered hm.nodes :=
    minHeapify_ordered (ns2.length + 1) ⟨ns2, h.capacity, p2⟩ 0
      (by show ns2.length - 0 ≤ ns2.length + 1; omega) hdown
  have hmacc : posAccurate hm :=
    minHeapify_accurate (ns2.length + 1) ⟨ns2, h.capacity, p2⟩ 0 hnd2 hacc2
  have hmnd : (residentIds hm.nodes).Nodup :=
    ((hmperm.map HeapNode.cityID).nodup_iff).mpr hnd2
  have hmcap : hm.capacity = h.capacity :=
    minHeapify_capacity (ns2.length + 1) ⟨ns2, h.capacity, p2⟩ 0
  have hfresh2 : (∀ c, c ∉ residentIds h.nodes → h.pos c = -1 ∨ h.nodes = [])
      → ∀ c, c ∉ residentIds hm.nodes →
      hm.pos c = -1 ∨ hm.nodes = [] := by
    intro hfr c hc
    by_cases hL1 : h.nodes.length = 1
    · right
      rw [← List.length_eq_zero, hmperm.length_eq, hlen2, hL1]
    · left
      have hL2 : 2 ≤ h.nodes.length := by omega
      have hcns2 : c ∉ residentIds ns2 := by
        intro hcon
        exact hc ((hmperm.map HeapNode.cityID).mem_iff.mpr hcon)
      have hall : ∀ m ∈ ns2, m.cityID ≠ c := by
        intro m hmem hcon
        apply hcns2
        rw [← hcon]
        exact List.mem_map_of_mem HeapNode.cityID hmem
      have hpos2 : hm.pos c = p2 c :=
        minHeapify_pos_untouched (ns2.length + 1) ⟨ns2, h.capacity, p2⟩ 0 c hall
      rw [hpos2]
      by_cases hcr : c = root.cityID
      · have hrl : root.cityID ≠ lastN.cityID := by
          rw [hroot, hlastN]
          exact resident_distinct hnd hL (by omega) (by omega)
        rw [hp2]
        simp only [posUpdate]
        rw [if_neg (by rw [hcr]; exact hrl), hcr]
        simp
      · have hchn : c ∉ residentIds h.nodes := by
          intro hcon
          have h2 := (hsh.map HeapNode.cityID).mem_iff.mp hcon
          rw [List.map_cons] at h2
          rcases List.mem_cons.mp h2 with h1 | h1
          · exact hcr h1
          · exact hcns2 h1
        have hposc : h.pos c = -1 := by
          rcases hfr c hchn with h1 | h1
          · exact h1
          · exact absurd h1 hne
        have hcl : c ≠ lastN.cityID := by
          intro hcon
          apply hcns2
          rw [hcon]
          have h0 : 0 < ns2.length := by omega
          rw [← hns20 h0]
          exact List.mem_map_of_mem HeapNode.cityID (nthNode_mem_of_lt h0)
        rw [hp2]
        simp only [posUpdate]
        rw [if_neg hcl, if_neg hcr]
        exact hposc
  have hmin : ∀ m ∈ h.nodes, root.fScore ≤ m.fScore := by
    intro m hmem
    obtain ⟨j, hj, hjm⟩ := List.mem_iff_getElem.mp hmem
    rw [← hjm, ← nthNode_eq_getElem hj]
    exact heapOrdered_root_min ho j hj
  have huntouched : ∀ c, c ∉ residentIds hm.nodes → c ≠ root.cityID →
      hm.pos c = h.pos c := by
    intro c hc hcr
    have hcns2 : c ∉ residentIds ns2 := by
      intro hcon
      exact hc ((hmperm.map HeapNode.cityID).mem_iff.mpr hcon)
    have hall : ∀ m ∈ ns2, m.cityID ≠ c := by
      intro m hmem hcon
      apply hcns2
      rw [← hcon]
      exact List.mem_map_of_mem HeapNode.cityID hmem
    have hpos2 : hm.pos c = p2 c :=
      minHeapify_pos_untouched (ns2.length + 1) ⟨ns2, h.capacity, p2⟩ 0 c hall
    have hcl : c ≠ lastN.cityID := by
      by_cases hL1 : h.nodes.length = 1
      · intro hcon
        apply hcr
        rw [hcon, hlastN, hroot, hL1]
      · intro hcon
        apply hcns2
        rw [hcon]
        have h0 : 0 < ns2.length := by omega
        rw [← hns20 h0]
        exact List.mem_map_of_mem HeapNode.cityID (nthNode_mem_of_lt h0)
    rw [hpos2, hp2]
    simp only [posUpdate]
    rw [if_neg hcl, if_neg hcr]
  rw [hEM]
  exact ⟨rfl, hmin, hsh.trans (hmperm.symm.cons root), ⟨hmord, hmacc, hmnd⟩,
    hmcap, hfresh2, huntouched⟩

/-! ### Dijkstra's loop invariant and optimality -/

theorem cityID_inj {g : Graph} (hnd : (g.cities.map City.cityID).Nodup)
    {i j : Nat} (hi : i < numCities g) (hj : j < numCities g)
    (h : (nthCity g i).cityID = (nthCity g j).cityID) : i = j := by
  have h1 := findCityIndex_nthCity hnd hi
  have h2 := findCityIndex_nthCity hnd hj
  rw [h, h2] at h1
  omega

/-- The cut-crossing bound: every path from the source either ends at a
finalized vertex whose tentative distance bounds the path weight, or at some
point enters a non-finalized vertex that already holds a not-larger tentative
distance. -/
theorem dijkstra_cut (g : Graph) (hwf : WellFormed g) (src : Nat)
    (hsrc : src < numCities g) (F : Nat → Prop) (dist : Nat → Int)
    (hsound : DistSound g src dist) (hsrc0 : dist src = 0)
    (hfin : ∀ u, F u → ∀ w, Reaches g src u w → dist u ≤ w)
    (hrel : ∀ u, F u → dist u ≠ INF → ∀ e ∈ (nthCity g u).adjList,
      dist (findCityIndex g e.destCityID).toNat ≤ dist u + e.distance) :
    ∀ z w, Reaches g src z w →
      (F z ∧ dist z ≤ w) ∨
      (∃ x, x < numCities g ∧ ¬ F x ∧ dist x ≤ w) := by
  intro z w hreach
  induction hreach with
  | refl =>
    by_cases hF : F src
    · exact Or.inl ⟨hF, le_of_eq hsrc0⟩
    · exact Or.inr ⟨src, hsrc, hF, le_of_eq hsrc0⟩
  | step e hij he hk htgt ih =>
    rename_i j k w'
    have hj : j < numCities g := by
      by_contra hcon
      rw [nthCity_default hcon] at he
      exact absurd he (by simp [dCity])
    have hepos : 0 < e.distance := hwf.2.2 _ (nthCity_mem hj) e he
    rcases ih with ⟨hjF, hjle⟩ | ⟨x, hx, hxF, hxle⟩
    · have hkidx : (findCityIndex g e.destCityID).toNat = k := by
        rw [← htgt, findCityIndex_nthCity hwf.1 hk]
        simp
      by_cases hjINF : dist j = INF
      · have hw' : INF ≤ w' := by
          rw [← hjINF]
          exact hjle
        have hklow : dist k ≤ w' + e.distance := by
          have := hsound.1 k
          omega
        by_cases hkF : F k
        · exact Or.inl ⟨hkF, hklow⟩
        · exact Or.inr ⟨k, hk, hkF, hklow⟩
      · have h2 := hrel j hjF hjINF e he
        rw [hkidx] at h2
        have hklow : dist k ≤ w' + e.distance := le_trans h2 (by omega)
        by_cases hkF : F k
        · exact Or.inl ⟨hkF, hklow⟩
        · exact Or.inr ⟨k, hk, hkF, hklow⟩
    · exact Or.inr ⟨x, hx, hxF, by omega⟩

/-- At the moment a non-finalized slot holds the minimum fScore over the
heap, its tentative distance bounds every path weight to it (the extraction
step of the classical correctness argument). -/
theorem extract_min_optimal (g : Graph) (hwf : WellFormed g) (src : Nat)
    (hsrc : src < numCities g) (F : Nat → Prop) (dist : Nat → Int)
    (h : MinHeap)
    (hsound : DistSound g src dist) (hsrc0 : dist src = 0)
    (hresid : ∀ z, z < numCities g →
      (¬ F z ↔ (nthCity g z).cityID ∈ residentIds h.nodes))
    (hnodes : ∀ m ∈ h.nodes, ∃ z, z < numCities g ∧ ¬ F z ∧
      (nthCity g z).cityID = m.cityID ∧ m.distance = dist z ∧
      m.fScore = dist z)
    (hfin : ∀ u2, F u2 → ∀ w, Reaches g src u2 w → dist u2 ≤ w)
    (hrel : ∀ u2, F u2 → dist u2 ≠ INF → ∀ e ∈ (nthCity g u2).adjList,
      dist (findCityIndex g e.destCityID).toNat ≤ dist u2 + e.distance)
    (v : Nat) (hv : v < numCities g)
    (hmin : ∀ m ∈ h.nodes, dist v ≤ m.fScore) :
    ∀ w, Reaches g src v w → dist v ≤ w := by
  intro w hreach
  rcases dijkstra_cut g hwf src hsrc F dist hsound hsrc0 hfin hrel v w hreach
    with ⟨_, hvle⟩ | ⟨x, hx, hxF, hxle⟩
  · exact hvle
  · have hxmem := (hresid x hx).mp hxF
    obtain ⟨m, hm, hmid⟩ := List.mem_map.mp hxmem
    obtain ⟨z, hz, hzF, hzid, hzd, hzf⟩ := hnodes m hm
    have hzx : z = x := cityID_inj hwf.1 hz hx (by rw [hzid, hmid])
    rw [hzx] at hzf
    have hvm := hmin m hm
    rw [hzf] at hvm
    omega

theorem buildPath_totalDistance (g : Graph) (parent : Nat → Int) :
    ∀ (fuel : Nat) (cur : Int) (pr : PathResult),
    (buildPath g parent fuel cur pr).totalDistance = pr.totalDistance := by
  intro fuel
  induction fuel with
  | zero =>
    intro cur pr
    rfl
  | succ fuel ih =>
    intro cur pr
    rw [buildPath]
    by_cases hc : cur = -1
    · rw [if_pos hc]
    · rw [if_neg hc, ih]
      rfl

theorem relaxEdges_cons_pos (g : Graph) (u : Int) (e : Edge)
    (rest : List Edge) (dist parent : Nat → Int) (h : MinHeap)
    (hg : dist u.toNat ≠ INF ∧ dist u.toNat + e.distance <
      dist (findCityIndex g e.destCityID).toNat) :
    relaxEdges g u (e :: rest) dist parent h =
      relaxEdges g u rest
        (fun j => if j = (findCityIndex g e.destCityID).toNat
          then dist u.toNat + e.distance else dist j)
        (fun j => if j = (findCityIndex g e.destCityID).toNat
          then u else parent j)
        (decreaseKey h e.destCityID (dist u.toNat + e.distance)
          (dist u.toNat + e.distance)) := by
  simp only [relaxEdges]
  rw [if_pos hg]
  simp

theorem relaxEdges_cons_neg (g : Graph) (u : Int) (e : Edge)
    (rest : List Edge) (dist parent : Nat → Int) (h : MinHeap)
    (hg : ¬ (dist u.toNat ≠ INF ∧ dist u.toNat + e.distance <
      dist (findCityIndex g e.destCityID).toNat)) :
    relaxEdges g u (e :: rest) dist parent h =
      relaxEdges g u rest dist parent h := by
  simp only [relaxEdges]
  rw [if_neg hg]

/-- The master invariant-preservation lemma for Dijkstra's relaxation scan:
relaxing the out-edges of a freshly finalized slot `v` preserves soundness,
the finalized distances, the heap invariant, the resident bookkeeping and
freshness, only ever lowers entries, and leaves each scanned edge relaxed. -/
theorem relaxEdges_master (g : Graph) (hwf : WellFormed g) (src : Nat)
    (F : Nat → Prop) (v : Nat) (u : Int)
    (hu : u.toNat = v) (hvF : F v) (hvn : v < numCities g) :
    ∀ (es : List Edge) (dist parent : Nat → Int) (h : MinHeap),
    (∀ e ∈ es, e ∈ (nthCity g v).adjList) →
    DistSound g src dist →
    HeapInv h →
    (∀ z, z < numCities g →
      (¬ F z ↔ (nthCity g z).cityID ∈ residentIds h.nodes)) →
    (∀ m ∈ h.nodes, ∃ z, z < numCities g ∧ ¬ F z ∧
      (nthCity g z).cityID = m.cityID ∧ m.distance = dist z ∧
      m.fScore = dist z) →
    (∀ z, F z → ∀ w, Reaches g src z w → dist z ≤ w) →
    (∀ c, c ∉ residentIds h.nodes → h.pos c = -1 ∨ h.nodes = []) →
    DistSound g src (relaxEdges g u es dist parent h).1 ∧
    (∀ z, F z → (relaxEdges g u es dist parent h).1 z = dist z) ∧
    (∀ z, (relaxEdges g u es dist parent h).1 z ≤ dist z) ∧
    (∀ e ∈ es, dist v ≠ INF →
      (relaxEdges g u es dist parent h).1 (findCityIndex g e.destCityID).toNat
        ≤ dist v + e.distance) ∧
    HeapInv (relaxEdges g u es dist parent h).2.2 ∧
    (∀ z, z < numCities g → (¬ F z ↔ (nthCity g z).cityID ∈
      residentIds (relaxEdges g u es dist parent h).2.2.nodes)) ∧
    (∀ m ∈ (relaxEdges g u es dist parent h).2.2.nodes, ∃ z,
      z < numCities g ∧ ¬ F z ∧ (nthCity g z).cityID = m.cityID ∧
      m.distance = (relaxEdges g u es dist parent h).1 z ∧
      m.fScore = (relaxEdges g u es dist parent h).1 z) ∧
    (∀ c, c ∉ residentIds (relaxEdges g u es dist parent h).2.2.nodes →
      (relaxEdges g u es dist parent h).2.2.pos c = -1 ∨
      (relaxEdges g u es dist parent h).2.2.nodes = []) ∧
    (relaxEdges g u es dist parent h).2.2.nodes.length = h.nodes.length := by
  intro es
  induction es with
  | nil =>
    intro dist parent h _ hsound hinv hresid hnodes hfin hfresh
    exact ⟨hsound, fun z _ => rfl, fun z => le_refl _,
      fun e he => absurd he (List.not_mem_nil e),
      hinv, hresid, hnodes, hfresh, rfl⟩
  | cons e rest ih =>
    intro dist parent h hes hsound hinv hresid hnodes hfin hfresh
    by_cases hg : dist u.toNat ≠ INF ∧ dist u.toNat + e.distance <
        dist (findCityIndex g e.destCityID).toNat
    · rw [relaxEdges_cons_pos g u e rest dist parent h hg]
      rw [hu] at hg ⊢
      have hEadj : e ∈ (nthCity g v).adjList := hes e (List.mem_cons_self e rest)
      have hidxne : findCityIndex g e.destCityID ≠ -1 :=
        hwf.2.1 _ (nthCity_mem hvn) e hEadj
      obtain ⟨htn, htid⟩ := findCityIndex_found hidxne
      set t := (findCityIndex g e.destCityID).toNat with htdef
      have hreachV : Reaches g src v (dist v) := hsound.2 v hvn hg.1
      have hreachT : Reaches g src t (dist v + e.distance) :=
        Reaches.step e hreachV hEadj htn htid
      have htF : ¬ F t := by
        intro hFt
        have := hfin t hFt _ hreachT
        omega
      have hvt : v ≠ t := by
        intro hcon
        rw [← hcon] at htF
        exact htF hvF
      have hnodup0 := hinv.2.2
      have hres := (hresid t htn).mp htF
      obtain ⟨m, hm, hmid⟩ := List.mem_map.mp hres
      obtain ⟨k, hk, hkm⟩ := List.mem_iff_getElem.mp hm
      have hkN : nthNode h.nodes k = m := by
        rw [nthNode_eq_getElem hk]
        exact hkm
      obtain ⟨z, hz, hzF, hzid, hzd, hzf⟩ := hnodes m hm
      have hzt : z = t := cityID_inj hwf.1 hz htn (by rw [hzid, hmid])
      rw [hzt] at hzf hzd
      have hDK := decreaseKey_spec h e.destCityID (dist v + e.distance)
        (dist v + e.distance) k hinv hk
        (by rw [hkN, hmid, htid])
        (by rw [hkN, hzf]; omega)
      obtain ⟨hDKperm, hDKinv, hDKcap, hDKpos⟩ := hDK
      set newNode : HeapNode := ({ nthNode h.nodes k with distance := dist v + e.distance, fScore := dist v + e.distance } : HeapNode) with hnewNode
      set dist2 := fun j => if j = t then dist v + e.distance else dist j
        with hdist2
      set parent2 := fun j => if j = t then u else parent j with hparent2
      set h2 := decreaseKey h e.destCityID (dist v + e.distance)
        (dist v + e.distance) with hh2
      have hd2t : dist2 t = dist v + e.distance := by
        rw [hdist2]
        simp
      have hd2o : ∀ z2, z2 ≠ t → dist2 z2 = dist z2 := by
        intro z2 hz2
        rw [hdist2]
        simp [hz2]
      have hd2v : dist2 v = dist v := hd2o v hvt
      have hd2le : ∀ z2, dist2 z2 ≤ dist z2 := by
        intro z2
        by_cases hz2 : z2 = t
        · rw [hz2, hd2t]
          omega
        · rw [hd2o z2 hz2]
      have hsound2 : DistSound g src dist2 := by
        constructor
        · intro z2
          by_cases hz2 : z2 = t
          · rw [hz2, hd2t]
            have h1 := hsound.1 t
            omega
          · rw [hd2o z2 hz2]
            exact hsound.1 z2
        · intro z2 hz2n hz2INF
          by_cases hz2 : z2 = t
          · rw [hz2, hd2t]
            exact hreachT
          · rw [hd2o z2 hz2] at hz2INF ⊢
            exact hsound.2 z2 hz2n hz2INF
      have hidsmem : ∀ x : Int,
          x ∈ residentIds h2.nodes ↔ x ∈ residentIds h.nodes := by
        intro x
        show x ∈ h2.nodes.map HeapNode.cityID ↔ x ∈ h.nodes.map HeapNode.cityID
        rw [(hDKperm.map HeapNode.cityID).mem_iff]
        have hmapset : (h.nodes.set k newNode).map HeapNode.cityID
            = h.nodes.map HeapNode.cityID := by
          rw [List.map_set]
          have hk2 : k < (h.nodes.map HeapNode.cityID).length := by
            rw [List.length_map]
            exact hk
          have hval : newNode.cityID = (h.nodes.map HeapNode.cityID)[k] := by
            rw [List.getElem_map, ← nthNode_eq_getElem hk]
          rw [hval, set_self_eq hk2]
        rw [hmapset]
      have hresid2 : ∀ z2, z2 < numCities g →
          (¬ F z2 ↔ (nthCity g z2).cityID ∈ residentIds h2.nodes) := by
        intro z2 hz2
        rw [hidsmem]
        exact hresid z2 hz2
      have hnodes2 : ∀ m2 ∈ h2.nodes, ∃ z2, z2 < numCities g ∧ ¬ F z2 ∧
          (nthCity g z2).cityID = m2.cityID ∧ m2.distance = dist2 z2 ∧
          m2.fScore = dist2 z2 := by
        intro m2 hm2
        have hm2set : m2 ∈ h.nodes.set k newNode := hDKperm.mem_iff.mp hm2
        by_cases hm2n : m2 = newNode
        · refine ⟨t, htn, htF, ?_, ?_, ?_⟩
          · rw [hm2n]
            show (nthCity g t).cityID = (nthNode h.nodes k).cityID
            rw [hkN, hmid]
          · rw [hm2n, hd2t]
          · rw [hm2n, hd2t]
        · have hm2mem : m2 ∈ h.nodes := by
            rcases List.mem_or_eq_of_mem_set hm2set with hmem | heq
            · exact hmem
            · exact absurd heq hm2n
          obtain ⟨z2, hz2, hz2F, hz2id, hz2d, hz2f⟩ := hnodes m2 hm2mem
          have hz2t : z2 ≠ t := by
            intro hcon
            have hm2id : m2.cityID = m.cityID := by
              rw [← hz2id, hcon, ← hmid]
            obtain ⟨k2, hk2, hk2m⟩ := List.mem_iff_getElem.mp hm2set
            rw [List.length_set] at hk2
            by_cases hk2k : k2 = k
            · apply hm2n
              rw [← hk2m, List.getElem_set, if_pos hk2k.symm]
            · have hne2 : (nthNode h.nodes k2).cityID ≠
                  (nthNode h.nodes k).cityID :=
                resident_distinct hnodup0 hk2 hk hk2k
              apply hne2
              rw [hkN, nthNode_eq_getElem hk2]
              have hsame : h.nodes[k2] = m2 := by
                rw [← hk2m, List.getElem_set,
                  if_neg (fun hcon2 => hk2k hcon2.symm)]
              rw [hsame, hm2id]
          refine ⟨z2, hz2, hz2F, hz2id, ?_, ?_⟩
          · rw [hd2o z2 hz2t]
            exact hz2d
          · rw [hd2o z2 hz2t]
            exact hz2f
      have hfin2 : ∀ z2, F z2 → ∀ w, Reaches g src z2 w → dist2 z2 ≤ w := by
        intro z2 hz2F w hw
        have hz2t : z2 ≠ t := fun hcon => htF (hcon ▸ hz2F)
        rw [hd2o z2 hz2t]
        exact hfin z2 hz2F w hw
      have hne0 : h.nodes ≠ [] := by
        intro hcon
        rw [hcon] at hm
        exact absurd hm (List.not_mem_nil m)
      have hfresh2 : ∀ c, c ∉ residentIds h2.nodes →
          h2.pos c = -1 ∨ h2.nodes = [] := by
        intro c hc
        left
        have hc0 : c ∉ residentIds h.nodes := fun hcon => hc ((hidsmem c).mpr hcon)
        rw [hDKpos c hc0]
        rcases hfresh c hc0 with h1 | h1
        · exact h1
        · exact absurd h1 hne0
      have hlen2 : h2.nodes.length = h.nodes.length := by
        rw [hDKperm.length_eq, List.length_set]
      have hes2 : ∀ e2 ∈ rest, e2 ∈ (nthCity g v).adjList :=
        fun e2 he2 => hes e2 (List.mem_cons_of_mem e he2)
      obtain ⟨ihsound, ihstab, ihmono, ihrel, ihinv, ihresid, ihnodes,
        ihfresh, ihlen⟩ :=
        ih dist2 parent2 h2 hes2 hsound2 hDKinv hresid2 hnodes2 hfin2 hfresh2
      refine ⟨ihsound, ?_, ?_, ?_, ihinv, ihresid, ihnodes, ihfresh,
        ihlen.trans hlen2⟩
      · intro z2 hz2F
        rw [ihstab z2 hz2F]
        exact hd2o z2 (fun hcon => htF (hcon ▸ hz2F))
      · intro z2
        exact le_trans (ihmono z2) (hd2le z2)
      · intro e2 he2 hvINF
        rcases List.mem_cons.mp he2 with he2e | he2r
        · rw [he2e, ← htdef]
          have hmt := ihmono t
          rw [hd2t] at hmt
          exact hmt
        · have hrel2 := ihrel e2 he2r (by rw [hd2v]; exact hvINF)
          rw [hd2v] at hrel2
          exact hrel2
    · rw [relaxEdges_cons_neg g u e rest dist parent h hg]
      rw [hu] at hg
      obtain ⟨ihsound, ihstab, ihmono, ihrel, ihinv, ihresid, ihnodes,
        ihfresh, ihlen⟩ :=
        ih dist parent h (fun e2 he2 => hes e2 (List.mem_cons_of_mem e he2))
          hsound hinv hresid hnodes hfin hfresh
      refine ⟨ihsound, ihstab, ihmono, ?_, ihinv, ihresid, ihnodes,
        ihfresh, ihlen⟩
      intro e2 he2 hvINF
      rcases List.mem_cons.mp he2 with he2e | he2r
      · rw [he2e]
        have hbound : dist (findCityIndex g e.destCityID).toNat ≤
            dist v + e.distance := by
          by_contra hcon
          push_neg at hcon
          exact hg ⟨hvINF, hcon⟩
        exact le_trans (ihmono _) hbound
      · exact ihrel e2 he2r hvINF

/-- The insertion loop seeding Dijkstra's heap: inserting a list of distinct
fresh city slots preserves the heap invariant and strong position-table
freshness, and adds exactly the corresponding nodes. -/
theorem insertList_spec (g : Graph) (dist : Nat → Int) :
    ∀ (l : List Nat) (h0 : MinHeap),
    HeapInv h0 →
    (∀ c, c ∉ residentIds h0.nodes → h0.pos c = -1) →
    (∀ i ∈ l, i < numCities g) →
    ((l.map fun i => (nthCity g i).cityID) ++ residentIds h0.nodes).Nodup →
    h0.nodes.length + l.length ≤ h0.capacity →
    List.Perm
      (l.foldl (fun h i =>
        insertHeap h (nthCity g i).cityID (dist i) (dist i)) h0).nodes
      ((l.map fun i =>
        (⟨(nthCity g i).cityID, dist i, dist i⟩ : HeapNode)) ++ h0.nodes) ∧
    HeapInv (l.foldl (fun h i =>
      insertHeap h (nthCity g i).cityID (dist i) (dist i)) h0) ∧
    (l.foldl (fun h i =>
      insertHeap h (nthCity g i).cityID (dist i) (dist i)) h0).capacity
      = h0.capacity ∧
    (∀ c, c ∉ residentIds (l.foldl (fun h i =>
        insertHeap h (nthCity g i).cityID (dist i) (dist i)) h0).nodes →
      (l.foldl (fun h i =>
        insertHeap h (nthCity g i).cityID (dist i) (dist i)) h0).pos c = -1) := by
  intro l
  induction l with
  | nil =>
    intro h0 hinv hfresh _ _ _
    exact ⟨List.Perm.refl _, hinv, rfl, hfresh⟩
  | cons i l ihl =>
    intro h0 hinv hfresh hlt hnd hcap
    rw [List.foldl_cons]
    have hii : i < numCities g := hlt i (List.mem_cons_self i l)
    have hndc : (((nthCity g i).cityID :: (l.map fun j => (nthCity g j).cityID))
        ++ residentIds h0.nodes).Nodup := by
      have h2 := hnd
      rw [List.map_cons] at h2
      exact h2
    have hnd2 : ((l.map fun j => (nthCity g j).cityID) ++
        ((nthCity g i).cityID :: residentIds h0.nodes)).Nodup := by
      refine List.Perm.nodup ?_ hndc
      rw [List.cons_append]
      exact List.perm_middle.symm
    have hnri : (nthCity g i).cityID ∉ residentIds h0.nodes := by
      rw [List.cons_append] at hndc
      intro hcon
      exact (List.nodup_cons.mp hndc).1 (List.mem_append_right _ hcon)
    have hcap0 : h0.nodes.length < h0.capacity := by
      rw [List.length_cons] at hcap
      omega
    obtain ⟨hIperm, hIinv, hIcap, hIpos⟩ :=
      insertHeap_spec h0 (nthCity g i).cityID (dist i) (dist i)
        hinv hcap0 hnri
    set h1 := insertHeap h0 (nthCity g i).cityID (dist i) (dist i) with hh1
    have hids1 : ∀ x : Int, x ∈ residentIds h1.nodes ↔
        x = (nthCity g i).cityID ∨ x ∈ residentIds h0.nodes := by
      intro x
      show x ∈ h1.nodes.map HeapNode.cityID ↔ _
      rw [(hIperm.map HeapNode.cityID).mem_iff, List.map_cons, List.mem_cons]
      exact Iff.rfl
    have hfresh1 : ∀ c, c ∉ residentIds h1.nodes → h1.pos c = -1 := by
      intro c hc
      have hc1 : c ≠ (nthCity g i).cityID := by
        intro hcon
        apply hc
        rw [hids1]
        exact Or.inl hcon
      have hc0 : c ∉ residentIds h0.nodes := by
        intro hcon
        apply hc
        rw [hids1]
        exact Or.inr hcon
      rw [hIpos c hc1 hc0]
      exact hfresh c hc0
    have hnd1 : ((l.map fun j => (nthCity g j).cityID) ++
        residentIds h1.nodes).Nodup := by
      refine List.Perm.nodup ?_ hnd2
      refine List.Perm.append_left _ ?_
      show List.Perm ((nthCity g i).cityID :: residentIds h0.nodes)
        (h1.nodes.map HeapNode.cityID)
      exact ((hIperm.map HeapNode.cityID).trans
        (by rw [List.map_cons]; exact List.Perm.refl _)).symm
    have hcap1 : h1.nodes.length + l.length ≤ h1.capacity := by
      rw [hIperm.length_eq, List.length_cons, hIcap]
      rw [List.length_cons] at hcap
      omega
    obtain ⟨ihperm, ihinv, ihcap, ihpos⟩ :=
      ihl h1 hIinv hfresh1 (fun j hj => hlt j (List.mem_cons_of_mem i hj))
        hnd1 hcap1
    refine ⟨?_, ihinv, ihcap.trans hIcap, ihpos⟩
    refine ihperm.trans ?_
    rw [List.map_cons, List.cons_append]
    refine List.Perm.trans (List.Perm.append_left _ hIperm) ?_
    exact List.perm_middle

/-- The master theorem for Dijkstra's main loop: from any state satisfying
the loop invariant, with fuel at least the heap size, the loop returns a
sound distance table whose destination entry bounds every path weight from
the source to the destination. -/
theorem dijkstraLoop_master (g : Graph) (hwf : WellFormed g) (src : Nat)
    (hsrc : src < numCities g) (destIndex : Int)
    (hdest : destIndex.toNat < numCities g) :
    ∀ (fuel : Nat) (F : Nat → Prop) (dist parent : Nat → Int) (h : MinHeap),
    h.nodes.length ≤ fuel →
    DistSound g src dist →
    dist src = 0 →
    HeapInv h →
    (∀ z, z < numCities g →
      (¬ F z ↔ (nthCity g z).cityID ∈ residentIds h.nodes)) →
    (∀ m ∈ h.nodes, ∃ z, z < numCities g ∧ ¬ F z ∧
      (nthCity g z).cityID = m.cityID ∧ m.distance = dist z ∧
      m.fScore = dist z) →
    (∀ z, F z → ∀ w, Reaches g src z w → dist z ≤ w) →
    (∀ u2, F u2 → dist u2 ≠ INF → ∀ e ∈ (nthCity g u2).adjList,
      dist (findCityIndex g e.destCityID).toNat ≤ dist u2 + e.distance) →
    (∀ c, c ∉ residentIds h.nodes → h.pos c = -1 ∨ h.nodes = []) →
    DistSound g src (dijkstraLoop destIndex fuel g dist parent h).2.1 ∧
    (∀ w, Reaches g src destIndex.toNat w →
      (dijkstraLoop destIndex fuel g dist parent h).2.1 destIndex.toNat ≤ w) := by
  intro fuel
  induction fuel with
  | zero =>
    intro F dist parent h hfuel hsound hsrc0 hinv hresid hnodes hfin hrel hfresh
    have hemp : h.nodes = [] := List.length_eq_zero.mp (by omega)
    refine ⟨hsound, ?_⟩
    intro w hw
    have hFd : F destIndex.toNat := by
      by_contra hcon
      have h2 := (hresid destIndex.toNat hdest).mp hcon
      rw [hemp] at h2
      exact absurd h2 (List.not_mem_nil _)
    exact hfin destIndex.toNat hFd w hw
  | succ fuel ih =>
    intro F dist parent h hfuel hsound hsrc0 hinv hresid hnodes hfin hrel hfresh
    simp only [dijkstraLoop]
    by_cases hemp : isHeapEmpty h
    · rw [if_pos hemp]
      have hempn : h.nodes = [] := by
        rwa [isHeapEmpty, List.isEmpty_iff] at hemp
      refine ⟨hsound, ?_⟩
      intro w hw
      have hFd : F destIndex.toNat := by
        by_contra hcon
        have h2 := (hresid destIndex.toNat hdest).mp hcon
        rw [hempn] at h2
        exact absurd h2 (List.not_mem_nil _)
      exact hfin destIndex.toNat hFd w hw
    · rw [if_neg hemp]
      have hne : h.nodes ≠ [] := by
        rw [isHeapEmpty, List.isEmpty_iff] at hemp
        exact hemp
      obtain ⟨hroot, hrmin, hperm, hinv2, hcap2, hfresh2cond, huntouched⟩ :=
        extractMin_spec h hne hinv
      have hfresh2 := hfresh2cond hfresh
      set r1 := (extractMin h).1 with hr1
      set h2 := (extractMin h).2 with hh2
      have hrmem : r1 ∈ h.nodes := hperm.mem_iff.mpr (List.mem_cons_self _ _)
      obtain ⟨v, hv, hvF, hvid, hvd, hvf⟩ := hnodes r1 hrmem
      have hfci : findCityIndex g r1.cityID = (v : Int) := by
        rw [← hvid]
        exact findCityIndex_nthCity hwf.1 hv
      have hfcit : (findCityIndex g r1.cityID).toNat = v := by
        rw [hfci]
        simp
      have hvopt : ∀ w, Reaches g src v w → dist v ≤ w := by
        refine extract_min_optimal g hwf src hsrc F dist h hsound hsrc0
          hresid hnodes hfin hrel v hv ?_
        intro m hmm
        rw [← hvf]
        exact hrmin m hmm
      by_cases hudest : findCityIndex g r1.cityID = destIndex
      · rw [if_pos hudest]
        refine ⟨hsound, ?_⟩
        intro w hw
        have hdv : destIndex.toNat = v := by
          rw [← hudest, hfcit]
        rw [hdv] at hw ⊢
        exact hvopt w hw
      · rw [if_neg hudest, hfcit]
        set F2 : Nat → Prop := fun z => F z ∨ z = v with hF2
        have hndall := hinv.2.2
        have hndc2 : (r1.cityID :: h2.nodes.map HeapNode.cityID).Nodup := by
          have h3 : ((r1 :: h2.nodes).map HeapNode.cityID).Nodup :=
            (hperm.map HeapNode.cityID).nodup hndall
          rw [List.map_cons] at h3
          exact h3
        have hrootnotin : r1.cityID ∉ residentIds h2.nodes :=
          (List.nodup_cons.mp hndc2).1
        have hmem2 : ∀ x : Int, x ∈ residentIds h.nodes ↔
            x = r1.cityID ∨ x ∈ residentIds h2.nodes := by
          intro x
          show x ∈ h.nodes.map HeapNode.cityID ↔ _
          rw [(hperm.map HeapNode.cityID).mem_iff, List.map_cons, List.mem_cons]
          exact Iff.rfl
        have hresid3 : ∀ z, z < numCities g →
            (¬ F2 z ↔ (nthCity g z).cityID ∈ residentIds h2.nodes) := by
          intro z hzn
          constructor
          · intro hzF2
            have hzF : ¬ F z := fun hc => hzF2 (Or.inl hc)
            have hzv : z ≠ v := fun hc => hzF2 (Or.inr hc)
            have hzmem := (hresid z hzn).mp hzF
            rcases (hmem2 _).mp hzmem with h3 | h3
            · exfalso
              apply hzv
              refine cityID_inj hwf.1 hzn hv ?_
              rw [h3, hvid]
            · exact h3
          · intro hzmem2 hzF2
            rcases hzF2 with hzF | hzv
            · exact (hresid z hzn).mpr ((hmem2 _).mpr (Or.inr hzmem2)) hzF
            · apply hrootnotin
              rw [← hvid, ← hzv]
              exact hzmem2
        have hnodes3 : ∀ m ∈ h2.nodes, ∃ z, z < numCities g ∧ ¬ F2 z ∧
            (nthCity g z).cityID = m.cityID ∧ m.distance = dist z ∧
            m.fScore = dist z := by
          intro m hmm
          have hmm0 : m ∈ h.nodes :=
            hperm.mem_iff.mpr (List.mem_cons_of_mem _ hmm)
          obtain ⟨z, hz, hzF, hzid, hzd, hzf⟩ := hnodes m hmm0
          refine ⟨z, hz, ?_, hzid, hzd, hzf⟩
          intro hzF2
          rcases hzF2 with h3 | h3
          · exact hzF h3
          · apply hrootnotin
            rw [← hvid, ← h3, hzid]
            exact List.mem_map_of_mem HeapNode.cityID hmm
        have hfin3 : ∀ z, F2 z → ∀ w, Reaches g src z w → dist z ≤ w := by
          intro z hz3 w hw
          rcases hz3 with h3 | h3
          · exact hfin z h3 w hw
          · rw [h3] at hw ⊢
            exact hvopt w hw
        obtain ⟨msound, mstab, mmono, mrel, minv, mresid, mnodes, mfresh,
          mlen⟩ :=
          relaxEdges_master g hwf src F2 v (findCityIndex g r1.cityID) hfcit
            (Or.inr rfl) hv (nthCity g v).adjList dist parent h2
            (fun e he => he) hsound hinv2 hresid3 hnodes3 hfin3 hfresh2
        set sR := relaxEdges g (findCityIndex g r1.cityID)
          (nthCity g v).adjList dist parent h2 with hsR
        have hlen3 : h2.nodes.length + 1 = h.nodes.length := by
          rw [hperm.length_eq, List.length_cons]
        have hfuel2 : sR.2.2.nodes.length ≤ fuel := by
          rw [mlen]
          omega
        have hsrc02 : sR.1 src = 0 := by
          have hle := mmono src
          rw [hsrc0] at hle
          by_cases hINF : sR.1 src = INF
          · exfalso
            have hIpos : (0:Int) < INF := by norm_num [INF]
            rw [hINF] at hle
            omega
          · have hr := msound.2 src hsrc hINF
            have hnn := reaches_nonneg hwf.2.2 hr
            omega
        have hfin4 : ∀ z, F2 z → ∀ w, Reaches g src z w → sR.1 z ≤ w := by
          intro z hz3 w hw
          rw [mstab z hz3]
          exact hfin3 z hz3 w hw
        have hrel4 : ∀ u2, F2 u2 → sR.1 u2 ≠ INF →
            ∀ e ∈ (nthCity g u2).adjList,
            sR.1 (findCityIndex g e.destCityID).toNat ≤ sR.1 u2 + e.distance := by
          intro u2 hu2 hINF e he
          rw [mstab u2 hu2] at hINF ⊢
          rcases hu2 with h3 | h3
          · exact le_trans (mmono _) (hrel u2 h3 hINF e he)
          · rw [h3] at hINF he ⊢
            exact mrel e he hINF
        exact ih F2 sR.1 sR.2.1 sR.2.2 hfuel2 msound hsrc02 minv mresid
          mnodes hfin4 hrel4 mfresh

theorem range_map_cityID (g : Graph) :
    (List.range (numCities g)).map (fun i => (nthCity g i).cityID)
      = g.cities.map City.cityID := by
  apply List.ext_getElem
  · simp [numCities]
  · intro i h1 h2
    have hi : i < g.cities.length := by simpa using h2
    simp only [List.getElem_map, List.getElem_range]
    rw [nthCity_eq_getElem hi]

/-- `insertAll` seeds the heap with exactly one node per city slot and
establishes the heap invariant and a fully cleared position table for
non-residents. -/
theorem insertAll_facts (g : Graph) (hwf : WellFormed g) (dist0 : Nat → Int) :
    List.Perm (insertAll g dist0 (createMinHeap (numCities g))).nodes
      ((List.range (numCities g)).map fun i =>
        (⟨(nthCity g i).cityID, dist0 i, dist0 i⟩ : HeapNode)) ∧
    HeapInv (insertAll g dist0 (createMinHeap (numCities g))) ∧
    (∀ c, c ∉ residentIds
        (insertAll g dist0 (createMinHeap (numCities g))).nodes →
      (insertAll g dist0 (createMinHeap (numCities g))).pos c = -1) := by
  have hinv0 : HeapInv (createMinHeap (numCities g)) := by
    refine ⟨?_, ?_, ?_⟩
    · intro i h1 h2
      simp [createMinHeap] at h2
    · intro k hk
      simp [createMinHeap] at hk
    · simp [createMinHeap, residentIds]
  have hfresh0 : ∀ c, c ∉ residentIds (createMinHeap (numCities g)).nodes →
      (createMinHeap (numCities g)).pos c = -1 := fun c _ => rfl
  have hlt0 : ∀ i ∈ List.range (numCities g), i < numCities g :=
    fun i hi => List.mem_range.mp hi
  have hnd0 : (((List.range (numCities g)).map fun i => (nthCity g i).cityID)
      ++ residentIds (createMinHeap (numCities g)).nodes).Nodup := by
    rw [show residentIds (createMinHeap (numCities g)).nodes = [] from rfl,
      List.append_nil, range_map_cityID]
    exact hwf.1
  have hcap0 : (createMinHeap (numCities g)).nodes.length +
      (List.range (numCities g)).length ≤
      (createMinHeap (numCities g)).capacity := by
    simp [createMinHeap]
  obtain ⟨hperm, hinv, hcap, hpos⟩ :=
    insertList_spec g dist0 (List.range (numCities g))
      (createMinHeap (numCities g)) hinv0 hfresh0 hlt0 hnd0 hcap0
  refine ⟨hperm.trans ?_, hinv, hpos⟩
  rw [show (createMinHeap (numCities g)).nodes = [] from rfl, List.append_nil]

/-- **C1** (amended): on a well-formed graph with both endpoints present,
whenever some directed path of weight below the `INF` sentinel joins the
source to the destination, `dijkstra` returns a path result whose
`totalDistance` is exactly the minimum path weight. -/
theorem dijkstra_shortest (g : Graph) (s d : Int) (hwf : WellFormed g)
    (hs : findCityIndex g s ≠ -1) (hd : findCityIndex g d ≠ -1)
    (w0 : Int) (hw0 : w0 < INF)
    (hreach : Reaches g (findCityIndex g s).toNat (findCityIndex g d).toNat
      w0) :
    ∃ pr, (dijkstra g s d).1 = some pr ∧
      IsMinReach g (findCityIndex g s).toNat (findCityIndex g d).toNat
        pr.totalDistance := by
  have hsn := (findCityIndex_found hs).1
  have hdn := (findCityIndex_found hd).1
  obtain ⟨hAperm, hAinv, hApos⟩ := insertAll_facts g hwf
    (fun i => if i = (findCityIndex g s).toNat then 0 else INF)
  have hAlen : (insertAll g
      (fun i => if i = (findCityIndex g s).toNat then 0 else INF)
      (createMinHeap (numCities g))).nodes.length = numCities g := by
    rw [hAperm.length_eq, List.length_map, List.length_range]
  have hresid0 : ∀ z, z < numCities g → (¬ False ↔ (nthCity g z).cityID ∈
      residentIds (insertAll g
        (fun i => if i = (findCityIndex g s).toNat then 0 else INF)
        (createMinHeap (numCities g))).nodes) := by
    intro z hz
    constructor
    · intro _
      have hmem : (⟨(nthCity g z).cityID,
          (fun i => if i = (findCityIndex g s).toNat then 0 else INF) z,
          (fun i => if i = (findCityIndex g s).toNat then 0 else INF) z⟩ :
            HeapNode) ∈ (insertAll g
          (fun i => if i = (findCityIndex g s).toNat then 0 else INF)
          (createMinHeap (numCities g))).nodes := by
        rw [hAperm.mem_iff]
        exact List.mem_map_of_mem _ (List.mem_range.mpr hz)
      exact List.mem_map_of_mem HeapNode.cityID hmem
    · intro _ hf
      exact hf
  have hnodes0 : ∀ m ∈ (insertAll g
      (fun i => if i = (findCityIndex g s).toNat then 0 else INF)
      (createMinHeap (numCities g))).nodes,
      ∃ z, z < numCities g ∧ ¬ False ∧ (nthCity g z).cityID = m.cityID ∧
      m.distance = (fun i => if i = (findCityIndex g s).toNat then 0 else INF) z ∧
      m.fScore = (fun i => if i = (findCityIndex g s).toNat then 0 else INF) z := by
    intro m hm
    rw [hAperm.mem_iff] at hm
    obtain ⟨i, hi, him⟩ := List.mem_map.mp hm
    refine ⟨i, List.mem_range.mp hi, fun hf => hf, ?_, ?_, ?_⟩
    · rw [← him]
    · rw [← him]
    · rw [← him]
  obtain ⟨hMsound, hMmin⟩ := dijkstraLoop_master g hwf
    (findCityIndex g s).toNat hsn (findCityIndex g d) hdn
    (numCities g + 1) (fun _ => False)
    (fun i => if i = (findCityIndex g s).toNat then 0 else INF) (fun _ => -1)
    (insertAll g (fun i => if i = (findCityIndex g s).toNat then 0 else INF)
      (createMinHeap (numCities g)))
    (by rw [hAlen]; omega)
    (dist0_sound g (findCityIndex g s))
    (by simp)
    hAinv hresid0 hnodes0
    (fun z hz => hz.elim) (fun u2 hu2 => hu2.elim)
    (fun c hc => Or.inl (hApos c hc))
  have hdle := hMmin w0 hreach
  simp only [dijkstra]
  rw [if_neg (by simp [hs, hd])]
  split
  · next hcon =>
      exfalso
      rw [hcon] at hdle
      omega
  · next hcon =>
      refine ⟨_, rfl, ?_⟩
      have htd : ∀ (g2 : Graph) (p2 : Nat → Int) (fuel : Nat) (cur x : Int)
          (cap : Nat),
          (reversePath (buildPath g2 p2 fuel cur ⟨[], x, cap⟩)).totalDistance
            = x := by
        intro g2 p2 fuel cur x cap
        show (buildPath g2 p2 fuel cur ⟨[], x, cap⟩).totalDistance = x
        rw [buildPath_totalDistance]
      rw [htd]
      exact ⟨hMsound.2 _ hdn hcon, hMmin⟩

/-- **C1** witness: on the §8 example graph the returned distance 7 is the
exact minimum A→D path weight. -/
theorem dijkstra_shortest_witness :
    ∃ pr, (dijkstra exampleGraph 1 4).1 = some pr ∧
      IsMinReach exampleGraph (findCityIndex exampleGraph 1).toNat
        (findCityIndex exampleGraph 4).toNat pr.totalDistance :=
  dijkstra_shortest exampleGraph 1 4 (by decide) (by decide) (by decide) 7
    (by decide)
    (show Reaches exampleGraph 0 3 ((0 + 3) + 4) from
      Reaches.step ⟨4, 4⟩
        (show Reaches exampleGraph 0 1 (0 + 3) from
          Reaches.step ⟨2, 3⟩ (Reaches.refl 0) (by decide) (by decide)
            (by decide))
        (by decide) (by decide) (by decide))

/-! ### A* with a dominated-weight heuristic (C3) -/

set_option maxHeartbeats 1000000 in
/-- Consistency of the truncated Euclidean heuristic: when an edge's weight
dominates the straight-line distance between its endpoints (in squared,
integer form), following the edge lowers the heuristic by at most the edge
weight. -/
theorem heuristic_consistent (g : Graph) (a b dd : Nat) (w : Int) (hw : 0 < w)
    (hgeom : ((nthCity g a).x - (nthCity g b).x) *
        ((nthCity g a).x - (nthCity g b).x) +
      ((nthCity g a).y - (nthCity g b).y) *
        ((nthCity g a).y - (nthCity g b).y) ≤ w * w) :
    heuristic g a dd ≤ w + heuristic g b dd := by
  simp only [heuristic]
  set p1 := (nthCity g a).x - (nthCity g b).x with hp1
  set p2 := (nthCity g a).y - (nthCity g b).y with hp2
  set q1 := (nthCity g b).x - (nthCity g dd).x with hq1
  set q2 := (nthCity g b).y - (nthCity g dd).y with hq2
  have hx : (nthCity g a).x - (nthCity g dd).x = p1 + q1 := by
    rw [hp1, hq1]
    ring
  have hy : (nthCity g a).y - (nthCity g dd).y = p2 + q2 := by
    rw [hp2, hq2]
    ring
  rw [hx, hy]
  set A : Int := (p1+q1)*(p1+q1) + (p2+q2)*(p2+q2) with hA
  set B : Int := q1*q1 + q2*q2 with hB
  set s := Nat.sqrt B.toNat with hsdef
  clear_value p1 p2 q1 q2 A B s
  have hBnn : 0 ≤ B := by
    rw [hB]
    nlinarith [mul_self_nonneg q1, mul_self_nonneg q2]
  have hAnn : 0 ≤ A := by
    rw [hA]
    nlinarith [mul_self_nonneg (p1+q1), mul_self_nonneg (p2+q2)]
  have hBlt : B < ((s:Int)+1) * ((s:Int)+1) := by
    have h1 : B.toNat < (s+1) * (s+1) := by
      rw [hsdef]
      have h0 := Nat.lt_succ_sqrt' B.toNat
      rw [pow_two] at h0
      exact h0
    have h2 : (B.toNat : Int) < (((s+1)*(s+1) : Nat) : Int) := by
      exact_mod_cast h1
    rw [Int.toNat_of_nonneg hBnn] at h2
    push_cast at h2
    exact h2
  have hw1 : (1:Int) ≤ w := hw
  have hsnn : (0:Int) ≤ (s:Int) := Int.ofNat_nonneg s
  have hC : p1*p1 + p2*p2 ≤ w*w := hgeom
  have hB2 : q1*q1 + q2*q2 ≤ (s:Int)*(s:Int) + 2*(s:Int) := by
    rw [← hB]
    nlinarith
  have hkey : A < (w + (s:Int) + 1) * (w + (s:Int) + 1) := by
    rw [hA]
    have hBnn2 : (0:Int) ≤ q1*q1 + q2*q2 := by
      nlinarith [mul_self_nonneg q1, mul_self_nonneg q2]
    have hCnn : (0:Int) ≤ p1*p1 + p2*p2 := by
      nlinarith [mul_self_nonneg p1, mul_self_nonneg p2]
    have hD : p1*q1 + p2*q2 ≤ w*(s:Int) + w - 1 := by
      by_contra hcon
      push_neg at hcon
      have hDge : w*(s:Int) + w ≤ p1*q1 + p2*q2 := by omega
      have hws : (0:Int) ≤ w*(s:Int) + w := by
        have hm := mul_nonneg (le_of_lt hw) hsnn
        omega
      have hsq : (w*(s:Int)+w)*(w*(s:Int)+w) ≤
          (p1*q1+p2*q2)*(p1*q1+p2*q2) :=
        mul_self_le_mul_self hws hDge
      have hlag : (p1*q1 + p2*q2)*(p1*q1 + p2*q2) ≤
          (p1*p1+p2*p2)*(q1*q1+q2*q2) := by
        nlinarith [sq_nonneg (p1*q2 - p2*q1)]
      have h2 : (p1*p1+p2*p2)*(q1*q1+q2*q2) ≤
          (w*w)*((s:Int)*(s:Int)+2*(s:Int)) := by
        nlinarith
      nlinarith
    nlinarith
  have hfin : Nat.sqrt A.toNat ≤ w.toNat + s := by
    have h3 : Nat.sqrt A.toNat < w.toNat + s + 1 := by
      rw [Nat.sqrt_lt', pow_two]
      have hcast : ((w.toNat + s + 1 : Nat) : Int) = w + (s:Int) + 1 := by
        omega
      have h6 : (A.toNat : Int) <
          ((w.toNat + s + 1 : Nat) : Int) * ((w.toNat + s + 1 : Nat) : Int) := by
        rw [hcast, Int.toNat_of_nonneg hAnn]
        exact hkey
      exact_mod_cast h6
    omega
  have h7 : (Nat.sqrt A.toNat : Int) ≤ ((w.toNat + s : Nat) : Int) := by
    exact_mod_cast hfin
  have h8 : ((w.toNat + s : Nat) : Int) = w + (s:Int) := by omega
  rw [h8] at h7
  exact_mod_cast h7

theorem astarRelax_cons_pos (g : Graph) (destIndex u : Int) (e : Edge)
    (rest : List Edge) (gScore fScore parent : Nat → Int) (h : MinHeap)
    (hg : gScore u.toNat + e.distance <
      gScore (findCityIndex g e.destCityID).toNat) :
    astarRelax g destIndex u (e :: rest) gScore fScore parent h =
      astarRelax g destIndex u rest
        (fun j => if j = (findCityIndex g e.destCityID).toNat
          then gScore u.toNat + e.distance else gScore j)
        (fun j => if j = (findCityIndex g e.destCityID).toNat
          then gScore u.toNat + e.distance +
            heuristic g (findCityIndex g e.destCityID).toNat destIndex.toNat
          else fScore j)
        (fun j => if j = (findCityIndex g e.destCityID).toNat
          then u else parent j)
        (if h.pos e.destCityID = -1 then
          insertHeap h e.destCityID (gScore u.toNat + e.distance)
            (gScore u.toNat + e.distance +
              heuristic g (findCityIndex g e.destCityID).toNat
                destIndex.toNat)
        else
          decreaseKey h e.destCityID (gScore u.toNat + e.distance)
            (gScore u.toNat + e.distance +
              heuristic g (findCityIndex g e.destCityID).toNat
                destIndex.toNat)) := by
  simp only [astarRelax]
  rw [if_pos hg]
  simp

theorem astarRelax_cons_neg (g : Graph) (destIndex u : Int) (e : Edge)
    (rest : List Edge) (gScore fScore parent : Nat → Int) (h : MinHeap)
    (hg : ¬ (gScore u.toNat + e.distance <
      gScore (findCityIndex g e.destCityID).toNat)) :
    astarRelax g destIndex u (e :: rest) gScore fScore parent h =
      astarRelax g destIndex u rest gScore fScore parent h := by
  simp only [astarRelax]
  rw [if_neg hg]

/-- The A* cut lemma under a consistent heuristic: every path from the
source ends at a finalized vertex whose gScore bounds the path weight,
crosses the open frontier at a vertex whose fScore is at most the path
weight plus the endpoint's heuristic, or weighs at least `INF`. -/
theorem astar_cut (g : Graph) (hwf : WellFormed g) (hgeo : EdgeGeo g)
    (src : Nat) (hsrc : src < numCities g) (destIndex : Int)
    (F : Finset Nat) (gScore : Nat → Int)
    (hsound : DistSound g src gScore) (hsrc0 : gScore src = 0)
    (hfin : ∀ z ∈ F, ∀ w, Reaches g src z w → gScore z ≤ w)
    (hrel : ∀ z ∈ F, ∀ e ∈ (nthCity g z).adjList,
      gScore (findCityIndex g e.destCityID).toNat ≤ gScore z + e.distance) :
    ∀ z w, Reaches g src z w →
      (z ∈ F ∧ gScore z ≤ w) ∨
      (∃ x, x < numCities g ∧ x ∉ F ∧ gScore x ≠ INF ∧
        gScore x + heuristic g x destIndex.toNat ≤
          w + heuristic g z destIndex.toNat) ∨
      INF ≤ w := by
  intro z w hreach
  induction hreach with
  | refl =>
    by_cases hF : src ∈ F
    · exact Or.inl ⟨hF, le_of_eq hsrc0⟩
    · refine Or.inr (Or.inl ⟨src, hsrc, hF, ?_, ?_⟩)
      · rw [hsrc0]
        norm_num [INF]
      · rw [hsrc0]
  | step e hij he hk htgt ih =>
    rename_i j k w'
    have hj : j < numCities g := by
      by_contra hcon
      rw [nthCity_default hcon] at he
      exact absurd he (by simp [dCity])
    have hepos : 0 < e.distance := hwf.2.2 _ (nthCity_mem hj) e he
    have hkidx : (findCityIndex g e.destCityID).toNat = k := by
      rw [← htgt, findCityIndex_nthCity hwf.1 hk]
      simp
    have hcons : heuristic g j destIndex.toNat ≤
        e.distance + heuristic g k destIndex.toNat :=
      heuristic_consistent g j k destIndex.toNat e.distance hepos
        (hgeo j hj e he k hk htgt)
    rcases ih with ⟨hjF, hjle⟩ | ⟨x, hx, hxF, hxfin, hxle⟩ | hINF
    · have h2 := hrel j hjF e he
      rw [hkidx] at h2
      have hklow : gScore k ≤ w' + e.distance := le_trans h2 (by omega)
      by_cases hkF : k ∈ F
      · exact Or.inl ⟨hkF, hklow⟩
      · by_cases hkINF : gScore k = INF
        · right
          right
          rw [hkINF] at hklow
          exact hklow
        · exact Or.inr (Or.inl ⟨k, hk, hkF, hkINF, by omega⟩)
    · refine Or.inr (Or.inl ⟨x, hx, hxF, hxfin, ?_⟩)
      omega
    · right
      right
      omega

/-- The extraction step of A* under a consistent heuristic: when a slot's
fScore is minimal over the heap, its gScore bounds every path weight to
it. -/
theorem astar_extract_optimal (g : Graph) (hwf : WellFormed g)
    (hgeo : EdgeGeo g) (src : Nat) (hsrc : src < numCities g)
    (destIndex : Int) (F : Finset Nat) (gScore : Nat → Int) (h : MinHeap)
    (hsound : DistSound g src gScore) (hsrc0 : gScore src = 0)
    (hresid : ∀ z, z < numCities g → ((z ∉ F ∧ gScore z ≠ INF) ↔
      (nthCity g z).cityID ∈ residentIds h.nodes))
    (hnodes : ∀ m ∈ h.nodes, ∃ z, z < numCities g ∧ z ∉ F ∧
      (nthCity g z).cityID = m.cityID ∧ m.distance = gScore z ∧
      m.fScore = gScore z + heuristic g z destIndex.toNat)
    (hfin : ∀ z ∈ F, ∀ w, Reaches g src z w → gScore z ≤ w)
    (hrel : ∀ z ∈ F, ∀ e ∈ (nthCity g z).adjList,
      gScore (findCityIndex g e.destCityID).toNat ≤ gScore z + e.distance)
    (v : Nat) (hv : v < numCities g)
    (hmin : ∀ m ∈ h.nodes,
      gScore v + heuristic g v destIndex.toNat ≤ m.fScore) :
    ∀ w, Reaches g src v w → gScore v ≤ w := by
  intro w hreach
  rcases astar_cut g hwf hgeo src hsrc destIndex F gScore hsound hsrc0
    hfin hrel v w hreach with ⟨_, hle⟩ | ⟨x, hx, hxF, hxfin, hxle⟩ | hINF
  · exact hle
  · have hxmem := (hresid x hx).mp ⟨hxF, hxfin⟩
    obtain ⟨m, hm, hmid⟩ := List.mem_map.mp hxmem
    obtain ⟨z, hz, hzF, hzid, hzd, hzf⟩ := hnodes m hm
    have hzx : z = x := cityID_inj hwf.1 hz hx (by rw [hzid, hmid])
    rw [hzx] at hzf
    have hvm := hmin m hm
    rw [hzf] at hvm
    omega
  · have h1 := hsound.1 v
    omega

/-- The master invariant-preservation lemma for A*'s relaxation scan with
lazy insertion: scanning the out-edges of a freshly finalized slot `v`
preserves soundness, finalized gScores, the heap invariant, the open-set
bookkeeping, position-table freshness, and the extraction budget, only ever
lowers entries, and leaves each scanned edge relaxed. -/
theorem astarRelax_master (g : Graph) (hwf : WellFormed g) (src : Nat)
    (destIndex : Int) (F : Finset Nat) (v : Nat) (u : Int)
    (hu : u.toNat = v) (hvF : v ∈ F) (hvn : v < numCities g)
    (hFsub : ∀ z ∈ F, z < numCities g) :
    ∀ (es : List Edge) (gScore fScore parent : Nat → Int) (h : MinHeap),
    (∀ e ∈ es, e ∈ (nthCity g v).adjList) →
    DistSound g src gScore →
    HeapInv h →
    (∀ z, z < numCities g → ((z ∉ F ∧ gScore z ≠ INF) ↔
      (nthCity g z).cityID ∈ residentIds h.nodes)) →
    (∀ m ∈ h.nodes, ∃ z, z < numCities g ∧ z ∉ F ∧
      (nthCity g z).cityID = m.cityID ∧ m.distance = gScore z ∧
      m.fScore = gScore z + heuristic g z destIndex.toNat) →
    (∀ z ∈ F, ∀ w, Reaches g src z w → gScore z ≤ w) →
    (∀ c, c ∉ residentIds h.nodes → h.pos c = -1 ∨
      ∃ z, z < numCities g ∧ z ∈ F ∧ (nthCity g z).cityID = c) →
    h.capacity = numCities g →
    DistSound g src (astarRelax g destIndex u es gScore fScore parent h).1 ∧
    (∀ z ∈ F, (astarRelax g destIndex u es gScore fScore parent h).1 z
      = gScore z) ∧
    (∀ z, (astarRelax g destIndex u es gScore fScore parent h).1 z
      ≤ gScore z) ∧
    (∀ e ∈ es,
      (astarRelax g destIndex u es gScore fScore parent h).1
        (findCityIndex g e.destCityID).toNat ≤ gScore v + e.distance) ∧
    HeapInv (astarRelax g destIndex u es gScore fScore parent h).2.2.2 ∧
    (∀ z, z < numCities g → ((z ∉ F ∧
      (astarRelax g destIndex u es gScore fScore parent h).1 z ≠ INF) ↔
      (nthCity g z).cityID ∈ residentIds
        (astarRelax g destIndex u es gScore fScore parent h).2.2.2.nodes)) ∧
    (∀ m ∈ (astarRelax g destIndex u es gScore fScore parent h).2.2.2.nodes,
      ∃ z, z < numCities g ∧ z ∉ F ∧ (nthCity g z).cityID = m.cityID ∧
      m.distance = (astarRelax g destIndex u es gScore fScore parent h).1 z ∧
      m.fScore = (astarRelax g destIndex u es gScore fScore parent h).1 z
        + heuristic g z destIndex.toNat) ∧
    (∀ c, c ∉ residentIds
        (astarRelax g destIndex u es gScore fScore parent h).2.2.2.nodes →
      (astarRelax g destIndex u es gScore fScore parent h).2.2.2.pos c = -1 ∨
      ∃ z, z < numCities g ∧ z ∈ F ∧ (nthCity g z).cityID = c) ∧
    (astarRelax g destIndex u es gScore fScore parent h).2.2.2.capacity
      = h.capacity ∧
    (astarRelax g destIndex u es gScore fScore parent h).2.2.2.nodes.length +
      ((Finset.range (numCities g)).filter (fun z => z ∉ F ∧
        (astarRelax g destIndex u es gScore fScore parent h).1 z
          = INF)).card
      = h.nodes.length + ((Finset.range (numCities g)).filter
        (fun z => z ∉ F ∧ gScore z = INF)).card := by
  intro es
  induction es with
  | nil =>
    intro gScore fScore parent h _ hsound hinv hresid hnodes hfin hfresh hcapn
    exact ⟨hsound, fun z _ => rfl, fun z => le_refl _,
      fun e he => absurd he (List.not_mem_nil e),
      hinv, hresid, hnodes, hfresh, rfl, rfl⟩
  | cons e rest ih =>
    intro gScore fScore parent h hes hsound hinv hresid hnodes hfin hfresh hcapn
    by_cases hg : gScore u.toNat + e.distance <
        gScore (findCityIndex g e.destCityID).toNat
    · rw [astarRelax_cons_pos g destIndex u e rest gScore fScore parent h hg]
      rw [hu] at hg ⊢
      have hEadj : e ∈ (nthCity g v).adjList :=
        hes e (List.mem_cons_self e rest)
      have hidxne : findCityIndex g e.destCityID ≠ -1 :=
        hwf.2.1 _ (nthCity_mem hvn) e hEadj
      obtain ⟨htn, htid⟩ := findCityIndex_found hidxne
      set t := (findCityIndex g e.destCityID).toNat with htdef
      have hepos : 0 < e.distance := hwf.2.2 _ (nthCity_mem hvn) e hEadj
      have hvfin : gScore v ≠ INF := by
        intro hcon
        have h1 := hsound.1 t
        rw [hcon] at hg
        omega
      have hreachV : Reaches g src v (gScore v) := hsound.2 v hvn hvfin
      have hreachT : Reaches g src t (gScore v + e.distance) :=
        Reaches.step e hreachV hEadj htn htid
      have htF : t ∉ F := by
        intro hFt
        have := hfin t hFt _ hreachT
        omega
      have hvt : v ≠ t := by
        intro hcon
        rw [← hcon] at htF
        exact htF hvF
      have hnodup0 := hinv.2.2
      set gScore2 := fun j => if j = t then gScore v + e.distance
        else gScore j with hgs2
      set fScore2 := fun j => if j = t then gScore v + e.distance +
        heuristic g t destIndex.toNat else fScore j with hfs2
      set parent2 := fun j => if j = t then u else parent j with hpar2
      have hd2t : gScore2 t = gScore v + e.distance := by
        rw [hgs2]
        simp
      have hd2o : ∀ z2, z2 ≠ t → gScore2 z2 = gScore z2 := by
        intro z2 hz2
        rw [hgs2]
        simp [hz2]
      have hd2v : gScore2 v = gScore v := hd2o v hvt
      have hd2le : ∀ z2, gScore2 z2 ≤ gScore z2 := by
        intro z2
        by_cases hz2 : z2 = t
        · rw [hz2, hd2t]
          omega
        · rw [hd2o z2 hz2]
      have hsound2 : DistSound g src gScore2 := by
        constructor
        · intro z2
          by_cases hz2 : z2 = t
          · rw [hz2, hd2t]
            have h1 := hsound.1 t
            omega
          · rw [hd2o z2 hz2]
            exact hsound.1 z2
        · intro z2 hz2n hz2INF
          by_cases hz2 : z2 = t
          · rw [hz2, hd2t]
            exact hreachT
          · rw [hd2o z2 hz2] at hz2INF ⊢
            exact hsound.2 z2 hz2n hz2INF
      have hfin2 : ∀ z2 ∈ F, ∀ w, Reaches g src z2 w → gScore2 z2 ≤ w := by
        intro z2 hz2F w hw
        have hz2t : z2 ≠ t := fun hcon => htF (hcon ▸ hz2F)
        rw [hd2o z2 hz2t]
        exact hfin z2 hz2F w hw
      have hes2 : ∀ e2 ∈ rest, e2 ∈ (nthCity g v).adjList :=
        fun e2 he2 => hes e2 (List.mem_cons_of_mem e he2)
      have hnewfin : gScore v + e.distance ≠ INF := by
        have h1 := hsound.1 t
        omega
      by_cases hpos : h.pos e.destCityID = -1
      · -- lazy insertion of a city seen for the first time
        rw [if_pos hpos]
        have htnr : (nthCity g t).cityID ∉ residentIds h.nodes := by
          intro hcon
          obtain ⟨m, hm, hmid⟩ := List.mem_map.mp hcon
          obtain ⟨k, hk, hkm⟩ := List.mem_iff_getElem.mp hm
          have hkN : nthNode h.nodes k = m := by
            rw [nthNode_eq_getElem hk]
            exact hkm
          have hacck := hinv.2.1 k hk
          rw [hkN, hmid, htid, hpos] at hacck
          omega
        have hgtINF : gScore t = INF := by
          by_contra hcon
          exact htnr ((hresid t htn).mp ⟨htF, hcon⟩)
        have htnr2 : e.destCityID ∉ residentIds h.nodes := htid ▸ htnr
        have hsub : residentIds h.nodes ⊆ g.cities.map City.cityID := by
          intro c hc
          obtain ⟨m, hm, hmid⟩ := List.mem_map.mp hc
          obtain ⟨z, hz, _, hzid, _, _⟩ := hnodes m hm
          rw [← hmid, ← hzid]
          exact List.mem_map_of_mem City.cityID (nthCity_mem hz)
        have hlencap : h.nodes.length < h.capacity := by
          have hnd1 : ((nthCity g t).cityID :: residentIds h.nodes).Nodup :=
            List.nodup_cons.mpr ⟨htnr, hnodup0⟩
          have hsub1 : (nthCity g t).cityID :: residentIds h.nodes ⊆
              g.cities.map City.cityID := by
            intro c hc
            rcases List.mem_cons.mp hc with h1 | h1
            · rw [h1]
              exact List.mem_map_of_mem City.cityID (nthCity_mem htn)
            · exact hsub h1
          have hle := (List.subperm_of_subset hnd1 hsub1).length_le
          rw [List.length_cons, List.length_map] at hle
          have hlenres : (residentIds h.nodes).length = h.nodes.length := by
            rw [residentIds, List.length_map]
          rw [hlenres] at hle
          rw [hcapn]
          exact hle
        obtain ⟨hIperm, hIinv, hIcap, hIpos⟩ :=
          insertHeap_spec h e.destCityID (gScore v + e.distance)
            (gScore v + e.distance + heuristic g t destIndex.toNat)
            hinv hlencap htnr2
        set h2 := insertHeap h e.destCityID (gScore v + e.distance)
          (gScore v + e.distance + heuristic g t destIndex.toNat) with hh2
        have hmem2 : ∀ x : Int, x ∈ residentIds h2.nodes ↔
            x = e.destCityID ∨ x ∈ residentIds h.nodes := by
          intro x
          show x ∈ h2.nodes.map HeapNode.cityID ↔ _
          rw [(hIperm.map HeapNode.cityID).mem_iff, List.map_cons,
            List.mem_cons]
          exact Iff.rfl
        have hresid2 : ∀ z2, z2 < numCities g → ((z2 ∉ F ∧ gScore2 z2 ≠ INF)
            ↔ (nthCity g z2).cityID ∈ residentIds h2.nodes) := by
          intro z2 hz2n
          by_cases hz2 : z2 = t
          · rw [hz2]
            constructor
            · intro _
              rw [hmem2]
              exact Or.inl htid
            · intro _
              refine ⟨htF, ?_⟩
              rw [hd2t]
              exact hnewfin
          · rw [hd2o z2 hz2, hmem2]
            constructor
            · intro hop
              exact Or.inr ((hresid z2 hz2n).mp hop)
            · intro hc
              rcases hc with h1 | h1
              · exfalso
                apply hz2
                refine cityID_inj hwf.1 hz2n htn ?_
                rw [h1, htid]
              · exact (hresid z2 hz2n).mpr h1
        have hnodes2 : ∀ m2 ∈ h2.nodes, ∃ z2, z2 < numCities g ∧ z2 ∉ F ∧
            (nthCity g z2).cityID = m2.cityID ∧ m2.distance = gScore2 z2 ∧
            m2.fScore = gScore2 z2 + heuristic g z2 destIndex.toNat := by
          intro m2 hm2
          have hm2c := hIperm.mem_iff.mp hm2
          rcases List.mem_cons.mp hm2c with h1 | h1
          · refine ⟨t, htn, htF, ?_, ?_, ?_⟩
            · rw [h1]
              exact htid
            · rw [h1, hd2t]
            · rw [h1, hd2t]
          · obtain ⟨z2, hz2, hz2F, hz2id, hz2d, hz2f⟩ := hnodes m2 h1
            have hz2t : z2 ≠ t := by
              intro hcon
              apply htnr
              rw [← hcon, hz2id]
              exact List.mem_map_of_mem HeapNode.cityID h1
            refine ⟨z2, hz2, hz2F, hz2id, ?_, ?_⟩
            · rw [hd2o z2 hz2t]
              exact hz2d
            · rw [hd2o z2 hz2t]
              exact hz2f
        have hfresh2 : ∀ c, c ∉ residentIds h2.nodes → h2.pos c = -1 ∨
            ∃ z2, z2 < numCities g ∧ z2 ∈ F ∧ (nthCity g z2).cityID = c := by
          intro c hc
          have hc1 : c ≠ e.destCityID := by
            intro hcon
            apply hc
            rw [hmem2]
            exact Or.inl hcon
          have hc0 : c ∉ residentIds h.nodes := by
            intro hcon
            apply hc
            rw [hmem2]
            exact Or.inr hcon
          rw [hIpos c hc1 hc0]
          exact hfresh c hc0
        have hcapn2 : h2.capacity = numCities g := by
          rw [hIcap]
          exact hcapn
        have hlen2 : h2.nodes.length = h.nodes.length + 1 := by
          rw [hIperm.length_eq, List.length_cons]
        have hfilt : (Finset.range (numCities g)).filter
            (fun z2 => z2 ∉ F ∧ gScore2 z2 = INF)
            = ((Finset.range (numCities g)).filter
              (fun z2 => z2 ∉ F ∧ gScore z2 = INF)).erase t := by
          apply Finset.ext
          intro z2
          simp only [Finset.mem_filter, Finset.mem_erase, Finset.mem_range]
          constructor
          · rintro ⟨hzr, hzF, hzI⟩
            have hz2t : z2 ≠ t := by
              intro hcon
              rw [hcon, hd2t] at hzI
              exact hnewfin hzI
            rw [hd2o z2 hz2t] at hzI
            exact ⟨hz2t, hzr, hzF, hzI⟩
          · rintro ⟨hz2t, hzr, hzF, hzI⟩
            rw [← hd2o z2 hz2t] at hzI
            exact ⟨hzr, hzF, hzI⟩
        have htin : t ∈ (Finset.range (numCities g)).filter
            (fun z2 => z2 ∉ F ∧ gScore z2 = INF) := by
          simp only [Finset.mem_filter, Finset.mem_range]
          exact ⟨htn, htF, hgtINF⟩
        have hcard : ((Finset.range (numCities g)).filter
            (fun z2 => z2 ∉ F ∧ gScore2 z2 = INF)).card + 1
            = ((Finset.range (numCities g)).filter
              (fun z2 => z2 ∉ F ∧ gScore z2 = INF)).card := by
          rw [hfilt, Finset.card_erase_of_mem htin]
          have := Finset.card_pos.mpr ⟨t, htin⟩
          omega
        obtain ⟨ihsound, ihstab, ihmono, ihrel, ihinv, ihresid, ihnodes,
          ihfresh, ihcap, ihmeasure⟩ :=
          ih gScore2 fScore2 parent2 h2 hes2 hsound2 hIinv hresid2 hnodes2
            hfin2 hfresh2 hcapn2
        refine ⟨ihsound, ?_, ?_, ?_, ihinv, ihresid, ihnodes, ihfresh,
          ihcap.trans hIcap, ?_⟩
        · intro z2 hz2F
          rw [ihstab z2 hz2F]
          exact hd2o z2 (fun hcon => htF (hcon ▸ hz2F))
        · intro z2
          exact le_trans (ihmono z2) (hd2le z2)
        · intro e2 he2
          rcases List.mem_cons.mp he2 with he2e | he2r
          · rw [he2e, ← htdef]
            have hmt := ihmono t
            rw [hd2t] at hmt
            exact hmt
          · have hrel2 := ihrel e2 he2r
            rw [hd2v] at hrel2
            exact hrel2
        · rw [ihmeasure, hlen2]
          omega
      · -- key decrease of an already open city
        rw [if_neg hpos]
        have htres : (nthCity g t).cityID ∈ residentIds h.nodes := by
          by_contra hcon
          rcases hfresh _ hcon with h1 | ⟨z', hz', hz'F, hz'id⟩
          · rw [htid] at h1
            exact hpos h1
          · have hz't : z' = t := cityID_inj hwf.1 hz' htn hz'id
            rw [hz't] at hz'F
            exact htF hz'F
        obtain ⟨hopen, hgtfin⟩ := (hresid t htn).mpr htres
        obtain ⟨m, hm, hmid⟩ := List.mem_map.mp htres
        obtain ⟨k, hk, hkm⟩ := List.mem_iff_getElem.mp hm
        have hkN : nthNode h.nodes k = m := by
          rw [nthNode_eq_getElem hk]
          exact hkm
        obtain ⟨z, hz, hzF, hzid, hzd, hzf⟩ := hnodes m hm
        have hzt : z = t := cityID_inj hwf.1 hz htn (by rw [hzid, hmid])
        rw [hzt] at hzf hzd
        have hDK := decreaseKey_spec h e.destCityID (gScore v + e.distance)
          (gScore v + e.distance + heuristic g t destIndex.toNat) k hinv hk
          (by rw [hkN, hmid, htid])
          (by rw [hkN, hzf]; omega)
        obtain ⟨hDKperm, hDKinv, hDKcap, hDKpos⟩ := hDK
        set newNode : HeapNode := ({ nthNode h.nodes k with distance := gScore v + e.distance, fScore := gScore v + e.distance + heuristic g t destIndex.toNat } : HeapNode) with hnewNode
        set h2 := decreaseKey h e.destCityID (gScore v + e.distance)
          (gScore v + e.distance + heuristic g t destIndex.toNat) with hh2
        have hidsmem : ∀ x : Int,
            x ∈ residentIds h2.nodes ↔ x ∈ residentIds h.nodes := by
          intro x
          show x ∈ h2.nodes.map HeapNode.cityID ↔
            x ∈ h.nodes.map HeapNode.cityID
          rw [(hDKperm.map HeapNode.cityID).mem_iff]
          have hmapset : (h.nodes.set k newNode).map HeapNode.cityID
              = h.nodes.map HeapNode.cityID := by
            rw [List.map_set]
            have hk2 : k < (h.nodes.map HeapNode.cityID).length := by
              rw [List.length_map]
              exact hk
            have hval : newNode.cityID = (h.nodes.map HeapNode.cityID)[k] := by
              rw [List.getElem_map, ← nthNode_eq_getElem hk]
            rw [hval, set_self_eq hk2]
          rw [hmapset]
        have hresid2 : ∀ z2, z2 < numCities g → ((z2 ∉ F ∧ gScore2 z2 ≠ INF)
            ↔ (nthCity g z2).cityID ∈ residentIds h2.nodes) := by
          intro z2 hz2n
          rw [hidsmem]
          by_cases hz2 : z2 = t
          · rw [hz2]
            constructor
            · intro _
              exact htres
            · intro _
              refine ⟨htF, ?_⟩
              rw [hd2t]
              exact hnewfin
          · rw [hd2o z2 hz2]
            exact hresid z2 hz2n
        have hnodes2 : ∀ m2 ∈ h2.nodes, ∃ z2, z2 < numCities g ∧ z2 ∉ F ∧
            (nthCity g z2).cityID = m2.cityID ∧ m2.distance = gScore2 z2 ∧
            m2.fScore = gScore2 z2 + heuristic g z2 destIndex.toNat := by
          intro m2 hm2
          have hm2set : m2 ∈ h.nodes.set k newNode := hDKperm.mem_iff.mp hm2
          by_cases hm2n : m2 = newNode
          · refine ⟨t, htn, htF, ?_, ?_, ?_⟩
            · rw [hm2n]
              show (nthCity g t).cityID = (nthNode h.nodes k).cityID
              rw [hkN, hmid]
            · rw [hm2n, hd2t]
            · rw [hm2n, hd2t]
          · have hm2mem : m2 ∈ h.nodes := by
              rcases List.mem_or_eq_of_mem_set hm2set with hmem | heq
              · exact hmem
              · exact absurd heq hm2n
            obtain ⟨z2, hz2, hz2F, hz2id, hz2d, hz2f⟩ := hnodes m2 hm2mem
            have hz2t : z2 ≠ t := by
              intro hcon
              have hm2id : m2.cityID = m.cityID := by
                rw [← hz2id, hcon, hmid]
              obtain ⟨k2, hk2, hk2m⟩ := List.mem_iff_getElem.mp hm2set
              rw [List.length_set] at hk2
              by_cases hk2k : k2 = k
              · apply hm2n
                rw [← hk2m, List.getElem_set, if_pos hk2k.symm]
              · have hne2 : (nthNode h.nodes k2).cityID ≠
                    (nthNode h.nodes k).cityID :=
                  resident_distinct hnodup0 hk2 hk hk2k
                apply hne2
                rw [hkN, nthNode_eq_getElem hk2]
                have hsame : h.nodes[k2] = m2 := by
                  rw [← hk2m, List.getElem_set,
                    if_neg (fun hcon2 => hk2k hcon2.symm)]
                rw [hsame, hm2id]
            refine ⟨z2, hz2, hz2F, hz2id, ?_, ?_⟩
            · rw [hd2o z2 hz2t]
              exact hz2d
            · rw [hd2o z2 hz2t]
              exact hz2f
        have hfresh2 : ∀ c, c ∉ residentIds h2.nodes → h2.pos c = -1 ∨
            ∃ z2, z2 < numCities g ∧ z2 ∈ F ∧ (nthCity g z2).cityID = c := by
          intro c hc
          have hc0 : c ∉ residentIds h.nodes :=
            fun hcon => hc ((hidsmem c).mpr hcon)
          rw [hDKpos c hc0]
          exact hfresh c hc0
        have hcapn2 : h2.capacity = numCities g := by
          rw [hDKcap]
          exact hcapn
        have hlen2 : h2.nodes.length = h.nodes.length := by
          rw [hDKperm.length_eq, List.length_set]
        have hfilt : (Finset.range (numCities g)).filter
            (fun z2 => z2 ∉ F ∧ gScore2 z2 = INF)
            = (Finset.range (numCities g)).filter
              (fun z2 => z2 ∉ F ∧ gScore z2 = INF) := by
          apply Finset.filter_congr
          intro z2 _
          by_cases hz2 : z2 = t
          · rw [hz2, hd2t]
            constructor
            · rintro ⟨_, hcon⟩
              exact absurd hcon hnewfin
            · rintro ⟨_, hcon⟩
              exact absurd hcon hgtfin
          · rw [hd2o z2 hz2]
        obtain ⟨ihsound, ihstab, ihmono, ihrel, ihinv, ihresid, ihnodes,
          ihfresh, ihcap, ihmeasure⟩ :=
          ih gScore2 fScore2 parent2 h2 hes2 hsound2 hDKinv hresid2 hnodes2
            hfin2 hfresh2 hcapn2
        refine ⟨ihsound, ?_, ?_, ?_, ihinv, ihresid, ihnodes, ihfresh,
          ihcap.trans hDKcap, ?_⟩
        · intro z2 hz2F
          rw [ihstab z2 hz2F]
          exact hd2o z2 (fun hcon => htF (hcon ▸ hz2F))
        · intro z2
          exact le_trans (ihmono z2) (hd2le z2)
        · intro e2 he2
          rcases List.mem_cons.mp he2 with he2e | he2r
          · rw [he2e, ← htdef]
            have hmt := ihmono t
            rw [hd2t] at hmt
            exact hmt
          · have hrel2 := ihrel e2 he2r
            rw [hd2v] at hrel2
            exact hrel2
        · rw [ihmeasure, hlen2, hfilt]
    · rw [astarRelax_cons_neg g destIndex u e rest gScore fScore parent h hg]
      rw [hu] at hg
      obtain ⟨ihsound, ihstab, ihmono, ihrel, ihinv, ihresid, ihnodes,
        ihfresh, ihcap, ihmeasure⟩ :=
        ih gScore fScore parent h
          (fun e2 he2 => hes e2 (List.mem_cons_of_mem e he2))
          hsound hinv hresid hnodes hfin hfresh hcapn
      refine ⟨ihsound, ihstab, ihmono, ?_, ihinv, ihresid, ihnodes,
        ihfresh, ihcap, ihmeasure⟩
      intro e2 he2
      rcases List.mem_cons.mp he2 with he2e | he2r
      · rw [he2e]
        have hbound : gScore (findCityIndex g e.destCityID).toNat ≤
            gScore v + e.distance := not_lt.mp hg
        exact le_trans (ihmono _) hbound
      · exact ihrel e2 he2r

/-- When A*'s open heap is exhausted, every reachable weight to the
destination is already bounded by its gScore. -/
theorem astar_empty_final (g : Graph) (hwf : WellFormed g) (hgeo : EdgeGeo g)
    (src : Nat) (hsrc : src < numCities g) (destIndex : Int)
    (F : Finset Nat)
    (gScore : Nat → Int) (h : MinHeap) (hemp : h.nodes = [])
    (hsound : DistSound g src gScore) (hsrc0 : gScore src = 0)
    (hresid : ∀ z, z < numCities g → ((z ∉ F ∧ gScore z ≠ INF) ↔
      (nthCity g z).cityID ∈ residentIds h.nodes))
    (hfin : ∀ z ∈ F, ∀ w, Reaches g src z w → gScore z ≤ w)
    (hrel : ∀ z ∈ F, ∀ e ∈ (nthCity g z).adjList,
      gScore (findCityIndex g e.destCityID).toNat ≤ gScore z + e.distance) :
    ∀ w, Reaches g src destIndex.toNat w → gScore destIndex.toNat ≤ w := by
  intro w hw
  rcases astar_cut g hwf hgeo src hsrc destIndex F gScore hsound hsrc0
    hfin hrel destIndex.toNat w hw with
    ⟨_, hle⟩ | ⟨x, hx, hxF, hxfin, _⟩ | hINF
  · exact hle
  · exfalso
    have h2 := (hresid x hx).mp ⟨hxF, hxfin⟩
    rw [hemp] at h2
    exact absurd h2 (List.not_mem_nil _)
  · have h1 := hsound.1 destIndex.toNat
    omega

/-- The master theorem for A*'s main loop under a dominated-weight
heuristic: with fuel at least the extraction budget, the loop returns a
sound gScore table whose destination entry bounds every path weight. -/
theorem astarLoop_master (g : Graph) (hwf : WellFormed g) (hgeo : EdgeGeo g)
    (src : Nat) (hsrc : src < numCities g) (destIndex : Int)
    (hdest : destIndex.toNat < numCities g) :
    ∀ (fuel : Nat) (F : Finset Nat) (gScore fScore parent : Nat → Int)
      (h : MinHeap),
    h.nodes.length + ((Finset.range (numCities g)).filter
      (fun z => z ∉ F ∧ gScore z = INF)).card ≤ fuel →
    DistSound g src gScore →
    gScore src = 0 →
    HeapInv h →
    (∀ z, z < numCities g → ((z ∉ F ∧ gScore z ≠ INF) ↔
      (nthCity g z).cityID ∈ residentIds h.nodes)) →
    (∀ m ∈ h.nodes, ∃ z, z < numCities g ∧ z ∉ F ∧
      (nthCity g z).cityID = m.cityID ∧ m.distance = gScore z ∧
      m.fScore = gScore z + heuristic g z destIndex.toNat) →
    (∀ z ∈ F, z < numCities g) →
    (∀ z ∈ F, ∀ w, Reaches g src z w → gScore z ≤ w) →
    (∀ z ∈ F, ∀ e ∈ (nthCity g z).adjList,
      gScore (findCityIndex g e.destCityID).toNat ≤ gScore z + e.distance) →
    (∀ c, c ∉ residentIds h.nodes → h.pos c = -1 ∨
      ∃ z, z < numCities g ∧ z ∈ F ∧ (nthCity g z).cityID = c) →
    h.capacity = numCities g →
    DistSound g src (astarLoop destIndex fuel g gScore fScore parent h).2.1 ∧
    (∀ w, Reaches g src destIndex.toNat w →
      (astarLoop destIndex fuel g gScore fScore parent h).2.1
        destIndex.toNat ≤ w) := by
  intro fuel
  induction fuel with
  | zero =>
    intro F gScore fScore parent h hfuel hsound hsrc0 hinv hresid hnodes
      hFsub hfin hrel hfresh hcapn
    have hemp : h.nodes = [] := List.length_eq_zero.mp (by omega)
    exact ⟨hsound, astar_empty_final g hwf hgeo src hsrc destIndex F gScore
      h hemp hsound hsrc0 hresid hfin hrel⟩
  | succ fuel ih =>
    intro F gScore fScore parent h hfuel hsound hsrc0 hinv hresid hnodes
      hFsub hfin hrel hfresh hcapn
    simp only [astarLoop]
    by_cases hemp : isHeapEmpty h
    · rw [if_pos hemp]
      have hempn : h.nodes = [] := by
        rwa [isHeapEmpty, List.isEmpty_iff] at hemp
      exact ⟨hsound, astar_empty_final g hwf hgeo src hsrc destIndex F
        gScore h hempn hsound hsrc0 hresid hfin hrel⟩
    · rw [if_neg hemp]
      have hne : h.nodes ≠ [] := by
        rw [isHeapEmpty, List.isEmpty_iff] at hemp
        exact hemp
      obtain ⟨hroot, hrmin, hperm, hinv2, hcap2, _, huntouched⟩ :=
        extractMin_spec h hne hinv
      set r1 := (extractMin h).1 with hr1
      set h2 := (extractMin h).2 with hh2
      have hrmem : r1 ∈ h.nodes := hperm.mem_iff.mpr (List.mem_cons_self _ _)
      obtain ⟨v, hv, hvopen, hvid, hvd, hvf⟩ := hnodes r1 hrmem
      have hfci : findCityIndex g r1.cityID = (v : Int) := by
        rw [← hvid]
        exact findCityIndex_nthCity hwf.1 hv
      have hfcit : (findCityIndex g r1.cityID).toNat = v := by
        rw [hfci]
        simp
      have hvopt : ∀ w, Reaches g src v w → gScore v ≤ w := by
        refine astar_extract_optimal g hwf hgeo src hsrc destIndex F gScore
          h hsound hsrc0 hresid hnodes hfin hrel v hv ?_
        intro m hmm
        rw [← hvf]
        exact hrmin m hmm
      by_cases hudest : findCityIndex g r1.cityID = destIndex
      · rw [if_pos hudest]
        refine ⟨hsound, ?_⟩
        intro w hw
        have hdv : destIndex.toNat = v := by
          rw [← hudest, hfcit]
        rw [hdv] at hw ⊢
        exact hvopt w hw
      · rw [if_neg hudest, hfcit]
        set F2 : Finset Nat := insert v F with hF2
        have hndall := hinv.2.2
        have hndc2 : (r1.cityID :: h2.nodes.map HeapNode.cityID).Nodup := by
          have h3 : ((r1 :: h2.nodes).map HeapNode.cityID).Nodup :=
            (hperm.map HeapNode.cityID).nodup hndall
          rw [List.map_cons] at h3
          exact h3
        have hrootnotin : r1.cityID ∉ residentIds h2.nodes :=
          (List.nodup_cons.mp hndc2).1
        have hmem2 : ∀ x : Int, x ∈ residentIds h.nodes ↔
            x = r1.cityID ∨ x ∈ residentIds h2.nodes := by
          intro x
          show x ∈ h.nodes.map HeapNode.cityID ↔ _
          rw [(hperm.map HeapNode.cityID).mem_iff, List.map_cons,
            List.mem_cons]
          exact Iff.rfl
        have hvF2 : v ∈ F2 := Finset.mem_insert_self v F
        have hnotF2 : ∀ z, z ∉ F2 ↔ z ≠ v ∧ z ∉ F := by
          intro z
          rw [hF2]
          simp [Finset.mem_insert]
        have hresid3 : ∀ z, z < numCities g → ((z ∉ F2 ∧ gScore z ≠ INF) ↔
            (nthCity g z).cityID ∈ residentIds h2.nodes) := by
          intro z hzn
          by_cases hzv : z = v
          · rw [hzv]
            constructor
            · intro hopen2
              exact absurd hvF2 hopen2.1
            · intro hc
              exfalso
              apply hrootnotin
              rw [← hvid]
              exact hc
          · constructor
            · intro hopen2
              have hzF : z ∉ F := ((hnotF2 z).mp hopen2.1).2
              have hzmem := (hresid z hzn).mp ⟨hzF, hopen2.2⟩
              rcases (hmem2 _).mp hzmem with h3 | h3
              · exfalso
                apply hzv
                refine cityID_inj hwf.1 hzn hv ?_
                rw [h3, hvid]
              · exact h3
            · intro hzmem2
              have hzmem : (nthCity g z).cityID ∈ residentIds h.nodes :=
                (hmem2 _).mpr (Or.inr hzmem2)
              have hop := (hresid z hzn).mpr hzmem
              exact ⟨(hnotF2 z).mpr ⟨hzv, hop.1⟩, hop.2⟩
        have hnodes3 : ∀ m ∈ h2.nodes, ∃ z, z < numCities g ∧ z ∉ F2 ∧
            (nthCity g z).cityID = m.cityID ∧ m.distance = gScore z ∧
            m.fScore = gScore z + heuristic g z destIndex.toNat := by
          intro m hmm
          have hmm0 : m ∈ h.nodes :=
            hperm.mem_iff.mpr (List.mem_cons_of_mem _ hmm)
          obtain ⟨z, hz, hzF, hzid, hzd, hzf⟩ := hnodes m hmm0
          have hzv : z ≠ v := by
            intro hcon
            apply hrootnotin
            rw [← hvid, ← hcon, hzid]
            exact List.mem_map_of_mem HeapNode.cityID hmm
          exact ⟨z, hz, (hnotF2 z).mpr ⟨hzv, hzF⟩, hzid, hzd, hzf⟩
        have hFsub2 : ∀ z ∈ F2, z < numCities g := by
          intro z hz
          rcases Finset.mem_insert.mp hz with h3 | h3
          · rw [h3]
            exact hv
          · exact hFsub z h3
        have hfin3 : ∀ z ∈ F2, ∀ w, Reaches g src z w → gScore z ≤ w := by
          intro z hz3 w hw
          rcases Finset.mem_insert.mp hz3 with h3 | h3
          · rw [h3] at hw ⊢
            exact hvopt w hw
          · exact hfin z h3 w hw
        have hfresh3 : ∀ c, c ∉ residentIds h2.nodes → h2.pos c = -1 ∨
            ∃ z, z < numCities g ∧ z ∈ F2 ∧ (nthCity g z).cityID = c := by
          intro c hc
          by_cases hcr : c = r1.cityID
          · right
            refine ⟨v, hv, hvF2, ?_⟩
            rw [hvid, hcr]
          · rw [huntouched c hc hcr]
            have hc0 : c ∉ residentIds h.nodes := by
              intro hcon
              rcases (hmem2 _).mp hcon with h3 | h3
              · exact hcr h3
              · exact hc h3
            rcases hfresh c hc0 with h3 | ⟨z, hz, hzF, hzid⟩
            · exact Or.inl h3
            · exact Or.inr ⟨z, hz, Finset.mem_insert_of_mem hzF, hzid⟩
        have hcapn2 : h2.capacity = numCities g := by
          rw [hcap2]
          exact hcapn
        obtain ⟨msound, mstab, mmono, mrel, minv, mresid, mnodes, mfresh,
          mcap, mmeasure⟩ :=
          astarRelax_master g hwf src destIndex F2 v
            (findCityIndex g r1.cityID) hfcit hvF2 hv hFsub2
            (nthCity g v).adjList gScore fScore parent h2
            (fun e he => he) hsound hinv2 hresid3 hnodes3 hfin3 hfresh3
            hcapn2
        set sR := astarRelax g destIndex (findCityIndex g r1.cityID)
          (nthCity g v).adjList gScore fScore parent h2 with hsR
        have hlen3 : h2.nodes.length + 1 = h.nodes.length := by
          rw [hperm.length_eq, List.length_cons]
        have hvfinite : gScore v ≠ INF := by
          have hzmem : (nthCity g v).cityID ∈ residentIds h.nodes := by
            rw [hvid]
            exact List.mem_map_of_mem HeapNode.cityID hrmem
          exact ((hresid v hv).mpr hzmem).2
        have hfiltF2 : (Finset.range (numCities g)).filter
            (fun z => z ∉ F2 ∧ gScore z = INF)
            = (Finset.range (numCities g)).filter
              (fun z => z ∉ F ∧ gScore z = INF) := by
          apply Finset.filter_congr
          intro z _
          by_cases hzv : z = v
          · rw [hzv]
            constructor
            · rintro ⟨_, hcon⟩
              exact absurd hcon hvfinite
            · rintro ⟨_, hcon⟩
              exact absurd hcon hvfinite
          · rw [hnotF2 z]
            tauto
        have hfuel2 : sR.2.2.2.nodes.length +
            ((Finset.range (numCities g)).filter
              (fun z => z ∉ F2 ∧ sR.1 z = INF)).card ≤ fuel := by
          rw [mmeasure, hfiltF2]
          omega
        have hsrc02 : sR.1 src = 0 := by
          have hle := mmono src
          rw [hsrc0] at hle
          by_cases hINF : sR.1 src = INF
          · exfalso
            have hIpos : (0:Int) < INF := by norm_num [INF]
            rw [hINF] at hle
            omega
          · have hr := msound.2 src hsrc hINF
            have hnn := reaches_nonneg hwf.2.2 hr
            omega
        have hfin4 : ∀ z ∈ F2, ∀ w, Reaches g src z w → sR.1 z ≤ w := by
          intro z hz3 w hw
          rw [mstab z hz3]
          exact hfin3 z hz3 w hw
        have hrel4 : ∀ z ∈ F2, ∀ e ∈ (nthCity g z).adjList,
            sR.1 (findCityIndex g e.destCityID).toNat ≤
              sR.1 z + e.distance := by
          intro z hz3 e he
          rw [mstab z hz3]
          rcases Finset.mem_insert.mp hz3 with h3 | h3
          · rw [h3] at he ⊢
            exact mrel e he
          · exact le_trans (mmono _) (hrel z h3 e he)
        exact ih F2 sR.1 sR.2.1 sR.2.2.1 sR.2.2.2 hfuel2 msound hsrc02
          minv mresid mnodes hFsub2 hfin4 hrel4 mfresh (mcap.trans hcapn2)

/-- A* optimality under a dominated-weight heuristic: whenever some path of
weight below `INF` joins the endpoints, the returned `totalDistance` is the
exact minimum path weight. -/
theorem astar_shortest (g : Graph) (s d : Int) (hwf : WellFormed g)
    (hgeo : EdgeGeo g)
    (hs : findCityIndex g s ≠ -1) (hd : findCityIndex g d ≠ -1)
    (w0 : Int) (hw0 : w0 < INF)
    (hreach : Reaches g (findCityIndex g s).toNat (findCityIndex g d).toNat
      w0) :
    ∃ pr, (astar g s d).1 = some pr ∧
      IsMinReach g (findCityIndex g s).toNat (findCityIndex g d).toNat
        pr.totalDistance := by
  have hsn := (findCityIndex_found hs).1
  have hdn := (findCityIndex_found hd).1
  have hinv0 : HeapInv (createMinHeap (numCities g)) := by
    refine ⟨?_, ?_, ?_⟩
    · intro i h1 h2
      simp [createMinHeap] at h2
    · intro k hk
      simp [createMinHeap] at hk
    · simp [createMinHeap, residentIds]
  obtain ⟨hIperm, hIinv, hIcap, hIpos⟩ :=
    insertHeap_spec (createMinHeap (numCities g))
      (nthCity g (findCityIndex g s).toNat).cityID 0
      (heuristic g (findCityIndex g s).toNat (findCityIndex g d).toNat)
      hinv0
      (by show 0 < numCities g; omega)
      (by simp [createMinHeap, residentIds])
  set h1 := insertHeap (createMinHeap (numCities g))
    (nthCity g (findCityIndex g s).toNat).cityID 0
    (heuristic g (findCityIndex g s).toNat (findCityIndex g d).toNat)
    with hh1
  have hlen1 : h1.nodes.length = 1 := by
    rw [hIperm.length_eq, List.length_cons]
    rfl
  have hmem1 : ∀ x : Int, x ∈ residentIds h1.nodes ↔
      x = (nthCity g (findCityIndex g s).toNat).cityID := by
    intro x
    show x ∈ h1.nodes.map HeapNode.cityID ↔ _
    rw [(hIperm.map HeapNode.cityID).mem_iff, List.map_cons, List.mem_cons]
    constructor
    · intro hc
      rcases hc with h2 | h2
      · exact h2
      · exact absurd h2 (by simp [createMinHeap, residentIds])
    · intro hc
      exact Or.inl hc
  have hresid1 : ∀ z, z < numCities g → ((z ∉ (∅ : Finset Nat) ∧
      (fun i => if i = (findCityIndex g s).toNat then (0:Int) else INF) z
        ≠ INF) ↔
      (nthCity g z).cityID ∈ residentIds h1.nodes) := by
    intro z hz
    rw [hmem1]
    by_cases hzs : z = (findCityIndex g s).toNat
    · constructor
      · intro _
        rw [hzs]
      · intro _
        refine ⟨Finset.not_mem_empty z, ?_⟩
        simp only [if_pos hzs]
        norm_num [INF]
    · constructor
      · intro hop
        exfalso
        apply hop.2
        simp only [if_neg hzs]
      · intro hc
        exfalso
        exact hzs (cityID_inj hwf.1 hz hsn hc)
  have hnodes1 : ∀ m ∈ h1.nodes, ∃ z, z < numCities g ∧
      z ∉ (∅ : Finset Nat) ∧ (nthCity g z).cityID = m.cityID ∧
      m.distance =
        (fun i => if i = (findCityIndex g s).toNat then (0:Int) else INF) z ∧
      m.fScore =
        (fun i => if i = (findCityIndex g s).toNat then (0:Int) else INF) z
        + heuristic g z (findCityIndex g d).toNat := by
    intro m hm
    have hm2 := hIperm.mem_iff.mp hm
    rcases List.mem_cons.mp hm2 with h2 | h2
    · refine ⟨(findCityIndex g s).toNat, hsn, Finset.not_mem_empty _,
        ?_, ?_, ?_⟩
      · rw [h2]
      · rw [h2]
        simp
      · rw [h2]
        simp
    · exact absurd h2 (by simp [createMinHeap])
  have hfresh1 : ∀ c, c ∉ residentIds h1.nodes → h1.pos c = -1 ∨
      ∃ z, z < numCities g ∧ z ∈ (∅ : Finset Nat) ∧
        (nthCity g z).cityID = c := by
    intro c hc
    left
    have hc1 : c ≠ (nthCity g (findCityIndex g s).toNat).cityID := by
      intro hcon
      apply hc
      rw [hmem1]
      exact hcon
    rw [hIpos c hc1 (by simp [createMinHeap, residentIds])]
    rfl
  have hfuel1 : h1.nodes.length + ((Finset.range (numCities g)).filter
      (fun z => z ∉ (∅ : Finset Nat) ∧
        (fun i => if i = (findCityIndex g s).toNat then (0:Int) else INF) z
          = INF)).card ≤ astarFuel g := by
    rw [hlen1]
    have hcard := Finset.card_filter_le (Finset.range (numCities g))
      (fun z => z ∉ (∅ : Finset Nat) ∧
        (fun i => if i = (findCityIndex g s).toNat then (0:Int) else INF) z
          = INF)
    rw [Finset.card_range] at hcard
    rw [astarFuel]
    omega
  obtain ⟨hMsound, hMmin⟩ := astarLoop_master g hwf hgeo
    (findCityIndex g s).toNat hsn (findCityIndex g d) hdn
    (astarFuel g) (∅ : Finset Nat)
    (fun i => if i = (findCityIndex g s).toNat then 0 else INF)
    (fun i => if i = (findCityIndex g s).toNat
      then heuristic g (findCityIndex g s).toNat (findCityIndex g d).toNat
      else INF)
    (fun _ => -1) h1
    hfuel1
    (dist0_sound g (findCityIndex g s))
    (by simp)
    hIinv hresid1 hnodes1
    (fun z hz => absurd hz (Finset.not_mem_empty z))
    (fun z hz => absurd hz (Finset.not_mem_empty z))
    (fun z hz => absurd hz (Finset.not_mem_empty z))
    hfresh1
    (by rw [hIcap]; rfl)
  have hdle := hMmin w0 hreach
  simp only [astar]
  rw [if_neg (by simp [hs, hd])]
  simp only [eq_self_iff_true, if_true]
  split
  · next hcon =>
      exfalso
      rw [hcon] at hdle
      omega
  · next hcon =>
      refine ⟨_, rfl, ?_⟩
      have htd : ∀ (g2 : Graph) (p2 : Nat → Int) (fuel : Nat) (cur x : Int)
          (cap : Nat),
          (reversePath (buildPath g2 p2 fuel cur ⟨[], x, cap⟩)).totalDistance
            = x := by
        intro g2 p2 fuel cur x cap
        show (buildPath g2 p2 fuel cur ⟨[], x, cap⟩).totalDistance = x
        rw [buildPath_totalDistance]
      rw [htd]
      exact ⟨hMsound.2 _ hdn hcon, hMmin⟩

/-- **C3**: on a well-formed graph whose every edge weight dominates the
straight-line distance between its endpoints, and whose endpoints both
exist, `astar` returns the same `totalDistance` as `dijkstra`. -/
theorem astar_matches_dijkstra (g : Graph) (s d : Int) (hwf : WellFormed g)
    (hgeo : EdgeGeo g)
    (hs : findCityIndex g s ≠ -1) (hd : findCityIndex g d ≠ -1) :
    ∃ pr1 pr2, (dijkstra g s d).1 = some pr1 ∧ (astar g s d).1 = some pr2 ∧
      pr2.totalDistance = pr1.totalDistance := by
  have hn : 0 < numCities g := by
    have := (findCityIndex_found hs).1
    omega
  have hdlt : (findCityIndex g d).toNat < numCities g :=
    (findCityIndex_found hd).1
  by_cases hreach : ∃ w0, w0 < INF ∧
      Reaches g (findCityIndex g s).toNat (findCityIndex g d).toNat w0
  · obtain ⟨w0, hw0, hr⟩ := hreach
    obtain ⟨pr1, hpr1, hmin1⟩ := dijkstra_shortest g s d hwf hs hd w0 hw0 hr
    obtain ⟨pr2, hpr2, hmin2⟩ :=
      astar_shortest g s d hwf hgeo hs hd w0 hw0 hr
    exact ⟨pr1, pr2, hpr1, hpr2,
      le_antisymm (hmin2.2 _ hmin1.1) (hmin1.2 _ hmin2.1)⟩
  · push_neg at hreach
    refine ⟨createPathResult (numCities g), createPathResult (numCities g),
      ?_, ?_, rfl⟩
    · simp only [dijkstra]
      rw [if_neg (by simp [hs, hd])]
      split
      · rfl
      · next hcon =>
          exfalso
          have hsound := dijkstraLoop_dist_sound g hwf
            (findCityIndex g s).toNat (findCityIndex g d) hn
            (numCities g + 1)
            (fun i => if i = (findCityIndex g s).toNat then 0 else INF)
            (fun x => -1)
            (insertAll g
              (fun i => if i = (findCityIndex g s).toNat then 0 else INF)
              (createMinHeap (numCities g)))
            (dist0_sound g (findCityIndex g s))
          have hR := hsound.2 _ hdlt hcon
          have hlt := lt_of_le_of_ne (hsound.1 _) hcon
          exact hreach _ hlt hR
    · simp only [astar]
      rw [if_neg (by simp [hs, hd])]
      simp only [eq_self_iff_true, if_true]
      split_ifs with hcon
      · rfl
      · exfalso
        have hsound := astarLoop_gScore_sound g hwf
          (findCityIndex g s).toNat (findCityIndex g d) hn
          (astarFuel g)
          (fun i => if i = (findCityIndex g s).toNat then 0 else INF)
          (fun i => if i = (findCityIndex g s).toNat
            then heuristic g (findCityIndex g s).toNat
              (findCityIndex g d).toNat
            else INF)
          (fun x => -1)
          (insertHeap (createMinHeap (numCities g))
            (nthCity g (findCityIndex g s).toNat).cityID 0
            (heuristic g (findCityIndex g s).toNat (findCityIndex g d).toNat))
          (dist0_sound g (findCityIndex g s))
        have hR := hsound.2 _ hdlt hcon
        have hlt := lt_of_le_of_ne (hsound.1 _) hcon
        exact hreach _ hlt hR

/-- **C3** witness: on the §8 example graph (whose edge weights equal the
straight-line distances) both algorithms return the same distance. -/
theorem astar_matches_dijkstra_witness :
    ∃ pr1 pr2, (dijkstra exampleGraph 1 4).1 = some pr1 ∧
      (astar exampleGraph 1 4).1 = some pr2 ∧
      pr2.totalDistance = pr1.totalDistance :=
  astar_matches_dijkstra exampleGraph 1 4 (by decide) (by decide)
    (by decide) (by decide)

end CityNav
